import Mathlib

/-!
Vertex-cover heuristic of `src/main.cpp`: embedding and verified properties.

The program reads an edge list, builds a `Graph`, and `Solver::solve` returns a
vertex cover computed by two time-boxed heuristics, a swap search and a
redundancy-elimination pass.

Conventions of the embedding.

* C++ `int` values (vertex ids, `maxId`) are `Int`; no arithmetic in the program
  leaves the range of a 32-bit integer (ids are at most 350).
* `vector<T>` is `List T`.  `a[i]` is `a.getD i.toNat d` and `a[i] = x` is
  `a.set i.toNat x`: a read outside the vector yields the default and a write outside
  it is dropped.  The results about `solve` are stated for graphs built by
  `loadFromFile`, whose edge endpoints lie in `[1, maxId]`.
* `Timer::seconds()` is an effectful query.  A `Timer` is the stream of its
  successive readings and every function that polls the clock threads the number
  of readings made so far.  A reading is a finite `double`, that is a rational number,
  and `<`, `>` on finite doubles are the order of the rationals, so readings are
  `Rat`.  The thresholds `timeBudgetSec*0.6` and `timeBudgetSec*0.95` are doubles
  produced by a rounded multiplication; they are the fields `limit60` and `limit95` of
  `Solver`, and `T.seconds() > timeBudgetSec*0.6` is `T.seconds k > S.limit60`.
  `isDouble` and `roundsTo` describe the values of the type and the rounding, and
  `Solver.thresholds` says that the two fields are the products of the program.
* Unbounded `while` loops take a fuel argument and return `none` when it runs out.
* A second, bounds-checked embedding (namespace `Checked`) returns `none` at an access
  outside a vector; it is shown to agree with the first on constructed graphs.
-/

namespace Contest

/-- Clock of `struct Timer`: `T.seconds k` is the value returned by the `k`-th call
(counting from `0`) of `T.seconds()`. -/
structure Timer where
  seconds : Nat → Rat

/-- Fields of `struct Graph`. -/
structure Graph where
  maxId : Int
  edges : List (Int × Int)
  adj : List (List Int)
  active : List Bool

/-- `operator<` of `pair<int,int>` (lexicographic), in its non-strict form. -/
def pairLe (a b : Int × Int) : Prop := a.1 < b.1 ∨ (a.1 = b.1 ∧ a.2 ≤ b.2)

instance pairLe.decidable : DecidableRel pairLe := fun a b => by
  unfold pairLe; exact inferInstance

instance pairLe.isTotal : IsTotal (Int × Int) pairLe :=
  ⟨fun a b => by unfold pairLe; omega⟩

instance pairLe.isTrans : IsTrans (Int × Int) pairLe :=
  ⟨fun a b c => by unfold pairLe; omega⟩

/-- `std::unique`: of every run of equal adjacent elements only one is kept. -/
def unique {α : Type} [DecidableEq α] : List α → List α
  | [] => []
  | [a] => [a]
  | a :: b :: l => if a = b then unique (b :: l) else a :: unique (b :: l)

/-- Both endpoints of every edge of `M`, in the order in which
`twoApproxFromMatching` pushes them. -/
def endpoints : List (Int × Int) → List Int
  | [] => []
  | e :: M => e.1 :: e.2 :: endpoints M

/-- Two edges without a common endpoint. -/
def disjointEdges (a b : Int × Int) : Prop :=
  a.1 ≠ b.1 ∧ a.1 ≠ b.2 ∧ a.2 ≠ b.1 ∧ a.2 ≠ b.2

namespace Graph

/-- The lambda `norm` of `loadFromFile`. -/
def norm (a b : Int) : Int × Int := if a > b then (b, a) else (a, b)

/-- Body of the `while (getline ...)` loop of `loadFromFile` for one line that parsed
to the pair `p`; the state is `(maxId, edges)`. -/
def loadStep (st : Int × List (Int × Int)) (p : Int × Int) : Int × List (Int × Int) :=
  let u := p.1
  let v := p.2
  if u ≤ 0 ∨ v ≤ 0 then st
  else if u = v then (if u ≤ 350 then (max st.1 u, st.2) else st)
  else if u > 350 ∨ v > 350 then st
  else (max st.1 (max u v), st.2 ++ [norm u v])

/-- Body of the loop `for (auto e : edges)` of `loadFromFile`; the state is
`(adj, active)`. -/
def linkStep (st : List (List Int) × List Bool) (e : Int × Int) :
    List (List Int) × List Bool :=
  let u := e.1
  let v := e.2
  let adj1 := st.1.set u.toNat (st.1.getD u.toNat [] ++ [v])
  let adj2 := adj1.set v.toNat (adj1.getD v.toNat [] ++ [u])
  (adj2, (st.2.set u.toNat true).set v.toNat true)

/-- `Graph::loadFromFile` on the sequence of integer pairs parsed from the lines of
an opened file (lines that do not parse are skipped before this point). -/
def loadFromFile (pairs : List (Int × Int)) : Graph :=
  let st := pairs.foldl loadStep (0, [])
  let maxId := st.1
  let edges := unique (List.insertionSort pairLe st.2)
  let n := (maxId + 1).toNat
  let la := edges.foldl linkStep (List.replicate n [], List.replicate n false)
  { maxId := maxId, edges := edges, adj := la.1, active := la.2 }

/-- A parsed pair that `loadFromFile` turns into an edge. -/
def validPair (p : Int × Int) : Prop :=
  1 ≤ p.1 ∧ p.1 ≤ 350 ∧ 1 ≤ p.2 ∧ p.2 ≤ 350 ∧ p.1 ≠ p.2

/-- The facts about a constructed graph that the solver relies on: endpoints of stored
edges lie in `[1, maxId]`, and `adj` and `active` have `maxId + 1` entries that list
exactly the stored edges. -/
structure WF (G : Graph) : Prop where
  endpointsInRange : ∀ e ∈ G.edges, 1 ≤ e.1 ∧ e.1 < e.2 ∧ e.2 ≤ G.maxId
  adjSize : G.adj.length = (G.maxId + 1).toNat
  adjEntries : ∀ (i : Nat) (y : Int), y ∈ G.adj.getD i [] ↔
    ∃ e ∈ G.edges, (e.1.toNat = i ∧ y = e.2) ∨ (e.2.toNat = i ∧ y = e.1)
  activeEntries : ∀ i : Nat, G.active.getD i false = true ↔
    ∃ e ∈ G.edges, e.1.toNat = i ∨ e.2.toNat = i

/-- A parsed pair both of whose entries lie in `[1, 350]`; these are the pairs that
`loadFromFile` lets update `maxId`. -/
def inBound (p : Int × Int) : Prop :=
  1 ≤ p.1 ∧ p.1 ≤ 350 ∧ 1 ≤ p.2 ∧ p.2 ≤ 350

/-- The neighbours that the stored edges `es` give to the vertex with index `i`, in
the order in which `loadFromFile` appends them to `adj[i]`. -/
def neighbours (es : List (Int × Int)) (i : Nat) : List Int :=
  match es with
  | [] => []
  | e :: es =>
    (if e.1.toNat = i then [e.2] else []) ++ (if e.2.toNat = i then [e.1] else []) ++
      neighbours es i

end Graph

/-- Finite values of the type `double` (IEEE 754 binary64): the numbers `m * 2^e` with
`|m| < 2^53` and `-1074 ≤ e ≤ 971`, written here with `e = n - 1074`. -/
def isDouble (q : Rat) : Prop :=
  ∃ m : Int, ∃ n : Nat, |m| < 2 ^ 53 ∧ n ≤ 2045 ∧ q = ((m * 2 ^ n : Int) : Rat) / 2 ^ 1074

/-- The literal `0.6`: the `double` nearest to 6/10. -/
def c06 : Rat := 5404319552844595 / 9007199254740992

/-- The literal `0.95`: the `double` nearest to 95/100. -/
def c095 : Rat := 8556839292003942 / 9007199254740992

/-- Rounding to nearest of an arithmetic result: `r` is a `double` and no `double` is
nearer to the exact value `p`. -/
def roundsTo (p r : Rat) : Prop :=
  isDouble r ∧ ∀ d : Rat, isDouble d → |p - r| ≤ |p - d|

/-- Fields of `struct Solver`, and the two deadlines. The program uses the budget only
in the products `timeBudgetSec*0.6` and `timeBudgetSec*0.95`, which are rounded by the
double multiplication; `limit60` and `limit95` are the values of these two doubles, taken
as given instead of being recomputed in exact arithmetic (`Solver.thresholds` says which
values they are). -/
structure Solver where
  G : Graph
  timeBudgetSec : Rat
  limit60 : Rat
  limit95 : Rat

namespace Solver

/-- The two deadline fields hold the products that the program computes: `limit60` is
`timeBudgetSec*0.6` and `limit95` is `timeBudgetSec*0.95`, each rounded to a `double`. -/
def thresholds (S : Solver) : Prop :=
  roundsTo (S.timeBudgetSec * c06) S.limit60 ∧ roundsTo (S.timeBudgetSec * c095) S.limit95

/-- The loop `for (int v: cover) if (v>=1 && v<=G.maxId) in[v]=1;` of `coversAll`. -/
def markIn (S : Solver) (cover : List Int) : List Bool :=
  cover.foldl (fun inn v => if v ≥ 1 ∧ v ≤ S.G.maxId then inn.set v.toNat true else inn)
    (List.replicate (S.G.maxId + 1).toNat false)

/-- The edge scan shared by `coversAll` and `localImprove`: every edge has an
endpoint flagged in `inn`. -/
def allEdgesIn (S : Solver) (inn : List Bool) : Bool :=
  S.G.edges.all (fun e => inn.getD e.1.toNat false || inn.getD e.2.toNat false)

/-- `Solver::coversAll`. -/
def coversAll (S : Solver) (cover : List Int) : Bool :=
  if S.G.edges.isEmpty then true
  else S.allEdgesIn (S.markIn cover)

/-- The loop of `cleanup`: `cleanupLoop S n cover` runs the iterations
`i = n-1, ..., 0`. -/
def cleanupLoop (S : Solver) : Nat → List Int → List Int
  | 0, cover => cover
  | i + 1, cover =>
    let keep := cover.getD i 0
    let cover1 := cover.eraseIdx i
    let cover2 := if !S.coversAll cover1 then cover1.insertIdx i keep else cover1
    cleanupLoop S i cover2

/-- `Solver::cleanup`. -/
def cleanup (S : Solver) (cover : List Int) : List Int :=
  let c := unique (List.insertionSort (· ≤ ·) cover)
  cleanupLoop S c.length c

/-- The array `deg` of `twoApproxFromMatching`. -/
def degrees (S : Solver) : List Int :=
  (List.range (S.G.maxId + 1).toNat).map
    (fun v => if v = 0 then 0 else ((S.G.adj.getD v []).length : Int))

/-- The comparator passed to `sort` in `twoApproxFromMatching`. -/
def edgeBefore (deg : List Int) (a b : Int × Int) : Bool :=
  let da := deg.getD a.1.toNat 0 + deg.getD a.2.toNat 0
  let db := deg.getD b.1.toNat 0 + deg.getD b.2.toNat 0
  if da ≠ db then decide (da > db) else decide (a.1 < b.1 ∨ (a.1 = b.1 ∧ a.2 < b.2))

/-- The sorted edge list `E` of `twoApproxFromMatching`: no element is strictly
before an earlier one. -/
def sortedEdges (S : Solver) : List (Int × Int) :=
  List.insertionSort (fun a b => edgeBefore S.degrees b a = false) S.G.edges

/-- The scan `for (auto e : E)` of `twoApproxFromMatching`, from clock reading `k`
on; returns the pushed vertices and the number of readings made. -/
def matchScan (S : Solver) (T : Timer) :
    List (Int × Int) → List Int → List Bool → Nat → List Int × Nat
  | [], cover, _, k => (cover, k)
  | e :: E, cover, matched, k =>
    if T.seconds k > S.limit60 then (cover, k + 1)
    else
      let u := e.1
      let v := e.2
      if !matched.getD u.toNat false && !matched.getD v.toNat false then
        matchScan S T E (cover ++ [u, v]) ((matched.set u.toNat true).set v.toNat true) (k + 1)
      else matchScan S T E cover matched (k + 1)

/-- `Solver::twoApproxFromMatching`, started at clock reading `k`. -/
def twoApproxFromMatching (S : Solver) (T : Timer) (k : Nat) : List Int × Nat :=
  let r := matchScan S T S.sortedEdges [] (List.replicate (S.G.maxId + 1).toNat false) k
  (S.cleanup (unique (List.insertionSort (· ≤ ·) r.1)), r.2)

/-- The lambda `removeV` of `greedyMaxDegree`. -/
def removeV (adj : List (List Int)) (x : Int) : List (List Int) :=
  let adj1 := (adj.getD x.toNat []).foldl
    (fun a y => a.set y.toNat ((a.getD y.toNat []).filter (fun z => z ≠ x))) adj
  adj1.set x.toNat []

/-- The lambda `hasEdgesLocal` of `greedyMaxDegree`. -/
def hasEdgesLocal (S : Solver) (adj : List (List Int)) : Bool :=
  (List.range S.G.maxId.toNat).any (fun i => !(adj.getD (i + 1) []).isEmpty)

/-- The selection loop of `greedyMaxDegree`: returns `(best, bestD)`. -/
def pickBest (S : Solver) (adj : List (List Int)) : Int × Int :=
  (List.range S.G.maxId.toNat).foldl
    (fun (st : Int × Int) i =>
      let d : Int := ((adj.getD (i + 1) []).length : Int)
      if d > st.2 then (((i + 1 : Nat) : Int), d) else st)
    (-1, -1)

/-- The selection loop of `greedyMaxDegree` run over the vertices `1, ..., n` only;
`pickBest` is the case `n = maxId`. -/
def pickUpTo (adj : List (List Int)) (n : Nat) : Int × Int :=
  (List.range n).foldl
    (fun (st : Int × Int) i =>
      let d : Int := ((adj.getD (i + 1) []).length : Int)
      if d > st.2 then (((i + 1 : Nat) : Int), d) else st)
    (-1, -1)

/-- The `while (hasEdgesLocal())` loop of `greedyMaxDegree`. -/
def greedyLoop (S : Solver) (T : Timer) :
    Nat → List (List Int) → List Int → Nat → Option (List Int × Nat)
  | 0, _, _, _ => none
  | fuel + 1, adj, cover, k =>
    if S.hasEdgesLocal adj then
      if T.seconds k > S.limit60 then some (cover, k + 1)
      else
        let best := (S.pickBest adj).1
        if best ≤ 0 then some (cover, k + 1)
        else greedyLoop S T fuel (removeV adj best) (cover ++ [best]) (k + 1)
    else some (cover, k)

/-- `Solver::greedyMaxDegree`, started at clock reading `k`. -/
def greedyMaxDegree (S : Solver) (fuel : Nat) (T : Timer) (k : Nat) :
    Option (List Int × Nat) :=
  match greedyLoop S T fuel S.G.adj [] k with
  | none => none
  | some r => some (S.cleanup r.1, r.2)

/-- The lambda `rebuild` of `localImprove`. -/
def rebuild (S : Solver) (cover : List Int) : List Bool :=
  cover.foldl (fun inn x => inn.set x.toNat true)
    (List.replicate (S.G.maxId + 1).toNat false)

/-- The loop `for (int u: G.adj[v])` of `localImprove` for the cover vertex `v`:
returns the accepted replacement (if any), the lookup `in` and the number of clock
readings made. -/
def swapScan (S : Solver) (T : Timer) (v : Int) :
    List Int → List Bool → Nat → Option Int × List Bool × Nat
  | [], inn, k => (none, inn, k)
  | u :: us, inn, k =>
    if inn.getD u.toNat false then swapScan S T v us inn k
    else
      let inn1 := (inn.set v.toNat false).set u.toNat true
      if S.allEdgesIn inn1 then (some u, inn1, k)
      else
        let inn2 := (inn1.set u.toNat false).set v.toNat true
        if T.seconds k > S.limit95 then (none, inn2, k + 1)
        else swapScan S T v us inn2 (k + 1)

/-- The loop `for (int idx=0; ...)` of `localImprove`; `n` is the number of
positions still to visit, so `idx = cover.size() - n`.  Returns the cover, the
lookup, the flag `improved` and the number of clock readings made. -/
def passScan (S : Solver) (T : Timer) :
    Nat → List Int → List Bool → Nat → List Int × List Bool × Bool × Nat
  | 0, cover, inn, k => (cover, inn, false, k)
  | n + 1, cover, inn, k =>
    let idx := cover.length - (n + 1)
    let v := cover.getD idx 0
    match swapScan S T v (S.G.adj.getD v.toNat []) inn k with
    | (some u, _, k1) =>
      let cover1 := cover.set idx u
      (cover1, S.rebuild cover1, true, k1)
    | (none, inn1, k1) =>
      if T.seconds k1 > S.limit95 then (cover, inn1, false, k1 + 1)
      else passScan S T n cover inn1 (k1 + 1)

/-- The `while (improved && T.seconds() < timeBudgetSec*0.95)` loop of
`localImprove`. -/
def improveLoop (S : Solver) (T : Timer) :
    Nat → List Int → List Bool → Bool → Nat → Option (List Int × Nat)
  | 0, _, _, _, _ => none
  | fuel + 1, cover, inn, improved, k =>
    if improved then
      if T.seconds k < S.limit95 then
        let r := passScan S T cover.length cover inn (k + 1)
        improveLoop S T fuel r.1 r.2.1 r.2.2.1 r.2.2.2
      else some (cover, k + 1)
    else some (cover, k)

/-- `Solver::localImprove`, started at clock reading `k`. -/
def localImprove (S : Solver) (fuel : Nat) (cover : List Int) (T : Timer) (k : Nat) :
    Option (List Int × Nat) :=
  match improveLoop S T fuel cover (S.rebuild cover) true k with
  | none => none
  | some r => some (S.cleanup r.1, r.2)

/-- The two candidates of `solve` and the number of clock readings made while
building them. -/
def candidates (S : Solver) (fuel : Nat) (T : Timer) :
    Option (List Int × List Int × Nat) :=
  let m := S.twoApproxFromMatching T 0
  match S.greedyMaxDegree fuel T m.2 with
  | none => none
  | some g => some (m.1, g.1, g.2)

/-- The candidate kept by `solve`: `if (gr.size() < best.size()) best.swap(gr);`. -/
def keep (best gr : List Int) : List Int :=
  if gr.length < best.length then gr else best

/-- `Solver::solve`; `none` when the fuel does not suffice for one of the `while`
loops. -/
def solve (S : Solver) (fuel : Nat) (T : Timer) : Option (List Int) :=
  match S.candidates fuel T with
  | none => none
  | some c =>
    match S.localImprove fuel (keep c.1 c.2.1) T c.2.2 with
    | none => none
    | some r => some r.1

/-- Vertex `x` is flagged by the lookup that `coversAll` builds from `c`. -/
def hit (S : Solver) (c : List Int) (x : Int) : Prop :=
  ∃ v ∈ c, 1 ≤ v ∧ v ≤ S.G.maxId ∧ v.toNat = x.toNat

/-- The backward scan of `cleanup` as a recursion: `rpre` holds the undecided
prefix, last element first, and `post` the vertices already decided to stay. -/
def minimize (S : Solver) : List Int → List Int → List Int
  | [], post => post
  | x :: rpre, post =>
    if S.coversAll (rpre.reverse ++ post) then minimize S rpre post
    else minimize S rpre (x :: post)

end Solver


/-! ### Bounds-checked embedding

The same functions with every indexed access checked: `none` stands for an access
outside the vector.  Where the unchecked function takes fuel, the checked one returns
`some none` when the fuel runs out. -/

namespace Checked

/-- Checked read `a[i]`. -/
def readAt {α : Type} (a : List α) (i : Int) : Option α :=
  if 0 ≤ i then a[i.toNat]? else none

/-- Checked write `a[i] = x`. -/
def writeAt {α : Type} (a : List α) (i : Int) (x : α) : Option (List α) :=
  if 0 ≤ i ∧ i.toNat < a.length then some (a.set i.toNat x) else none

/-- Checked `a.erase(a.begin() + i)`. -/
def eraseAt {α : Type} (a : List α) (i : Nat) : Option (List α) :=
  if i < a.length then some (a.eraseIdx i) else none

/-- Checked `a.insert(a.begin() + i, x)`. -/
def insertAt {α : Type} (a : List α) (i : Nat) (x : α) : Option (List α) :=
  if i ≤ a.length then some (a.insertIdx i x) else none

/-- A loop over `l` that returns `false` at the first element failing the checked test
`f`, and `true` when there is none. -/
def allM {α : Type} (f : α → Option Bool) : List α → Option Bool
  | [] => some true
  | a :: l => (f a).bind (fun b => if b then allM f l else some false)

/-- A loop over `l` that returns `true` at the first element passing the checked test
`f`, and `false` when there is none. -/
def anyM {α : Type} (f : α → Option Bool) : List α → Option Bool
  | [] => some false
  | a :: l => (f a).bind (fun b => if b then some true else anyM f l)

/-- A loop over `l` updating a state with the checked step `f`. -/
def foldM {α β : Type} (f : β → α → Option β) : β → List α → Option β
  | b, [] => some b
  | b, a :: l => (f b a).bind (fun b2 => foldM f b2 l)

/-- Checked `for (int v: cover) if (v>=1 && v<=G.maxId) in[v]=1;`. -/
def markIn (S : Solver) (cover : List Int) : Option (List Bool) :=
  foldM (fun inn v => if v ≥ 1 ∧ v ≤ S.G.maxId then writeAt inn v true else some inn)
    (List.replicate (S.G.maxId + 1).toNat false) cover

/-- Checked edge scan `if (!(in[u] || in[v])) return false;`: `in[v]` is read only when
`in[u]` is not set. -/
def allEdgesIn (S : Solver) (inn : List Bool) : Option Bool :=
  allM (fun e : Int × Int =>
    (readAt inn e.1).bind (fun a => if a then some true else readAt inn e.2)) S.G.edges

/-- Checked `Solver::coversAll`. -/
def coversAll (S : Solver) (cover : List Int) : Option Bool :=
  if S.G.edges.isEmpty then some true
  else (markIn S cover).bind (fun inn => allEdgesIn S inn)

/-- Checked loop of `cleanup`. -/
def cleanupLoop (S : Solver) : Nat → List Int → Option (List Int)
  | 0, cover => some cover
  | i + 1, cover =>
    (readAt cover (i : Int)).bind (fun keep =>
    (eraseAt cover i).bind (fun cover1 =>
    (coversAll S cover1).bind (fun ok =>
    (if !ok then insertAt cover1 i keep else some cover1).bind (fun cover2 =>
    cleanupLoop S i cover2))))

/-- Checked `Solver::cleanup`. -/
def cleanup (S : Solver) (cover : List Int) : Option (List Int) :=
  cleanupLoop S (unique (List.insertionSort (· ≤ ·) cover)).length
    (unique (List.insertionSort (· ≤ ·) cover))

/-- Checked fill of the array `deg` of `twoApproxFromMatching`:
`for (int v=1; v<=G.maxId; ++v) deg[v]=(int)G.adj[v].size();`. -/
def degrees (S : Solver) : Option (List Int) :=
  foldM (fun deg i =>
      (readAt S.G.adj ((i + 1 : Nat) : Int)).bind (fun a =>
        writeAt deg ((i + 1 : Nat) : Int) (a.length : Int)))
    (List.replicate (S.G.maxId + 1).toNat 0) (List.range S.G.maxId.toNat)

/-- Checked sort of the edge list in `twoApproxFromMatching`. The comparator reads
`deg` at the endpoints of the two edges it is given, and `sort` only hands it elements of
the list, so the sort is checked by requiring every endpoint of every edge of the list
to be a valid index of `deg`. -/
def sortedEdges (S : Solver) : Option (List (Int × Int)) :=
  (degrees S).bind (fun deg =>
    if S.G.edges.all (fun e => decide (0 ≤ e.1 ∧ e.1.toNat < deg.length ∧
        0 ≤ e.2 ∧ e.2.toNat < deg.length))
    then some (List.insertionSort (fun a b => Solver.edgeBefore deg b a = false) S.G.edges)
    else none)

/-- Checked scan of `twoApproxFromMatching`; in `!matched[u] && !matched[v]` the second
read is made only when the first flag is not set. -/
def matchScan (S : Solver) (T : Timer) :
    List (Int × Int) → List Int → List Bool → Nat → Option (List Int × Nat)
  | [], cover, _, k => some (cover, k)
  | e :: E, cover, matched, k =>
    if T.seconds k > S.limit60 then some (cover, k + 1)
    else
      (readAt matched e.1).bind (fun mu =>
        if mu then matchScan S T E cover matched (k + 1)
        else (readAt matched e.2).bind (fun mv =>
          if mv then matchScan S T E cover matched (k + 1)
          else (writeAt matched e.1 true).bind (fun m1 =>
            (writeAt m1 e.2 true).bind (fun m2 =>
              matchScan S T E (cover ++ [e.1, e.2]) m2 (k + 1)))))

/-- Checked `Solver::twoApproxFromMatching`. -/
def twoApproxFromMatching (S : Solver) (T : Timer) (k : Nat) : Option (List Int × Nat) :=
  (sortedEdges S).bind (fun E =>
    (matchScan S T E [] (List.replicate (S.G.maxId + 1).toNat false) k).bind (fun r =>
      (cleanup S (unique (List.insertionSort (· ≤ ·) r.1))).bind (fun c => some (c, r.2))))

/-- Checked lambda `removeV` of `greedyMaxDegree`. -/
def removeV (adj : List (List Int)) (x : Int) : Option (List (List Int)) :=
  (readAt adj x).bind (fun ys =>
    (foldM (fun (a : List (List Int)) y =>
        (readAt a y).bind (fun ly => writeAt a y (ly.filter (fun z => z ≠ x)))) adj ys).bind
      (fun adj1 => writeAt adj1 x []))

/-- Checked lambda `hasEdgesLocal` of `greedyMaxDegree`. -/
def hasEdgesLocal (S : Solver) (adj : List (List Int)) : Option Bool :=
  anyM (fun i : Nat => (readAt adj ((i + 1 : Nat) : Int)).bind (fun l => some (!l.isEmpty)))
    (List.range S.G.maxId.toNat)

/-- Checked selection loop of `greedyMaxDegree`. -/
def pickBest (S : Solver) (adj : List (List Int)) : Option (Int × Int) :=
  foldM (fun (st : Int × Int) (i : Nat) =>
      (readAt adj ((i + 1 : Nat) : Int)).bind (fun l =>
        some (if (l.length : Int) > st.2 then (((i + 1 : Nat) : Int), (l.length : Int))
          else st)))
    (-1, -1) (List.range S.G.maxId.toNat)

/-- Checked `while (hasEdgesLocal())` loop of `greedyMaxDegree`. -/
def greedyLoop (S : Solver) (T : Timer) :
    Nat → List (List Int) → List Int → Nat → Option (Option (List Int × Nat))
  | 0, _, _, _ => some none
  | fuel + 1, adj, cover, k =>
    (hasEdgesLocal S adj).bind (fun he =>
      if he then
        if T.seconds k > S.limit60 then some (some (cover, k + 1))
        else
          (pickBest S adj).bind (fun b =>
            if b.1 ≤ 0 then some (some (cover, k + 1))
            else (removeV adj b.1).bind (fun adj2 =>
              greedyLoop S T fuel adj2 (cover ++ [b.1]) (k + 1)))
      else some (some (cover, k)))

/-- Checked `Solver::greedyMaxDegree`. -/
def greedyMaxDegree (S : Solver) (fuel : Nat) (T : Timer) (k : Nat) :
    Option (Option (List Int × Nat)) :=
  (greedyLoop S T fuel S.G.adj [] k).bind (fun o =>
    match o with
    | none => some none
    | some r => (cleanup S r.1).bind (fun c => some (some (c, r.2))))

/-- Checked lambda `rebuild` of `localImprove`. -/
def rebuild (S : Solver) (cover : List Int) : Option (List Bool) :=
  foldM (fun inn x => writeAt inn x true) (List.replicate (S.G.maxId + 1).toNat false) cover

/-- Checked loop `for (int u: G.adj[v])` of `localImprove`. -/
def swapScan (S : Solver) (T : Timer) (v : Int) :
    List Int → List Bool → Nat → Option (Option Int × List Bool × Nat)
  | [], inn, k => some (none, inn, k)
  | u :: us, inn, k =>
    (readAt inn u).bind (fun iu =>
      if iu then swapScan S T v us inn k
      else
        (writeAt inn v false).bind (fun i1 =>
        (writeAt i1 u true).bind (fun inn1 =>
        (allEdgesIn S inn1).bind (fun ok =>
          if ok then some (some u, inn1, k)
          else
            (writeAt inn1 u false).bind (fun i2 =>
            (writeAt i2 v true).bind (fun inn2 =>
              if T.seconds k > S.limit95 then some (none, inn2, k + 1)
              else swapScan S T v us inn2 (k + 1)))))))

/-- Checked loop `for (int idx=0; ...)` of `localImprove`. -/
def passScan (S : Solver) (T : Timer) :
    Nat → List Int → List Bool → Nat → Option (List Int × List Bool × Bool × Nat)
  | 0, cover, inn, k => some (cover, inn, false, k)
  | n + 1, cover, inn, k =>
    (readAt cover ((cover.length - (n + 1) : Nat) : Int)).bind (fun v =>
    (readAt S.G.adj v).bind (fun us =>
    (swapScan S T v us inn k).bind (fun sw =>
      match sw with
      | (some u, _, k1) =>
        (writeAt cover ((cover.length - (n + 1) : Nat) : Int) u).bind (fun cover1 =>
        (rebuild S cover1).bind (fun inn2 => some (cover1, inn2, true, k1)))
      | (none, inn1, k1) =>
        if T.seconds k1 > S.limit95 then some (cover, inn1, false, k1 + 1)
        else passScan S T n cover inn1 (k1 + 1))))

/-- Checked `while` loop of `localImprove`. -/
def improveLoop (S : Solver) (T : Timer) :
    Nat → List Int → List Bool → Bool → Nat → Option (Option (List Int × Nat))
  | 0, _, _, _, _ => some none
  | fuel + 1, cover, inn, improved, k =>
    if improved then
      if T.seconds k < S.limit95 then
        (passScan S T cover.length cover inn (k + 1)).bind (fun r =>
          improveLoop S T fuel r.1 r.2.1 r.2.2.1 r.2.2.2)
      else some (some (cover, k + 1))
    else some (some (cover, k))

/-- Checked `Solver::localImprove`. -/
def localImprove (S : Solver) (fuel : Nat) (cover : List Int) (T : Timer) (k : Nat) :
    Option (Option (List Int × Nat)) :=
  (rebuild S cover).bind (fun inn =>
    (improveLoop S T fuel cover inn true k).bind (fun o =>
      match o with
      | none => some none
      | some r => (cleanup S r.1).bind (fun c => some (some (c, r.2)))))

/-- Checked `Solver::solve`: `none` when an access falls outside its vector, `some none`
when the fuel runs out, `some (some cover)` otherwise. -/
def solve (S : Solver) (fuel : Nat) (T : Timer) : Option (Option (List Int)) :=
  (twoApproxFromMatching S T 0).bind (fun m =>
    (greedyMaxDegree S fuel T m.2).bind (fun og =>
      match og with
      | none => some none
      | some g =>
        (localImprove S fuel (Solver.keep m.1 g.1) T g.2).bind (fun ol =>
          match ol with
          | none => some none
          | some r => some (some r.1))))

/-- Checked body of the loop `for (auto e : edges)` of `loadFromFile`. -/
def linkStep (st : List (List Int) × List Bool) (e : Int × Int) :
    Option (List (List Int) × List Bool) :=
  (readAt st.1 e.1).bind (fun lu =>
  (writeAt st.1 e.1 (lu ++ [e.2])).bind (fun adj1 =>
  (readAt adj1 e.2).bind (fun lv =>
  (writeAt adj1 e.2 (lv ++ [e.1])).bind (fun adj2 =>
  (writeAt st.2 e.1 true).bind (fun act1 =>
  (writeAt act1 e.2 true).bind (fun act2 => some (adj2, act2)))))))

/-- Checked `Graph::loadFromFile`. -/
def loadFromFile (pairs : List (Int × Int)) : Option Graph :=
  (foldM linkStep
    (List.replicate ((pairs.foldl Graph.loadStep (0, [])).1 + 1).toNat [],
     List.replicate ((pairs.foldl Graph.loadStep (0, [])).1 + 1).toNat false)
    (unique (List.insertionSort pairLe (pairs.foldl Graph.loadStep (0, [])).2))).bind
    (fun la =>
      some { maxId := (pairs.foldl Graph.loadStep (0, [])).1,
             edges := unique (List.insertionSort pairLe (pairs.foldl Graph.loadStep (0, [])).2),
             adj := la.1, active := la.2 })

end Checked
/-! ## Lists -/

theorem getD_set {α : Type} (l : List α) (i j : Nat) (a d : α) :
    (l.set i a).getD j d = if i = j ∧ i < l.length then a else l.getD j d := by
  simp only [List.getD_eq_getElem?_getD, List.getElem?_set]
  by_cases h : i = j
  · subst h
    by_cases h2 : i < l.length
    · simp [h2]
    · have : l[i]? = none := List.getElem?_eq_none (by omega)
      simp [h2, this]
  · simp [h]

theorem getD_replicate_false (n i : Nat) : (List.replicate n false).getD i false = false := by
  simp only [List.getD_eq_getElem?_getD, List.getElem?_replicate]
  split <;> rfl

theorem mem_unique {α : Type} [DecidableEq α] (x : α) :
    ∀ l : List α, x ∈ unique l ↔ x ∈ l
  | [] => by simp [unique]
  | [a] => by simp [unique]
  | a :: b :: l => by
    have ih := mem_unique x (b :: l)
    unfold unique
    split
    · rename_i h
      subst h
      rw [ih]; simp
    · simp only [List.mem_cons] at ih ⊢
      rw [ih]

theorem unique_sublist {α : Type} [DecidableEq α] :
    ∀ l : List α, (unique l).Sublist l
  | [] => by simp [unique]
  | [a] => by simp [unique]
  | a :: b :: l => by
    have ih := unique_sublist (b :: l)
    unfold unique
    split
    · exact ih.cons a
    · exact ih.cons₂ a

theorem unique_pairwise {α : Type} [DecidableEq α] (r : α → α → Prop)
    (hanti : ∀ a b, r a b → r b a → a = b) :
    ∀ l : List α, l.Pairwise r → (unique l).Pairwise (fun a b => r a b ∧ a ≠ b)
  | [] => by simp [unique]
  | [a] => by simp [unique]
  | a :: b :: l => by
    intro h
    have h2 : (b :: l).Pairwise r := (List.pairwise_cons.1 h).2
    have ih := unique_pairwise r hanti (b :: l) h2
    unfold unique
    split
    · exact ih
    · rename_i hab
      refine List.pairwise_cons.2 ⟨?_, ih⟩
      intro x hx
      have hx2 : x ∈ b :: l := (mem_unique x (b :: l)).1 hx
      have hax : r a x := (List.pairwise_cons.1 h).1 x hx2
      refine ⟨hax, ?_⟩
      intro hxa
      subst hxa
      rcases List.mem_cons.1 hx2 with h3 | h3
      · exact hab h3
      · have hba : r b a := (List.pairwise_cons.1 h2).1 a h3
        have hab2 : r a b := (List.pairwise_cons.1 h).1 b (List.mem_cons_self _ _)
        exact hab (hanti a b hab2 hba)

theorem unique_eq_self {α : Type} [DecidableEq α] :
    ∀ l : List α, l.Pairwise (fun a b => a ≠ b) → unique l = l
  | [] => by simp [unique]
  | [a] => by simp [unique]
  | a :: b :: l => by
    intro h
    have h2 : (b :: l).Pairwise (fun a b => a ≠ b) := (List.pairwise_cons.1 h).2
    have hab : a ≠ b := (List.pairwise_cons.1 h).1 b (List.mem_cons_self _ _)
    unfold unique
    rw [if_neg hab, unique_eq_self (b :: l) h2]

/-- Sorting then `unique` gives a strictly increasing list of integers. -/
theorem sortUnique_sorted (c : List Int) :
    (unique (List.insertionSort (· ≤ ·) c)).Pairwise (fun a b => a < b) := by
  have h := unique_pairwise (fun a b : Int => a ≤ b) (fun a b h1 h2 => le_antisymm h1 h2)
    (List.insertionSort (· ≤ ·) c) (List.sorted_insertionSort (· ≤ ·) c)
  exact h.imp (fun ⟨h1, h2⟩ => lt_of_le_of_ne h1 h2)

theorem mem_sortUnique (c : List Int) (x : Int) :
    x ∈ unique (List.insertionSort (· ≤ ·) c) ↔ x ∈ c := by
  rw [mem_unique]
  exact (List.perm_insertionSort (· ≤ ·) c).mem_iff

/-- A strictly increasing list is left unchanged by sorting and `unique`. -/
theorem sortUnique_of_sorted (c : List Int) (h : c.Pairwise (fun a b => a < b)) :
    unique (List.insertionSort (· ≤ ·) c) = c := by
  have h1 : List.insertionSort (· ≤ ·) c = c :=
    List.Sorted.insertionSort_eq (h.imp (fun h => le_of_lt h))
  rw [h1]
  exact unique_eq_self c (h.imp (fun h => ne_of_lt h))

/-! ## The feasibility check -/

namespace Solver

theorem markIn_fold_getD (m : Int) (c : List Int) (acc : List Bool) (i : Nat)
    (hlen : acc.length = (m + 1).toNat) :
    (c.foldl (fun inn v => if v ≥ 1 ∧ v ≤ m then inn.set v.toNat true else inn) acc).getD i false
      = true ↔ (acc.getD i false = true ∨ ∃ v ∈ c, 1 ≤ v ∧ v ≤ m ∧ v.toNat = i) := by
  induction c generalizing acc with
  | nil => simp
  | cons a c ih =>
    rw [List.foldl_cons]
    by_cases ha : a ≥ 1 ∧ a ≤ m
    · rw [if_pos ha, ih _ (by simpa using hlen), getD_set]
      constructor
      · rintro (h | ⟨v, hv, h⟩)
        · by_cases hai : a.toNat = i ∧ a.toNat < acc.length
          · exact Or.inr ⟨a, List.mem_cons_self _ _, ha.1, ha.2, hai.1⟩
          · rw [if_neg hai] at h; exact Or.inl h
        · exact Or.inr ⟨v, List.mem_cons_of_mem _ hv, h⟩
      · rintro (h | ⟨v, hv, h⟩)
        · by_cases hai : a.toNat = i ∧ a.toNat < acc.length
          · rw [if_pos hai]; exact Or.inl rfl
          · rw [if_neg hai]; exact Or.inl h
        · rcases List.mem_cons.1 hv with rfl | hv
          · refine Or.inl ?_
            rw [if_pos ⟨h.2.2, by omega⟩]
          · exact Or.inr ⟨v, hv, h⟩
    · rw [if_neg ha, ih _ hlen]
      constructor
      · rintro (h | ⟨v, hv, h⟩)
        · exact Or.inl h
        · exact Or.inr ⟨v, List.mem_cons_of_mem _ hv, h⟩
      · rintro (h | ⟨v, hv, h⟩)
        · exact Or.inl h
        · rcases List.mem_cons.1 hv with rfl | hv
          · exact absurd ⟨h.1, h.2.1⟩ ha
          · exact Or.inr ⟨v, hv, h⟩

theorem markIn_getD (S : Solver) (c : List Int) (x : Int) :
    (S.markIn c).getD x.toNat false = true ↔ S.hit c x := by
  unfold markIn hit
  rw [markIn_fold_getD S.G.maxId c _ x.toNat (by simp)]
  simp [getD_replicate_false]

/-- What `coversAll` computes on an arbitrary graph value. -/
theorem coversAll_iff (S : Solver) (c : List Int) :
    S.coversAll c = true ↔ ∀ e ∈ S.G.edges, S.hit c e.1 ∨ S.hit c e.2 := by
  unfold coversAll
  by_cases he : S.G.edges.isEmpty = true
  · rw [if_pos he]
    have : S.G.edges = [] := List.isEmpty_iff.1 he
    simp [this]
  · rw [if_neg he]
    unfold allEdgesIn
    rw [List.all_eq_true]
    constructor
    · intro h e hmem
      have := h e hmem
      rw [Bool.or_eq_true, markIn_getD, markIn_getD] at this
      exact this
    · intro h e hmem
      rw [Bool.or_eq_true, markIn_getD, markIn_getD]
      exact h e hmem

theorem hit_mono (S : Solver) {c d : List Int} (hsub : ∀ y ∈ c, y ∈ d) {x : Int}
    (h : S.hit c x) : S.hit d x := by
  obtain ⟨v, hv, h⟩ := h
  exact ⟨v, hsub v hv, h⟩

/-- Feasibility is monotone in the set of candidate vertices. -/
theorem coversAll_mono (S : Solver) {c d : List Int} (hsub : ∀ y ∈ c, y ∈ d)
    (h : S.coversAll c = true) : S.coversAll d = true := by
  rw [coversAll_iff] at h ⊢
  intro e he
  rcases h e he with h1 | h1
  · exact Or.inl (S.hit_mono hsub h1)
  · exact Or.inr (S.hit_mono hsub h1)

theorem coversAll_false_mono (S : Solver) {c d : List Int} (hsub : ∀ y ∈ c, y ∈ d)
    (h : S.coversAll d = false) : S.coversAll c = false := by
  cases hc : S.coversAll c with
  | false => rfl
  | true => rw [S.coversAll_mono hsub hc] at h; exact h

/-! ## The minimizer -/

theorem getD_append_length (pre post : List Int) (x d : Int) :
    (pre ++ x :: post).getD pre.length d = x := by
  induction pre with
  | nil => rfl
  | cons a pre ih => simpa using ih

theorem eraseIdx_append_length (pre post : List Int) (x : Int) :
    (pre ++ x :: post).eraseIdx pre.length = pre ++ post := by
  induction pre with
  | nil => rfl
  | cons a pre ih => simpa using ih

theorem insertIdx_append_length (pre post : List Int) (x : Int) :
    (pre ++ post).insertIdx pre.length x = pre ++ x :: post := by
  induction pre with
  | nil => rfl
  | cons a pre ih => simpa [List.insertIdx_succ_cons] using ih

/-- The index loop of `cleanup` is the recursion `minimize`. -/
theorem cleanupLoop_eq_minimize (S : Solver) (rpre post : List Int) :
    S.cleanupLoop rpre.length (rpre.reverse ++ post) = S.minimize rpre post := by
  induction rpre generalizing post with
  | nil => rfl
  | cons x rp ih =>
    have hlen : rp.length = rp.reverse.length := by simp
    have hcov : (x :: rp).reverse ++ post = rp.reverse ++ x :: post := by simp
    rw [hcov, List.length_cons]
    unfold cleanupLoop
    simp only []
    rw [hlen, getD_append_length, eraseIdx_append_length, ← hlen]
    unfold minimize
    by_cases hc : S.coversAll (rp.reverse ++ post) = true
    · simp only [hc, Bool.not_true, if_true]
      exact ih post
    · have hc2 : S.coversAll (rp.reverse ++ post) = false := by simpa using hc
      simp only [hc2, Bool.not_false, if_true]
      rw [hlen, insertIdx_append_length, ← hlen]
      simpa using ih (x :: post)

theorem cleanup_eq_minimize (S : Solver) (c : List Int) :
    S.cleanup c = S.minimize (unique (List.insertionSort (· ≤ ·) c)).reverse [] := by
  unfold cleanup
  have h := S.cleanupLoop_eq_minimize (unique (List.insertionSort (· ≤ ·) c)).reverse []
  simpa using h

end Solver
namespace Solver

theorem minimize_sublist (S : Solver) (rpre post : List Int) :
    (S.minimize rpre post).Sublist (rpre.reverse ++ post) := by
  induction rpre generalizing post with
  | nil => simp [minimize]
  | cons x rp ih =>
    unfold minimize
    have hcov : (x :: rp).reverse ++ post = rp.reverse ++ x :: post := by simp
    rw [hcov]
    split
    · exact (ih post).trans
        (List.Sublist.append (List.Sublist.refl _) (List.sublist_cons_self x post))
    · exact ih (x :: post)

theorem minimize_feasible (S : Solver) (rpre post : List Int)
    (h : S.coversAll (rpre.reverse ++ post) = true) :
    S.coversAll (S.minimize rpre post) = true := by
  induction rpre generalizing post with
  | nil => simpa [minimize] using h
  | cons x rp ih =>
    unfold minimize
    split
    · rename_i hc
      exact ih post hc
    · exact ih (x :: post) (by simpa using h)

theorem minimize_infeasible (S : Solver) (rpre post : List Int)
    (h : S.coversAll (rpre.reverse ++ post) = false) :
    S.minimize rpre post = rpre.reverse ++ post := by
  induction rpre generalizing post with
  | nil => simp [minimize]
  | cons x rp ih =>
    have hcov : (x :: rp).reverse ++ post = rp.reverse ++ x :: post := by simp
    rw [hcov] at h ⊢
    have hless : S.coversAll (rp.reverse ++ post) = false :=
      S.coversAll_false_mono (fun y hy => by
        rcases List.mem_append.1 hy with h1 | h1
        · exact List.mem_append_left _ h1
        · exact List.mem_append_right _ (List.mem_cons_of_mem _ h1)) h
    unfold minimize
    rw [hless]
    simpa using ih (x :: post) h

theorem minimize_minimal (S : Solver) (rpre post : List Int)
    (h : ∀ x ∈ post, S.coversAll ((rpre.reverse ++ post).filter (fun y => y ≠ x)) = false) :
    ∀ x ∈ S.minimize rpre post,
      S.coversAll ((S.minimize rpre post).filter (fun y => y ≠ x)) = false := by
  induction rpre generalizing post with
  | nil => simpa [minimize] using h
  | cons x0 rp ih =>
    have hcov : (x0 :: rp).reverse ++ post = rp.reverse ++ x0 :: post := by simp
    rw [hcov] at h
    unfold minimize
    split
    · refine ih post (fun x hx => ?_)
      refine S.coversAll_false_mono (fun y hy => ?_) (h x hx)
      simp only [List.mem_filter, List.mem_append, List.mem_cons] at hy ⊢
      rcases hy with ⟨h1 | h1, h2⟩
      · exact ⟨Or.inl h1, h2⟩
      · exact ⟨Or.inr (Or.inr h1), h2⟩
    · rename_i hc
      have hc2 : S.coversAll (rp.reverse ++ post) = false := by simpa using hc
      refine ih (x0 :: post) (fun x hx => ?_)
      rcases List.mem_cons.1 hx with rfl | hx
      · refine S.coversAll_false_mono (fun y hy => ?_) hc2
        simp only [List.mem_filter, List.mem_append, List.mem_cons] at hy ⊢
        rcases hy with ⟨h1 | h1 | h1, h2⟩
        · exact Or.inl h1
        · simp [h1] at h2
        · exact Or.inr h1
      · exact h x hx

theorem minimize_fixed (S : Solver) (rpre post : List Int)
    (hnd : (rpre.reverse ++ post).Nodup)
    (h : ∀ x ∈ rpre, S.coversAll ((rpre.reverse ++ post).filter (fun y => y ≠ x)) = false) :
    S.minimize rpre post = rpre.reverse ++ post := by
  induction rpre generalizing post with
  | nil => simp [minimize]
  | cons x0 rp ih =>
    have hcov : (x0 :: rp).reverse ++ post = rp.reverse ++ x0 :: post := by simp
    rw [hcov] at h hnd ⊢
    have hx0 : ∀ y ∈ rp.reverse ++ post, y ≠ x0 := by
      intro y hy hyx
      subst hyx
      rw [List.nodup_append] at hnd
      rcases List.mem_append.1 hy with h1 | h1
      · exact hnd.2.2 h1 (List.mem_cons_self _ _)
      · exact (List.nodup_cons.1 hnd.2.1).1 h1
    have hless : S.coversAll (rp.reverse ++ post) = false := by
      refine S.coversAll_false_mono (fun y hy => ?_) (h x0 (List.mem_cons_self _ _))
      simp only [List.mem_filter, List.mem_append, List.mem_cons]
      refine ⟨?_, by simpa using hx0 y hy⟩
      rcases List.mem_append.1 hy with h1 | h1
      · exact Or.inl h1
      · exact Or.inr (Or.inr h1)
    unfold minimize
    rw [hless]
    simp only [Bool.false_eq_true, if_false]
    exact ih (x0 :: post) hnd (fun x hx => h x (List.mem_cons_of_mem _ hx))

/-- The result of `cleanup` is a sublist of the sorted, deduplicated candidate. -/
theorem cleanup_sublist (S : Solver) (c : List Int) :
    (S.cleanup c).Sublist (unique (List.insertionSort (· ≤ ·) c)) := by
  rw [cleanup_eq_minimize]
  simpa using S.minimize_sublist (unique (List.insertionSort (· ≤ ·) c)).reverse []

theorem cleanup_sorted (S : Solver) (c : List Int) :
    (S.cleanup c).Pairwise (fun a b => a < b) :=
  (sortUnique_sorted c).sublist (S.cleanup_sublist c)

theorem cleanup_nodup (S : Solver) (c : List Int) : (S.cleanup c).Nodup :=
  (S.cleanup_sorted c).imp (fun h => ne_of_lt h)

theorem mem_of_mem_cleanup (S : Solver) (c : List Int) {x : Int} (h : x ∈ S.cleanup c) :
    x ∈ c :=
  (mem_sortUnique c x).1 ((S.cleanup_sublist c).subset h)

theorem cleanup_length_le (S : Solver) (c : List Int) : (S.cleanup c).length ≤ c.length := by
  have h1 := (S.cleanup_sublist c).length_le
  have h2 := (unique_sublist (List.insertionSort (· ≤ ·) c)).length_le
  rw [List.length_insertionSort] at h2
  omega

theorem cleanup_feasible (S : Solver) (c : List Int) (h : S.coversAll c = true) :
    S.coversAll (S.cleanup c) = true := by
  rw [cleanup_eq_minimize]
  refine S.minimize_feasible _ _ (S.coversAll_mono (fun y hy => ?_) h)
  simpa using (mem_sortUnique c y).2 hy

theorem cleanup_infeasible (S : Solver) (c : List Int) (h : S.coversAll c = false) :
    S.cleanup c = unique (List.insertionSort (· ≤ ·) c) := by
  rw [cleanup_eq_minimize]
  have := S.minimize_infeasible (unique (List.insertionSort (· ≤ ·) c)).reverse []
    (S.coversAll_false_mono (fun y hy => by
      have : y ∈ unique (List.insertionSort (· ≤ ·) c) := by simpa using hy
      exact (mem_sortUnique c y).1 this) h)
  simpa using this

theorem cleanup_minimal_filter (S : Solver) (c : List Int) :
    ∀ x ∈ S.cleanup c, S.coversAll ((S.cleanup c).filter (fun y => y ≠ x)) = false := by
  rw [cleanup_eq_minimize]
  exact S.minimize_minimal _ [] (by simp)

theorem erase_eq_filter_ne {l : List Int} (h : l.Nodup) (x : Int) :
    l.erase x = l.filter (fun y => y ≠ x) := by
  rw [List.Nodup.erase_eq_filter h]
  congr 1
  funext y
  by_cases hy : y = x <;> simp [hy]

/-- No vertex of the result of `cleanup` can be removed: the reduced list fails
`coversAll`. -/
theorem cleanup_minimal (S : Solver) (c : List Int) :
    ∀ x ∈ S.cleanup c, S.coversAll ((S.cleanup c).erase x) = false := by
  intro x hx
  rw [erase_eq_filter_ne (S.cleanup_nodup c)]
  exact S.cleanup_minimal_filter c x hx

theorem cleanup_idem (S : Solver) (c : List Int) : S.cleanup (S.cleanup c) = S.cleanup c := by
  have hs := S.cleanup_sorted c
  have hmin := S.cleanup_minimal_filter c
  generalize S.cleanup c = r at hs hmin
  rw [cleanup_eq_minimize, sortUnique_of_sorted r hs]
  have := S.minimize_fixed r.reverse []
    (by simpa using hs.imp (fun h => ne_of_lt h))
    (fun x hx => by simpa using hmin x (by simpa using hx))
  simpa using this

end Solver
/-! ## Graph construction -/

namespace Graph

theorem loadStep_edges (st : Int × List (Int × Int)) (p : Int × Int) :
    (validPair p ∧ (loadStep st p).2 = st.2 ++ [norm p.1 p.2]) ∨
    (¬ validPair p ∧ (loadStep st p).2 = st.2) := by
  unfold loadStep validPair
  simp only []
  by_cases h1 : p.1 ≤ 0 ∨ p.2 ≤ 0
  · rw [if_pos h1]; right; exact ⟨by omega, rfl⟩
  · rw [if_neg h1]
    by_cases h2 : p.1 = p.2
    · rw [if_pos h2]; right
      refine ⟨by omega, ?_⟩
      split <;> rfl
    · rw [if_neg h2]
      by_cases h3 : p.1 > 350 ∨ p.2 > 350
      · rw [if_pos h3]; right; exact ⟨by omega, rfl⟩
      · rw [if_neg h3]; left; exact ⟨by omega, rfl⟩

theorem loadStep_maxId_ge (st : Int × List (Int × Int)) (p : Int × Int) :
    st.1 ≤ (loadStep st p).1 := by
  unfold loadStep
  simp only []
  split
  · exact le_refl _
  · split
    · split
      · exact le_max_left _ _
      · exact le_refl _
    · split
      · exact le_refl _
      · exact le_max_left _ _

theorem loadStep_maxId_le (st : Int × List (Int × Int)) (p : Int × Int) (h : st.1 ≤ 350) :
    (loadStep st p).1 ≤ 350 := by
  unfold loadStep
  simp only []
  split
  · exact h
  · split
    · split
      · exact max_le h (by assumption)
      · exact h
    · split
      · exact h
      · rename_i h3
        exact max_le h (max_le (by omega) (by omega))

theorem loadStep_maxId_valid (st : Int × List (Int × Int)) (p : Int × Int)
    (h : validPair p) : p.1 ≤ (loadStep st p).1 ∧ p.2 ≤ (loadStep st p).1 := by
  unfold validPair at h
  unfold loadStep
  simp only []
  rw [if_neg (by omega), if_neg (by omega), if_neg (by omega)]
  simp only []
  constructor
  · exact le_trans (le_max_left _ _) (le_max_right _ _)
  · exact le_trans (le_max_right _ _) (le_max_right _ _)

theorem loadFold_maxId_ge (pairs : List (Int × Int)) (st : Int × List (Int × Int)) :
    st.1 ≤ (pairs.foldl loadStep st).1 := by
  induction pairs generalizing st with
  | nil => exact le_refl _
  | cons p ps ih => exact le_trans (loadStep_maxId_ge st p) (ih _)

theorem loadFold_maxId_le (pairs : List (Int × Int)) (st : Int × List (Int × Int))
    (h : st.1 ≤ 350) : (pairs.foldl loadStep st).1 ≤ 350 := by
  induction pairs generalizing st with
  | nil => exact h
  | cons p ps ih => exact ih _ (loadStep_maxId_le st p h)

theorem loadFold_edges (pairs : List (Int × Int)) (st : Int × List (Int × Int))
    (e : Int × Int) :
    e ∈ (pairs.foldl loadStep st).2 ↔
      (e ∈ st.2 ∨ ∃ p ∈ pairs, validPair p ∧ norm p.1 p.2 = e) := by
  induction pairs generalizing st with
  | nil => simp
  | cons p ps ih =>
    rw [List.foldl_cons, ih]
    rcases loadStep_edges st p with ⟨hv, h⟩ | ⟨hv, h⟩
    · rw [h]
      constructor
      · rintro (h1 | ⟨q, hq, h1⟩)
        · rcases List.mem_append.1 h1 with h2 | h2
          · exact Or.inl h2
          · exact Or.inr ⟨p, List.mem_cons_self _ _, hv, (List.mem_singleton.1 h2).symm⟩
        · exact Or.inr ⟨q, List.mem_cons_of_mem _ hq, h1⟩
      · rintro (h1 | ⟨q, hq, h1⟩)
        · exact Or.inl (List.mem_append_left _ h1)
        · rcases List.mem_cons.1 hq with rfl | hq
          · exact Or.inl (List.mem_append_right _ (List.mem_singleton.2 h1.2.symm))
          · exact Or.inr ⟨q, hq, h1⟩
    · rw [h]
      constructor
      · rintro (h1 | ⟨q, hq, h1⟩)
        · exact Or.inl h1
        · exact Or.inr ⟨q, List.mem_cons_of_mem _ hq, h1⟩
      · rintro (h1 | ⟨q, hq, h1⟩)
        · exact Or.inl h1
        · rcases List.mem_cons.1 hq with rfl | hq
          · exact absurd h1.1 hv
          · exact Or.inr ⟨q, hq, h1⟩

theorem loadFold_maxId_valid (pairs : List (Int × Int)) (st : Int × List (Int × Int))
    (p : Int × Int) (hp : p ∈ pairs) (hv : validPair p) :
    p.1 ≤ (pairs.foldl loadStep st).1 ∧ p.2 ≤ (pairs.foldl loadStep st).1 := by
  induction pairs generalizing st with
  | nil => cases hp
  | cons q ps ih =>
    rw [List.foldl_cons]
    rcases List.mem_cons.1 hp with rfl | hp
    · have h1 := loadStep_maxId_valid st p hv
      have h2 := loadFold_maxId_ge ps (loadStep st p)
      exact ⟨le_trans h1.1 h2, le_trans h1.2 h2⟩
    · exact ih _ hp

theorem pairLe_antisymm (a b : Int × Int) (h1 : pairLe a b) (h2 : pairLe b a) : a = b := by
  unfold pairLe at h1 h2
  exact Prod.ext (by omega) (by omega)

/-- Membership in the stored edge list of a constructed graph. -/
theorem mem_edges (pairs : List (Int × Int)) (e : Int × Int) :
    e ∈ (loadFromFile pairs).edges ↔ ∃ p ∈ pairs, validPair p ∧ norm p.1 p.2 = e := by
  unfold loadFromFile
  simp only []
  rw [mem_unique, (List.perm_insertionSort pairLe _).mem_iff, loadFold_edges]
  simp

theorem maxId_le (pairs : List (Int × Int)) : (loadFromFile pairs).maxId ≤ 350 :=
  loadFold_maxId_le pairs (0, []) (by norm_num)

theorem maxId_nonneg (pairs : List (Int × Int)) : 0 ≤ (loadFromFile pairs).maxId :=
  loadFold_maxId_ge pairs (0, [])

/-- Every stored edge `(a, b)` has `1 ≤ a < b ≤ maxId`. -/
theorem edge_bounds (pairs : List (Int × Int)) (e : Int × Int)
    (he : e ∈ (loadFromFile pairs).edges) :
    1 ≤ e.1 ∧ e.1 < e.2 ∧ e.2 ≤ (loadFromFile pairs).maxId := by
  obtain ⟨p, hp, hv, hn⟩ := (mem_edges pairs e).1 he
  have hm := loadFold_maxId_valid pairs (0, []) p hp hv
  have hmax : (loadFromFile pairs).maxId = (pairs.foldl loadStep (0, [])).1 := rfl
  rw [hmax]
  unfold validPair at hv
  unfold norm at hn
  by_cases h : p.1 > p.2
  · rw [if_pos h] at hn; subst hn; simp only []; omega
  · rw [if_neg h] at hn; subst hn; simp only []; omega

/-- The stored edge list is strictly increasing in lexicographic order. -/
theorem edges_sorted (pairs : List (Int × Int)) :
    (loadFromFile pairs).edges.Pairwise
      (fun a b => a.1 < b.1 ∨ (a.1 = b.1 ∧ a.2 < b.2)) := by
  have h := unique_pairwise pairLe pairLe_antisymm
    (List.insertionSort pairLe (pairs.foldl loadStep (0, [])).2)
    (List.sorted_insertionSort pairLe _)
  refine h.imp ?_
  rintro a b ⟨h1, h2⟩
  unfold pairLe at h1
  rcases h1 with h1 | ⟨h1, h3⟩
  · exact Or.inl h1
  · refine Or.inr ⟨h1, lt_of_le_of_ne h3 (fun h4 => h2 (Prod.ext h1 h4))⟩

end Graph
namespace Graph

theorem linkStep_length (st : List (List Int) × List Bool) (e : Int × Int) :
    (linkStep st e).1.length = st.1.length ∧ (linkStep st e).2.length = st.2.length := by
  simp [linkStep]

theorem linkStep_adj_mem (st : List (List Int) × List Bool) (e : Int × Int) (i : Nat)
    (y : Int) :
    y ∈ (linkStep st e).1.getD i [] ↔
      (y ∈ st.1.getD i [] ∨
        (i < st.1.length ∧ ((e.1.toNat = i ∧ y = e.2) ∨ (e.2.toNat = i ∧ y = e.1)))) := by
  unfold linkStep
  simp only [getD_set, List.length_set]
  by_cases h2 : e.2.toNat = i ∧ e.2.toNat < st.1.length
  · rw [if_pos h2]
    obtain ⟨h2a, h2b⟩ := h2
    by_cases h1 : e.1.toNat = e.2.toNat ∧ e.1.toNat < st.1.length
    · rw [if_pos h1]
      obtain ⟨h1a, h1b⟩ := h1
      simp only [List.mem_append, List.mem_singleton]
      rw [← h2a, h1a]
      constructor
      · rintro ((h | h) | h)
        · exact Or.inl h
        · exact Or.inr ⟨h2b, Or.inl ⟨rfl, h⟩⟩
        · exact Or.inr ⟨h2b, Or.inr ⟨rfl, h⟩⟩
      · rintro (h | ⟨_, (⟨_, h⟩ | ⟨_, h⟩)⟩)
        · exact Or.inl (Or.inl h)
        · exact Or.inl (Or.inr h)
        · exact Or.inr h
    · rw [if_neg h1]
      simp only [List.mem_append, List.mem_singleton]
      rw [← h2a]
      constructor
      · rintro (h | h)
        · exact Or.inl h
        · exact Or.inr ⟨h2b, Or.inr ⟨rfl, h⟩⟩
      · rintro (h | ⟨_, (⟨h3, h⟩ | ⟨_, h⟩)⟩)
        · exact Or.inl h
        · exact absurd ⟨h3, by omega⟩ h1
        · exact Or.inr h
  · rw [if_neg h2]
    by_cases h1 : e.1.toNat = i ∧ e.1.toNat < st.1.length
    · rw [if_pos h1]
      obtain ⟨h1a, h1b⟩ := h1
      simp only [List.mem_append, List.mem_singleton]
      rw [← h1a]
      constructor
      · rintro (h | h)
        · exact Or.inl h
        · exact Or.inr ⟨h1b, Or.inl ⟨rfl, h⟩⟩
      · rintro (h | ⟨_, (⟨_, h⟩ | ⟨h3, h⟩)⟩)
        · exact Or.inl h
        · exact Or.inr h
        · exact absurd ⟨by omega, by omega⟩ h2
    · rw [if_neg h1]
      constructor
      · intro h; exact Or.inl h
      · rintro (h | ⟨h0, (⟨h3, h⟩ | ⟨h3, h⟩)⟩)
        · exact h
        · exact absurd ⟨h3, by omega⟩ h1
        · exact absurd ⟨h3, by omega⟩ h2

theorem linkStep_active (st : List (List Int) × List Bool) (e : Int × Int) (i : Nat) :
    (linkStep st e).2.getD i false = true ↔
      (st.2.getD i false = true ∨ (i < st.2.length ∧ (e.1.toNat = i ∨ e.2.toNat = i))) := by
  unfold linkStep
  simp only [getD_set, List.length_set]
  by_cases h2 : e.2.toNat = i ∧ e.2.toNat < st.2.length
  · rw [if_pos h2]
    simp only [true_iff]
    exact Or.inr ⟨by omega, Or.inr h2.1⟩
  · rw [if_neg h2]
    by_cases h1 : e.1.toNat = i ∧ e.1.toNat < st.2.length
    · rw [if_pos h1]
      simp only [true_iff]
      exact Or.inr ⟨by omega, Or.inl h1.1⟩
    · rw [if_neg h1]
      constructor
      · intro h; exact Or.inl h
      · rintro (h | ⟨h0, (h3 | h3)⟩)
        · exact h
        · exact absurd ⟨h3, by omega⟩ h1
        · exact absurd ⟨h3, by omega⟩ h2

theorem linkFold_length (es : List (Int × Int)) (st : List (List Int) × List Bool) :
    (es.foldl linkStep st).1.length = st.1.length ∧
      (es.foldl linkStep st).2.length = st.2.length := by
  induction es generalizing st with
  | nil => exact ⟨rfl, rfl⟩
  | cons e es ih =>
    rw [List.foldl_cons]
    have h := linkStep_length st e
    exact ⟨(ih _).1.trans h.1, (ih _).2.trans h.2⟩

theorem linkFold_adj_mem (es : List (Int × Int)) (st : List (List Int) × List Bool)
    (i : Nat) (y : Int) :
    y ∈ (es.foldl linkStep st).1.getD i [] ↔
      (y ∈ st.1.getD i [] ∨
        (i < st.1.length ∧ ∃ e ∈ es, (e.1.toNat = i ∧ y = e.2) ∨ (e.2.toNat = i ∧ y = e.1))) := by
  induction es generalizing st with
  | nil => simp
  | cons e es ih =>
    rw [List.foldl_cons, ih, linkStep_adj_mem, (linkStep_length st e).1]
    constructor
    · rintro ((h | ⟨h0, h⟩) | ⟨h0, e2, he2, h⟩)
      · exact Or.inl h
      · exact Or.inr ⟨h0, e, List.mem_cons_self _ _, h⟩
      · exact Or.inr ⟨h0, e2, List.mem_cons_of_mem _ he2, h⟩
    · rintro (h | ⟨h0, e2, he2, h⟩)
      · exact Or.inl (Or.inl h)
      · rcases List.mem_cons.1 he2 with rfl | he2
        · exact Or.inl (Or.inr ⟨h0, h⟩)
        · exact Or.inr ⟨h0, e2, he2, h⟩

theorem linkFold_active (es : List (Int × Int)) (st : List (List Int) × List Bool)
    (i : Nat) :
    (es.foldl linkStep st).2.getD i false = true ↔
      (st.2.getD i false = true ∨
        (i < st.2.length ∧ ∃ e ∈ es, e.1.toNat = i ∨ e.2.toNat = i)) := by
  induction es generalizing st with
  | nil => simp
  | cons e es ih =>
    rw [List.foldl_cons, ih, linkStep_active, (linkStep_length st e).2]
    constructor
    · rintro ((h | ⟨h0, h⟩) | ⟨h0, e2, he2, h⟩)
      · exact Or.inl h
      · exact Or.inr ⟨h0, e, List.mem_cons_self _ _, h⟩
      · exact Or.inr ⟨h0, e2, List.mem_cons_of_mem _ he2, h⟩
    · rintro (h | ⟨h0, e2, he2, h⟩)
      · exact Or.inl (Or.inl h)
      · rcases List.mem_cons.1 he2 with rfl | he2
        · exact Or.inl (Or.inr ⟨h0, h⟩)
        · exact Or.inr ⟨h0, e2, he2, h⟩

theorem adj_length (pairs : List (Int × Int)) :
    (loadFromFile pairs).adj.length = ((loadFromFile pairs).maxId + 1).toNat := by
  unfold loadFromFile
  simp only []
  rw [(linkFold_length _ _).1]
  simp

theorem active_length (pairs : List (Int × Int)) :
    (loadFromFile pairs).active.length = ((loadFromFile pairs).maxId + 1).toNat := by
  unfold loadFromFile
  simp only []
  rw [(linkFold_length _ _).2]
  simp

/-- Entries of the adjacency lists of a constructed graph: `y` is listed at index `i`
exactly when some stored edge joins `i` and `y`. -/
theorem mem_adj (pairs : List (Int × Int)) (i : Nat) (y : Int) :
    y ∈ (loadFromFile pairs).adj.getD i [] ↔
      ∃ e ∈ (loadFromFile pairs).edges,
        (e.1.toNat = i ∧ y = e.2) ∨ (e.2.toNat = i ∧ y = e.1) := by
  have hb := edge_bounds pairs
  have key : (loadFromFile pairs).adj =
      ((loadFromFile pairs).edges.foldl linkStep
        (List.replicate ((loadFromFile pairs).maxId + 1).toNat [],
         List.replicate ((loadFromFile pairs).maxId + 1).toNat false)).1 := rfl
  rw [key, linkFold_adj_mem]
  simp only [List.length_replicate]
  constructor
  · rintro (h | ⟨_, h⟩)
    · rw [List.getD_eq_getElem?_getD, List.getElem?_replicate] at h
      split at h <;> simp at h
    · exact h
  · rintro ⟨e, he, h⟩
    refine Or.inr ⟨?_, e, he, h⟩
    have := hb e he
    omega

/-- The activity flag of a constructed graph is set exactly at the endpoints of the
stored edges. -/
theorem active_iff (pairs : List (Int × Int)) (i : Nat) :
    (loadFromFile pairs).active.getD i false = true ↔
      ∃ e ∈ (loadFromFile pairs).edges, e.1.toNat = i ∨ e.2.toNat = i := by
  have hb := edge_bounds pairs
  have key : (loadFromFile pairs).active =
      ((loadFromFile pairs).edges.foldl linkStep
        (List.replicate ((loadFromFile pairs).maxId + 1).toNat [],
         List.replicate ((loadFromFile pairs).maxId + 1).toNat false)).2 := rfl
  rw [key, linkFold_active]
  simp only [List.length_replicate, getD_replicate_false]
  constructor
  · rintro (h | ⟨_, h⟩)
    · cases h
    · exact h
  · rintro ⟨e, he, h⟩
    refine Or.inr ⟨?_, e, he, h⟩
    have := hb e he
    omega

/-- Every graph built by `loadFromFile` is well formed. -/
theorem loadFromFile_wf (pairs : List (Int × Int)) : (loadFromFile pairs).WF :=
  ⟨edge_bounds pairs, adj_length pairs, mem_adj pairs, active_iff pairs⟩

end Graph
/-! ## The matching heuristic -/

theorem mem_endpoints (M : List (Int × Int)) (x : Int) :
    x ∈ endpoints M ↔ ∃ e ∈ M, e.1 = x ∨ e.2 = x := by
  induction M with
  | nil => simp [endpoints]
  | cons e M ih =>
    simp only [endpoints, List.mem_cons, ih]
    constructor
    · rintro (h | h | ⟨e2, he2, h⟩)
      · exact ⟨e, Or.inl rfl, Or.inl h.symm⟩
      · exact ⟨e, Or.inl rfl, Or.inr h.symm⟩
      · exact ⟨e2, Or.inr he2, h⟩
    · rintro ⟨e2, rfl | he2, h⟩
      · rcases h with h | h
        · exact Or.inl h.symm
        · exact Or.inr (Or.inl h.symm)
      · exact Or.inr (Or.inr ⟨e2, he2, h⟩)

theorem length_endpoints (M : List (Int × Int)) : (endpoints M).length = 2 * M.length := by
  induction M with
  | nil => rfl
  | cons e M ih => simp only [endpoints, List.length_cons, ih]; omega

namespace Solver

/-- Whatever the clock does, the scan only pushes endpoints of scanned edges. -/
theorem matchScan_mem (S : Solver) (T : Timer) (E : List (Int × Int)) (cover : List Int)
    (matched : List Bool) (k : Nat) (x : Int)
    (hx : x ∈ (S.matchScan T E cover matched k).1) :
    x ∈ cover ∨ ∃ e ∈ E, e.1 = x ∨ e.2 = x := by
  induction E generalizing cover matched k with
  | nil => exact Or.inl hx
  | cons e E ih =>
    unfold matchScan at hx
    split at hx
    · exact Or.inl hx
    · simp only [] at hx
      split at hx
      · rcases ih _ _ _ hx with h | ⟨e2, he2, h⟩
        · simp only [List.mem_append, List.mem_cons, List.mem_singleton,
            List.not_mem_nil, or_false] at h
          rcases h with h | h | h
          · exact Or.inl h
          · exact Or.inr ⟨e, List.mem_cons_self _ _, Or.inl h.symm⟩
          · exact Or.inr ⟨e, List.mem_cons_self _ _, Or.inr h.symm⟩
        · exact Or.inr ⟨e2, List.mem_cons_of_mem _ he2, h⟩
      · rcases ih _ _ _ hx with h | ⟨e2, he2, h⟩
        · exact Or.inl h
        · exact Or.inr ⟨e2, List.mem_cons_of_mem _ he2, h⟩

theorem matchScan_count_ge (S : Solver) (T : Timer) (E : List (Int × Int))
    (cover : List Int) (matched : List Bool) (k : Nat) :
    k ≤ (S.matchScan T E cover matched k).2 := by
  induction E generalizing cover matched k with
  | nil => exact le_refl _
  | cons e E ih =>
    unfold matchScan
    split
    · exact Nat.le_succ k
    · simp only []
      split
      · exact le_trans (Nat.le_succ k) (ih _ _ _)
      · exact le_trans (Nat.le_succ k) (ih _ _ _)

/-- When no reading taken by the scan is above the 60% threshold, the scan selects
the endpoints of a matching `M` of the scanned edges that is maximal among them. -/
theorem matchScan_spec (S : Solver) (T : Timer) (m : Int) (E : List (Int × Int))
    (cover : List Int) (matched : List Bool) (k : Nat)
    (hE : ∀ e ∈ E, 1 ≤ e.1 ∧ e.1 ≤ m ∧ 1 ≤ e.2 ∧ e.2 ≤ m)
    (hlen : matched.length = (m + 1).toNat)
    (hinv : ∀ x, 1 ≤ x → x ≤ m → (matched.getD x.toNat false = true ↔ x ∈ cover))
    (hT : ∀ j, k ≤ j → j < (S.matchScan T E cover matched k).2 →
      T.seconds j ≤ S.limit60) :
    ∃ M : List (Int × Int),
      (S.matchScan T E cover matched k).1 = cover ++ endpoints M ∧
      (∀ e ∈ M, e ∈ E) ∧ M.Pairwise disjointEdges ∧
      (∀ e ∈ M, e.1 ∉ cover ∧ e.2 ∉ cover) ∧
      (∀ e ∈ E, e.1 ∈ (S.matchScan T E cover matched k).1 ∨
        e.2 ∈ (S.matchScan T E cover matched k).1) := by
  induction E generalizing cover matched k with
  | nil => exact ⟨[], by simp [matchScan, endpoints]⟩
  | cons e E ih =>
    have hk : ¬ (T.seconds k > S.limit60) := by
      have h1 : k < (S.matchScan T (e :: E) cover matched k).2 := by
        unfold matchScan
        split
        · exact Nat.lt_succ_self k
        · simp only []
          split
          · exact lt_of_lt_of_le (Nat.lt_succ_self k) (S.matchScan_count_ge T _ _ _ _)
          · exact lt_of_lt_of_le (Nat.lt_succ_self k) (S.matchScan_count_ge T _ _ _ _)
      exact not_lt.2 (hT k (le_refl _) h1)
    have he := hE e (List.mem_cons_self _ _)
    have hE2 : ∀ e2 ∈ E, 1 ≤ e2.1 ∧ e2.1 ≤ m ∧ 1 ≤ e2.2 ∧ e2.2 ≤ m :=
      fun e2 h => hE e2 (List.mem_cons_of_mem _ h)
    unfold matchScan at hT ⊢
    rw [if_neg hk] at hT ⊢
    simp only [] at hT ⊢
    by_cases hfree : (!matched.getD e.1.toNat false && !matched.getD e.2.toNat false) = true
    · rw [if_pos hfree] at hT ⊢
      have hf : matched.getD e.1.toNat false = false ∧
          matched.getD e.2.toNat false = false := by
        revert hfree
        generalize matched.getD e.1.toNat false = b1
        generalize matched.getD e.2.toNat false = b2
        cases b1 <;> cases b2 <;> simp
      have hf1 := hf.1
      have hf2 := hf.2
      have hn1 : e.1 ∉ cover := fun h => by
        have := (hinv e.1 he.1 he.2.1).2 h
        rw [hf1] at this; cases this
      have hn2 : e.2 ∉ cover := fun h => by
        have := (hinv e.2 he.2.2.1 he.2.2.2).2 h
        rw [hf2] at this; cases this
      have hinv2 : ∀ x, 1 ≤ x → x ≤ m →
          (((matched.set e.1.toNat true).set e.2.toNat true).getD x.toNat false = true ↔
            x ∈ cover ++ [e.1, e.2]) := by
        intro x h1 h2
        rw [getD_set, getD_set, List.length_set]
        simp only [List.mem_append, List.mem_cons, List.mem_singleton, List.not_mem_nil,
          or_false]
        by_cases c2 : e.2.toNat = x.toNat ∧ e.2.toNat < matched.length
        · rw [if_pos c2]
          have : x = e.2 := by omega
          simp [this]
        · rw [if_neg c2]
          by_cases c1 : e.1.toNat = x.toNat ∧ e.1.toNat < matched.length
          · rw [if_pos c1]
            have : x = e.1 := by omega
            simp [this]
          · rw [if_neg c1, hinv x h1 h2]
            have n1 : x ≠ e.1 := fun h => c1 ⟨by rw [h], by omega⟩
            have n2 : x ≠ e.2 := fun h => c2 ⟨by rw [h], by omega⟩
            simp [n1, n2]
      obtain ⟨M, hM1, hM2, hM3, hM4, hM5⟩ := ih (cover ++ [e.1, e.2])
        ((matched.set e.1.toNat true).set e.2.toNat true) (k + 1) hE2 (by simpa using hlen)
        hinv2 (fun j hj1 hj2 => hT j (by omega) hj2)
      refine ⟨e :: M, ?_, ?_, ?_, ?_, ?_⟩
      · rw [hM1]; simp [endpoints]
      · intro e2 he2
        rcases List.mem_cons.1 he2 with rfl | he2
        · exact List.mem_cons_self _ _
        · exact List.mem_cons_of_mem _ (hM2 e2 he2)
      · refine List.pairwise_cons.2 ⟨fun e2 he2 => ?_, hM3⟩
        have := hM4 e2 he2
        simp only [List.mem_append, List.mem_cons, List.mem_singleton, List.not_mem_nil,
          or_false, not_or] at this
        unfold disjointEdges
        exact ⟨fun h => this.1.2.1 h.symm, fun h => this.2.2.1 h.symm,
          fun h => this.1.2.2 h.symm, fun h => this.2.2.2 h.symm⟩
      · intro e2 he2
        rcases List.mem_cons.1 he2 with rfl | he2
        · exact ⟨hn1, hn2⟩
        · have := hM4 e2 he2
          simp only [List.mem_append, not_or] at this
          exact ⟨this.1.1, this.2.1⟩
      · intro e2 he2
        rcases List.mem_cons.1 he2 with rfl | he2
        · left; rw [hM1]; simp
        · exact hM5 e2 he2
    · rw [if_neg hfree] at hT ⊢
      obtain ⟨M, hM1, hM2, hM3, hM4, hM5⟩ := ih cover matched (k + 1) hE2 hlen hinv
        (fun j hj1 hj2 => hT j (by omega) hj2)
      refine ⟨M, hM1, fun e2 he2 => List.mem_cons_of_mem _ (hM2 e2 he2), hM3, hM4, ?_⟩
      intro e2 he2
      rcases List.mem_cons.1 he2 with rfl | he2
      · have hor : matched.getD e2.1.toNat false = true ∨
            matched.getD e2.2.toNat false = true := by
          revert hfree
          generalize matched.getD e2.1.toNat false = b1
          generalize matched.getD e2.2.toNat false = b2
          cases b1 <;> cases b2 <;> simp
        rw [hM1]
        rcases hor with h | h
        · exact Or.inl (List.mem_append_left _ ((hinv e2.1 he.1 he.2.1).1 h))
        · exact Or.inr (List.mem_append_left _ ((hinv e2.2 he.2.2.1 he.2.2.2).1 h))
      · exact hM5 e2 he2

end Solver
namespace Solver

theorem hit_iff_mem_of_wf (S : Solver) (c : List Int) (x : Int)
    (h1 : 1 ≤ x) (h2 : x ≤ S.G.maxId) : S.hit c x ↔ x ∈ c := by
  unfold hit
  constructor
  · rintro ⟨v, hv, h3, _, h5⟩
    have : v = x := by omega
    exact this ▸ hv
  · intro h
    exact ⟨x, h, h1, h2, rfl⟩

/-- On a well-formed graph `coversAll` is the vertex-cover predicate. -/
theorem coversAll_iff_of_wf (S : Solver) (hG : S.G.WF) (c : List Int) :
    S.coversAll c = true ↔ ∀ e ∈ S.G.edges, e.1 ∈ c ∨ e.2 ∈ c := by
  rw [coversAll_iff]
  constructor
  · intro h e he
    have hb := hG.endpointsInRange e he
    have := h e he
    rw [S.hit_iff_mem_of_wf c e.1 (by omega) (by omega),
      S.hit_iff_mem_of_wf c e.2 (by omega) (by omega)] at this
    exact this
  · intro h e he
    have hb := hG.endpointsInRange e he
    rw [S.hit_iff_mem_of_wf c e.1 (by omega) (by omega),
      S.hit_iff_mem_of_wf c e.2 (by omega) (by omega)]
    exact h e he

theorem mem_sortedEdges (S : Solver) (e : Int × Int) : e ∈ S.sortedEdges ↔ e ∈ S.G.edges :=
  (List.perm_insertionSort _ S.G.edges).mem_iff

/-- Whatever the clock does, the matching candidate consists of endpoints of stored
edges. -/
theorem twoApprox_mem (S : Solver) (T : Timer) (k : Nat) (x : Int)
    (hx : x ∈ (S.twoApproxFromMatching T k).1) : ∃ e ∈ S.G.edges, e.1 = x ∨ e.2 = x := by
  unfold twoApproxFromMatching at hx
  simp only [] at hx
  have h1 := (mem_sortUnique _ x).1 (S.mem_of_mem_cleanup _ hx)
  rcases S.matchScan_mem T _ _ _ _ x h1 with h | ⟨e, he, h⟩
  · cases h
  · exact ⟨e, (S.mem_sortedEdges e).1 he, h⟩

/-- The matching selected by `twoApproxFromMatching` when its scan is not cut short by
the deadline. -/
theorem twoApprox_matching (S : Solver) (hG : S.G.WF) (T : Timer) (k : Nat)
    (hT : ∀ j, k ≤ j → j < (S.twoApproxFromMatching T k).2 →
      T.seconds j ≤ S.limit60) :
    ∃ M : List (Int × Int),
      (S.matchScan T S.sortedEdges [] (List.replicate (S.G.maxId + 1).toNat false) k).1
        = endpoints M ∧
      (∀ e ∈ M, e ∈ S.G.edges) ∧ M.Pairwise disjointEdges ∧
      (∀ e ∈ S.G.edges, e.1 ∈ endpoints M ∨ e.2 ∈ endpoints M) := by
  obtain ⟨M, h1, h2, h3, _, h5⟩ := S.matchScan_spec T S.G.maxId S.sortedEdges []
    (List.replicate (S.G.maxId + 1).toNat false) k
    (fun e he => by
      have := hG.endpointsInRange e ((S.mem_sortedEdges e).1 he)
      omega)
    (by simp)
    (fun x _ _ => by simp [getD_replicate_false])
    hT
  refine ⟨M, by simpa using h1, fun e he => (S.mem_sortedEdges e).1 (h2 e he), h3, ?_⟩
  intro e he
  have := h5 e ((S.mem_sortedEdges e).2 he)
  rw [h1] at this
  simpa using this

/-- The matching candidate is a sublist-sized selection of the pushed vertices. -/
theorem twoApprox_length_le (S : Solver) (T : Timer) (k : Nat) :
    (S.twoApproxFromMatching T k).1.length ≤
      (S.matchScan T S.sortedEdges [] (List.replicate (S.G.maxId + 1).toNat false) k).1.length ∧
    ∀ x ∈ (S.twoApproxFromMatching T k).1,
      x ∈ (S.matchScan T S.sortedEdges [] (List.replicate (S.G.maxId + 1).toNat false) k).1 := by
  unfold twoApproxFromMatching
  simp only []
  generalize (S.matchScan T S.sortedEdges [] (List.replicate (S.G.maxId + 1).toNat false)
    k).1 = sc
  constructor
  · have a1 := S.cleanup_length_le (unique (List.insertionSort (· ≤ ·) sc))
    have a2 := (unique_sublist (List.insertionSort (· ≤ ·) sc)).length_le
    rw [List.length_insertionSort] at a2
    omega
  · intro x hx
    exact (mem_sortUnique _ x).1 (S.mem_of_mem_cleanup _ hx)

theorem twoApprox_feasible (S : Solver) (hG : S.G.WF) (T : Timer) (k : Nat)
    (hT : ∀ j, k ≤ j → j < (S.twoApproxFromMatching T k).2 →
      T.seconds j ≤ S.limit60) :
    S.coversAll (S.twoApproxFromMatching T k).1 = true := by
  obtain ⟨M, h1, _, _, h4⟩ := S.twoApprox_matching hG T k hT
  unfold twoApproxFromMatching
  simp only []
  refine S.cleanup_feasible _ ((S.coversAll_iff_of_wf hG _).2 (fun e he => ?_))
  rw [mem_sortUnique, mem_sortUnique, h1]
  exact h4 e he

end Solver
/-! ## The greedy heuristic -/

namespace Solver

theorem removeFold_length (x : Int) (ys : List Int) (adj : List (List Int)) :
    (ys.foldl (fun a y => a.set y.toNat ((a.getD y.toNat []).filter (fun z => z ≠ x)))
      adj).length = adj.length := by
  induction ys generalizing adj with
  | nil => rfl
  | cons y ys ih => rw [List.foldl_cons, ih]; simp

theorem removeFold_keep (x : Int) (ys : List Int) (adj : List (List Int)) (i : Nat)
    (z : Int) (hz : z ∈ adj.getD i []) (hzx : z ≠ x) :
    z ∈ (ys.foldl (fun a y => a.set y.toNat ((a.getD y.toNat []).filter (fun z => z ≠ x)))
      adj).getD i [] := by
  induction ys generalizing adj with
  | nil => exact hz
  | cons y ys ih =>
    rw [List.foldl_cons]
    refine ih _ ?_
    rw [getD_set]
    split
    · rename_i h
      rw [List.mem_filter]
      exact ⟨h.1 ▸ hz, by simpa using hzx⟩
    · exact hz

theorem removeFold_sub (x : Int) (ys : List Int) (adj : List (List Int)) (i : Nat)
    (z : Int)
    (hz : z ∈ (ys.foldl
      (fun a y => a.set y.toNat ((a.getD y.toNat []).filter (fun z => z ≠ x))) adj).getD i []) :
    z ∈ adj.getD i [] := by
  induction ys generalizing adj with
  | nil => exact hz
  | cons y ys ih =>
    rw [List.foldl_cons] at hz
    have h := ih _ hz
    rw [getD_set] at h
    split at h
    · rename_i h2
      exact h2.1 ▸ (List.mem_filter.1 h).1
    · exact h

theorem removeV_length (adj : List (List Int)) (x : Int) :
    (removeV adj x).length = adj.length := by
  unfold removeV
  simp only [List.length_set]
  exact removeFold_length x _ adj

/-- Entries other than `x` survive `removeV x` in every list but that of `x`. -/
theorem removeV_keep (adj : List (List Int)) (x : Int) (i : Nat) (z : Int)
    (hz : z ∈ adj.getD i []) (hi : i ≠ x.toNat) (hzx : z ≠ x) :
    z ∈ (removeV adj x).getD i [] := by
  unfold removeV
  simp only []
  rw [getD_set, if_neg (fun h => hi h.1.symm)]
  exact removeFold_keep x _ adj i z hz hzx

/-- The lambda `removeV` only deletes entries. -/
theorem removeV_sub (adj : List (List Int)) (x : Int) (i : Nat) (z : Int)
    (hz : z ∈ (removeV adj x).getD i []) : z ∈ adj.getD i [] := by
  unfold removeV at hz
  simp only [] at hz
  rw [getD_set] at hz
  split at hz
  · cases hz
  · exact removeFold_sub x _ adj i z hz

theorem hasEdgesLocal_false (S : Solver) (adj : List (List Int))
    (h : S.hasEdgesLocal adj = false) (x : Int) (h1 : 1 ≤ x) (h2 : x ≤ S.G.maxId) :
    adj.getD x.toNat [] = [] := by
  unfold hasEdgesLocal at h
  rw [List.any_eq_false] at h
  have := h (x.toNat - 1) (List.mem_range.2 (by omega))
  have hx : x.toNat - 1 + 1 = x.toNat := by omega
  rw [hx] at this
  simpa using this

theorem hasEdgesLocal_true (S : Solver) (adj : List (List Int))
    (h : S.hasEdgesLocal adj = true) :
    ∃ i, i < S.G.maxId.toNat ∧ adj.getD (i + 1) [] ≠ [] := by
  unfold hasEdgesLocal at h
  rw [List.any_eq_true] at h
  obtain ⟨i, hi, h2⟩ := h
  refine ⟨i, List.mem_range.1 hi, fun h3 => ?_⟩
  rw [h3] at h2
  simp at h2

theorem pickFold (adj : List (List Int)) (n : Nat) :
    (n = 0 ∧ (List.range n).foldl
        (fun (st : Int × Int) i =>
          if ((adj.getD (i + 1) []).length : Int) > st.2
          then (((i + 1 : Nat) : Int), ((adj.getD (i + 1) []).length : Int)) else st)
        (-1, -1) = (-1, -1)) ∨
    (0 < n ∧
      1 ≤ ((List.range n).foldl
        (fun (st : Int × Int) i =>
          if ((adj.getD (i + 1) []).length : Int) > st.2
          then (((i + 1 : Nat) : Int), ((adj.getD (i + 1) []).length : Int)) else st)
        (-1, -1)).1 ∧
      ((List.range n).foldl
        (fun (st : Int × Int) i =>
          if ((adj.getD (i + 1) []).length : Int) > st.2
          then (((i + 1 : Nat) : Int), ((adj.getD (i + 1) []).length : Int)) else st)
        (-1, -1)).1 ≤ n ∧
      ((List.range n).foldl
        (fun (st : Int × Int) i =>
          if ((adj.getD (i + 1) []).length : Int) > st.2
          then (((i + 1 : Nat) : Int), ((adj.getD (i + 1) []).length : Int)) else st)
        (-1, -1)).2 =
        ((adj.getD ((List.range n).foldl
          (fun (st : Int × Int) i =>
            if ((adj.getD (i + 1) []).length : Int) > st.2
            then (((i + 1 : Nat) : Int), ((adj.getD (i + 1) []).length : Int)) else st)
          (-1, -1)).1.toNat []).length : Int) ∧
      ∀ i, i < n → ((adj.getD (i + 1) []).length : Int) ≤
        ((List.range n).foldl
          (fun (st : Int × Int) i =>
            if ((adj.getD (i + 1) []).length : Int) > st.2
            then (((i + 1 : Nat) : Int), ((adj.getD (i + 1) []).length : Int)) else st)
          (-1, -1)).2) := by
  induction n with
  | zero => left; exact ⟨rfl, rfl⟩
  | succ n ih =>
    right
    rw [List.range_succ, List.foldl_append]
    simp only [List.foldl_cons, List.foldl_nil]
    generalize (List.range n).foldl
        (fun (st : Int × Int) i =>
          if ((adj.getD (i + 1) []).length : Int) > st.2
          then (((i + 1 : Nat) : Int), ((adj.getD (i + 1) []).length : Int)) else st)
        (-1, -1) = r at ih
    rcases ih with ⟨h0, hr⟩ | ⟨hpos, h1, h2, h3, h4⟩
    · subst h0
      subst hr
      have hd : ((adj.getD (0 + 1) []).length : Int) > (-1 : Int) := by
        have : (0 : Int) ≤ ((adj.getD (0 + 1) []).length : Int) := Int.natCast_nonneg _
        omega
      rw [if_pos hd]
      refine ⟨by omega, by simp, by simp, by simp, ?_⟩
      intro i hi
      have : i = 0 := by omega
      subst this
      exact le_refl _
    · by_cases hd : ((adj.getD (n + 1) []).length : Int) > r.2
      · rw [if_pos hd]
        refine ⟨by omega, ?_, ?_, ?_, ?_⟩
        · simp only []; omega
        · simp only []; omega
        · simp only []
          have : (((n + 1 : Nat) : Int)).toNat = n + 1 := by omega
          rw [this]
        · intro i hi
          simp only []
          by_cases hin : i < n
          · have := h4 i hin; omega
          · have : i = n := by omega
            subst this
            exact le_refl _
      · rw [if_neg hd]
        refine ⟨by omega, h1, by omega, h3, ?_⟩
        intro i hi
        by_cases hin : i < n
        · exact h4 i hin
        · have : i = n := by omega
          subst this
          omega

/-- The vertex chosen by the selection loop when some residual list is non-empty: it
lies in `[1, maxId]` and its own residual list is non-empty. -/
theorem pickBest_spec (S : Solver) (adj : List (List Int))
    (h : S.hasEdgesLocal adj = true) :
    1 ≤ (S.pickBest adj).1 ∧ (S.pickBest adj).1 ≤ S.G.maxId ∧
      adj.getD (S.pickBest adj).1.toNat [] ≠ [] := by
  obtain ⟨i, hi, hne⟩ := S.hasEdgesLocal_true adj h
  unfold pickBest
  simp only []
  rcases pickFold adj S.G.maxId.toNat with ⟨h0, _⟩ | ⟨_, h1, h2, h3, h4⟩
  · omega
  · refine ⟨h1, by omega, fun hnil => ?_⟩
    have h5 := h4 i hi
    rw [h3, hnil] at h5
    have : (adj.getD (i + 1) []).length = 0 := by
      have h6 : ((adj.getD (i + 1) []).length : Int) ≤ 0 := by simpa using h5
      omega
    exact hne (List.length_eq_zero.1 this)

end Solver
namespace Solver

/-- Whatever the clock does, the greedy loop only adds vertices of `[1, maxId]` whose
residual list is non-empty. -/
theorem greedyLoop_mem (S : Solver) (T : Timer) (adj0 : List (List Int)) (fuel : Nat)
    (adj : List (List Int)) (cover : List Int) (k : Nat) (r : List Int × Nat)
    (hsub : ∀ i z, z ∈ adj.getD i [] → z ∈ adj0.getD i [])
    (hr : S.greedyLoop T fuel adj cover k = some r) :
    ∀ x ∈ r.1, x ∈ cover ∨ (1 ≤ x ∧ x ≤ S.G.maxId ∧ adj0.getD x.toNat [] ≠ []) := by
  induction fuel generalizing adj cover k with
  | zero => simp [greedyLoop] at hr
  | succ fuel ih =>
    unfold greedyLoop at hr
    by_cases hE : S.hasEdgesLocal adj = true
    · rw [if_pos hE] at hr
      by_cases hk : T.seconds k > S.limit60
      · rw [if_pos hk] at hr
        cases hr
        exact fun x hx => Or.inl hx
      · rw [if_neg hk] at hr
        simp only [] at hr
        by_cases hb : (S.pickBest adj).1 ≤ 0
        · rw [if_pos hb] at hr
          cases hr
          exact fun x hx => Or.inl hx
        · rw [if_neg hb] at hr
          have hp := S.pickBest_spec adj hE
          intro x hx
          rcases ih (removeV adj (S.pickBest adj).1) (cover ++ [(S.pickBest adj).1]) (k + 1)
            (fun i z hz => hsub i z (removeV_sub adj _ i z hz)) hr x hx with h | h
          · rcases List.mem_append.1 h with h | h
            · exact Or.inl h
            · have hxb : x = (S.pickBest adj).1 := List.mem_singleton.1 h
              refine Or.inr ⟨hxb ▸ hp.1, hxb ▸ hp.2.1, fun hnil => hp.2.2 ?_⟩
              cases hl : adj.getD (S.pickBest adj).1.toNat [] with
              | nil => rfl
              | cons z zs =>
                have : z ∈ adj0.getD (S.pickBest adj).1.toNat [] :=
                  hsub _ z (by rw [hl]; exact List.mem_cons_self _ _)
                rw [← hxb, hnil] at this
                cases this
          · exact Or.inr h
    · rw [if_neg hE] at hr
      cases hr
      exact fun x hx => Or.inl hx

theorem greedyLoop_count_ge (S : Solver) (T : Timer) (fuel : Nat)
    (adj : List (List Int)) (cover : List Int) (k : Nat) (r : List Int × Nat)
    (hr : S.greedyLoop T fuel adj cover k = some r) : k ≤ r.2 := by
  induction fuel generalizing adj cover k with
  | zero => simp [greedyLoop] at hr
  | succ fuel ih =>
    unfold greedyLoop at hr
    split at hr
    · split at hr
      · cases hr; exact Nat.le_succ k
      · simp only [] at hr
        split at hr
        · cases hr; exact Nat.le_succ k
        · exact le_trans (Nat.le_succ k) (ih _ _ _ hr)
    · cases hr; exact le_refl _

/-- When no reading taken by the greedy loop is above the 60% threshold, every edge
has an endpoint among the vertices collected at its exit. -/
theorem greedyLoop_feasible (S : Solver) (hG : S.G.WF) (T : Timer) (fuel : Nat)
    (adj : List (List Int)) (cover : List Int) (k : Nat) (r : List Int × Nat)
    (hinv : ∀ e ∈ S.G.edges, e.1 ∈ cover ∨ e.2 ∈ cover ∨ e.2 ∈ adj.getD e.1.toNat [])
    (hr : S.greedyLoop T fuel adj cover k = some r)
    (hT : ∀ j, k ≤ j → j < r.2 → T.seconds j ≤ S.limit60) :
    ∀ e ∈ S.G.edges, e.1 ∈ r.1 ∨ e.2 ∈ r.1 := by
  induction fuel generalizing adj cover k with
  | zero => simp [greedyLoop] at hr
  | succ fuel ih =>
    unfold greedyLoop at hr
    by_cases hE : S.hasEdgesLocal adj = true
    · rw [if_pos hE] at hr
      by_cases hk : T.seconds k > S.limit60
      · rw [if_pos hk] at hr
        cases hr
        exact absurd hk (not_lt.2 (hT k (le_refl _) (Nat.lt_succ_self k)))
      · rw [if_neg hk] at hr
        simp only [] at hr
        have hp := S.pickBest_spec adj hE
        rw [if_neg (by omega)] at hr
        refine ih (removeV adj (S.pickBest adj).1) (cover ++ [(S.pickBest adj).1]) (k + 1)
          (fun e he => ?_) hr (fun j hj1 hj2 => hT j (by omega) hj2)
        have hb := hG.endpointsInRange e he
        by_cases h1 : e.1 = (S.pickBest adj).1
        · exact Or.inl (List.mem_append_right _ (List.mem_singleton.2 h1))
        · by_cases h2 : e.2 = (S.pickBest adj).1
          · exact Or.inr (Or.inl (List.mem_append_right _ (List.mem_singleton.2 h2)))
          · rcases hinv e he with h | h | h
            · exact Or.inl (List.mem_append_left _ h)
            · exact Or.inr (Or.inl (List.mem_append_left _ h))
            · exact Or.inr (Or.inr (removeV_keep adj _ _ _ h (by omega) h2))
    · rw [if_neg hE] at hr
      cases hr
      have hE2 : S.hasEdgesLocal adj = false := by simpa using hE
      intro e he
      have hb := hG.endpointsInRange e he
      rcases hinv e he with h | h | h
      · exact Or.inl h
      · exact Or.inr h
      · rw [S.hasEdgesLocal_false adj hE2 e.1 (by omega) (by omega)] at h
        cases h

/-- Whatever the clock does, the greedy candidate consists of endpoints of stored
edges. -/
theorem greedy_mem (S : Solver) (hG : S.G.WF) (fuel : Nat) (T : Timer) (k : Nat)
    (g : List Int × Nat) (hg : S.greedyMaxDegree fuel T k = some g) :
    ∀ x ∈ g.1, ∃ e ∈ S.G.edges, e.1 = x ∨ e.2 = x := by
  unfold greedyMaxDegree at hg
  split at hg
  · cases hg
  · rename_i r hr
    cases hg
    intro x hx
    have hx2 := S.mem_of_mem_cleanup _ hx
    rcases S.greedyLoop_mem T S.G.adj fuel S.G.adj [] k r (fun _ _ h => h) hr x hx2
      with h | ⟨h1, h2, h3⟩
    · cases h
    · cases hl : S.G.adj.getD x.toNat [] with
      | nil => exact absurd hl h3
      | cons y ys =>
        obtain ⟨e, he, h⟩ := (hG.adjEntries x.toNat y).1 (by rw [hl]; exact List.mem_cons_self _ _)
        have hb := hG.endpointsInRange e he
        rcases h with ⟨h, _⟩ | ⟨h, _⟩
        · exact ⟨e, he, Or.inl (by omega)⟩
        · exact ⟨e, he, Or.inr (by omega)⟩

theorem greedy_count (S : Solver) (fuel : Nat) (T : Timer) (k : Nat)
    (g : List Int × Nat) (hg : S.greedyMaxDegree fuel T k = some g) : k ≤ g.2 := by
  unfold greedyMaxDegree at hg
  split at hg
  · cases hg
  · rename_i r hr
    cases hg
    exact S.greedyLoop_count_ge T fuel _ _ k r hr

theorem greedy_feasible (S : Solver) (hG : S.G.WF) (fuel : Nat) (T : Timer) (k : Nat)
    (g : List Int × Nat) (hg : S.greedyMaxDegree fuel T k = some g)
    (hT : ∀ j, k ≤ j → j < g.2 → T.seconds j ≤ S.limit60) :
    S.coversAll g.1 = true := by
  unfold greedyMaxDegree at hg
  split at hg
  · cases hg
  · rename_i r hr
    cases hg
    refine S.cleanup_feasible _ ((S.coversAll_iff_of_wf hG _).2 ?_)
    refine S.greedyLoop_feasible hG T fuel S.G.adj [] k r (fun e he => ?_) hr hT
    exact Or.inr (Or.inr ((hG.adjEntries e.1.toNat e.2).2 ⟨e, he, Or.inl ⟨rfl, rfl⟩⟩))

end Solver
/-! ## The swap search -/

theorem mem_set_of_ne (l : List Int) (idx : Nat) (u w : Int) (hw : w ∈ l)
    (hne : w ≠ l.getD idx 0) : w ∈ l.set idx u := by
  induction l generalizing idx with
  | nil => cases hw
  | cons a l ih =>
    cases idx with
    | zero =>
      rcases List.mem_cons.1 hw with h | h
      · exact absurd h hne
      · exact List.mem_cons_of_mem _ h
    | succ idx =>
      rcases List.mem_cons.1 hw with h | h
      · rw [h]; exact List.mem_cons_self _ _
      · exact List.mem_cons_of_mem _ (ih idx h hne)

theorem mem_set_self (l : List Int) (idx : Nat) (u : Int) (h : idx < l.length) :
    u ∈ l.set idx u := by
  induction l generalizing idx with
  | nil => simp at h
  | cons a l ih =>
    cases idx with
    | zero => exact List.mem_cons_self _ _
    | succ idx => exact List.mem_cons_of_mem _ (ih idx (by simpa using h))

theorem getD_mem (l : List Int) (idx : Nat) (h : idx < l.length) : l.getD idx 0 ∈ l := by
  induction l generalizing idx with
  | nil => simp at h
  | cons a l ih =>
    cases idx with
    | zero => exact List.mem_cons_self _ _
    | succ idx => exact List.mem_cons_of_mem _ (ih idx (by simpa using h))

namespace Solver

theorem rebuildFold (c : List Int) (acc : List Bool) :
    (c.foldl (fun inn x => inn.set x.toNat true) acc).length = acc.length ∧
    ∀ i, (c.foldl (fun inn x => inn.set x.toNat true) acc).getD i false = true →
      acc.getD i false = true ∨ ∃ w ∈ c, w.toNat = i := by
  induction c generalizing acc with
  | nil => exact ⟨rfl, fun i h => Or.inl h⟩
  | cons a c ih =>
    rw [List.foldl_cons]
    refine ⟨by rw [(ih _).1]; simp, fun i h => ?_⟩
    rcases (ih _).2 i h with h1 | ⟨w, hw, h1⟩
    · rw [getD_set] at h1
      split at h1
      · rename_i h2
        exact Or.inr ⟨a, List.mem_cons_self _ _, h2.1⟩
      · exact Or.inl h1
    · exact Or.inr ⟨w, List.mem_cons_of_mem _ hw, h1⟩

theorem rebuild_spec (S : Solver) (c : List Int) :
    (S.rebuild c).length = (S.G.maxId + 1).toNat ∧
    ∀ i, (S.rebuild c).getD i false = true → ∃ w ∈ c, w.toNat = i := by
  unfold rebuild
  refine ⟨by rw [(rebuildFold c _).1]; simp, fun i h => ?_⟩
  rcases (rebuildFold c _).2 i h with h1 | h1
  · rw [getD_replicate_false] at h1; cases h1
  · exact h1

/-- The neighbour scan of `localImprove`: an accepted replacement passed the edge
check on a lookup that flags only the replacement and cover vertices other than `v`;
without one, the lookup still flags cover vertices only. -/
theorem swapScan_spec (S : Solver) (T : Timer) (v : Int) (cover : List Int)
    (hv : v ∈ cover) (hvr : 0 ≤ v ∧ v ≤ S.G.maxId)
    (us : List Int) (inn : List Bool) (k : Nat)
    (hlen : inn.length = (S.G.maxId + 1).toNat)
    (hJ : ∀ i, inn.getD i false = true → ∃ w ∈ cover, w.toNat = i) :
    (∀ u, (S.swapScan T v us inn k).1 = some u →
      u ∈ us ∧ S.allEdgesIn (S.swapScan T v us inn k).2.1 = true ∧
      ∀ i, (S.swapScan T v us inn k).2.1.getD i false = true →
        i = u.toNat ∨ (i ≠ v.toNat ∧ ∃ w ∈ cover, w.toNat = i)) ∧
    ((S.swapScan T v us inn k).1 = none →
      (S.swapScan T v us inn k).2.1.length = (S.G.maxId + 1).toNat ∧
      ∀ i, (S.swapScan T v us inn k).2.1.getD i false = true → ∃ w ∈ cover, w.toNat = i) := by
  induction us generalizing inn k with
  | nil =>
    unfold swapScan
    exact ⟨fun u h => (by cases h), fun _ => ⟨hlen, hJ⟩⟩
  | cons u us ih =>
    unfold swapScan
    by_cases hin : inn.getD u.toNat false = true
    · rw [if_pos hin]
      have := ih inn k hlen hJ
      exact ⟨fun u2 h => ⟨List.mem_cons_of_mem _ (this.1 u2 h).1, (this.1 u2 h).2⟩, this.2⟩
    · rw [if_neg hin]
      simp only []
      by_cases hok : S.allEdgesIn ((inn.set v.toNat false).set u.toNat true) = true
      · rw [if_pos hok]
        refine ⟨fun u2 h => ?_, fun h => by cases h⟩
        have hu : u = u2 := by simpa using h
        subst hu
        refine ⟨List.mem_cons_self _ _, hok, fun i hi => ?_⟩
        rw [getD_set, getD_set, List.length_set] at hi
        by_cases c1 : u.toNat = i ∧ u.toNat < inn.length
        · exact Or.inl c1.1.symm
        · rw [if_neg c1] at hi
          by_cases c2 : v.toNat = i ∧ v.toNat < inn.length
          · rw [if_pos c2] at hi; cases hi
          · rw [if_neg c2] at hi
            refine Or.inr ⟨fun h => c2 ⟨h.symm, by omega⟩, hJ i hi⟩
      · rw [if_neg hok]
        have hlen2 : ((((inn.set v.toNat false).set u.toNat true).set u.toNat false).set
            v.toNat true).length = (S.G.maxId + 1).toNat := by simpa using hlen
        have hJ2 : ∀ i, ((((inn.set v.toNat false).set u.toNat true).set u.toNat false).set
            v.toNat true).getD i false = true → ∃ w ∈ cover, w.toNat = i := by
          intro i hi
          rw [getD_set] at hi
          by_cases c1 : v.toNat = i ∧
              v.toNat < (((inn.set v.toNat false).set u.toNat true).set u.toNat false).length
          · exact ⟨v, hv, c1.1⟩
          · rw [if_neg c1, getD_set] at hi
            split at hi
            · cases hi
            · rename_i c2
              rw [getD_set] at hi
              split at hi
              · rename_i c3
                exact absurd ⟨c3.1, by simpa using c3.2⟩ c2
              · rw [getD_set] at hi
                split at hi
                · cases hi
                · exact hJ i hi
        by_cases hk : T.seconds k > S.limit95
        · rw [if_pos hk]
          exact ⟨fun u2 h => (by cases h), fun _ => ⟨hlen2, hJ2⟩⟩
        · rw [if_neg hk]
          have := ih _ (k + 1) hlen2 hJ2
          exact ⟨fun u2 h => ⟨List.mem_cons_of_mem _ (this.1 u2 h).1, (this.1 u2 h).2⟩,
            this.2⟩

end Solver
namespace Solver

/-- One pass of `localImprove` over the cover positions keeps the cover length, keeps
every cover vertex an endpoint of a stored edge, keeps the lookup within the cover, and
keeps a feasible cover feasible. -/
theorem passScan_spec (S : Solver) (hG : S.G.WF) (T : Timer) (n : Nat) (cover : List Int)
    (inn : List Bool) (k : Nat) (hn : n ≤ cover.length)
    (hlen : inn.length = (S.G.maxId + 1).toNat)
    (hJ : ∀ i, inn.getD i false = true → ∃ w ∈ cover, w.toNat = i)
    (hR : ∀ x ∈ cover, ∃ e ∈ S.G.edges, e.1 = x ∨ e.2 = x) :
    (S.passScan T n cover inn k).1.length = cover.length ∧
    (∀ x ∈ (S.passScan T n cover inn k).1, ∃ e ∈ S.G.edges, e.1 = x ∨ e.2 = x) ∧
    (S.passScan T n cover inn k).2.1.length = (S.G.maxId + 1).toNat ∧
    (∀ i, (S.passScan T n cover inn k).2.1.getD i false = true →
      ∃ w ∈ (S.passScan T n cover inn k).1, w.toNat = i) ∧
    (S.coversAll cover = true → S.coversAll (S.passScan T n cover inn k).1 = true) := by
  induction n generalizing inn k with
  | zero =>
    unfold passScan
    exact ⟨rfl, hR, hlen, hJ, fun h => h⟩
  | succ n ih =>
    have hidx : cover.length - (n + 1) < cover.length := by omega
    have hv : cover.getD (cover.length - (n + 1)) 0 ∈ cover := getD_mem cover _ hidx
    obtain ⟨ev, hev, hev2⟩ := hR _ hv
    have hevb := hG.endpointsInRange ev hev
    have hvr : 1 ≤ cover.getD (cover.length - (n + 1)) 0 ∧
        cover.getD (cover.length - (n + 1)) 0 ≤ S.G.maxId := by
      rcases hev2 with h | h <;> rw [← h] <;> omega
    have hspec := S.swapScan_spec T (cover.getD (cover.length - (n + 1)) 0) cover hv
      ⟨by omega, hvr.2⟩
      (S.G.adj.getD (cover.getD (cover.length - (n + 1)) 0).toNat []) inn k hlen hJ
    unfold passScan
    simp only []
    generalize S.swapScan T (cover.getD (cover.length - (n + 1)) 0)
      (S.G.adj.getD (cover.getD (cover.length - (n + 1)) 0).toNat []) inn k = sw at hspec
    obtain ⟨ou, inn1, k1⟩ := sw
    cases ou with
    | some u =>
      simp only []
      obtain ⟨hu, hok, hmarks⟩ := hspec.1 u rfl
      simp only [] at hok hmarks
      obtain ⟨eu, heu, heu2⟩ := (hG.adjEntries _ u).1 hu
      have heub := hG.endpointsInRange eu heu
      have huE : ∃ e ∈ S.G.edges, e.1 = u ∨ e.2 = u := by
        rcases heu2 with ⟨_, h⟩ | ⟨_, h⟩
        · exact ⟨eu, heu, Or.inr h.symm⟩
        · exact ⟨eu, heu, Or.inl h.symm⟩
      have hur : 1 ≤ u ∧ u ≤ S.G.maxId := by
        rcases heu2 with ⟨_, h⟩ | ⟨_, h⟩ <;> rw [h] <;> omega
      have hR1 : ∀ x ∈ cover.set (cover.length - (n + 1)) u,
          ∃ e ∈ S.G.edges, e.1 = x ∨ e.2 = x := by
        intro x hx
        rcases List.mem_or_eq_of_mem_set hx with h | h
        · exact hR x h
        · rw [h]; exact huE
      refine ⟨by simp, hR1, (S.rebuild_spec _).1, (S.rebuild_spec _).2, fun _ => ?_⟩
      rw [S.coversAll_iff_of_wf hG]
      intro e he
      have hb := hG.endpointsInRange e he
      have hmem : ∀ a : Int, 1 ≤ a → inn1.getD a.toNat false = true →
          a ∈ cover.set (cover.length - (n + 1)) u := by
        intro a ha hm
        rcases hmarks a.toNat hm with h | ⟨h1, w, hw, h2⟩
        · have : a = u := by omega
          rw [this]
          exact mem_set_self cover _ u hidx
        · obtain ⟨ew, hew, hew2⟩ := hR w hw
          have hewb := hG.endpointsInRange ew hew
          have hwa : w = a := by
            rcases hew2 with h | h <;> rw [← h] at h2 ⊢ <;> omega
          rw [← hwa]
          refine mem_set_of_ne cover _ u w hw (fun h => h1 ?_)
          rw [← h, hwa]
      unfold allEdgesIn at hok
      rw [List.all_eq_true] at hok
      have := hok e he
      rw [Bool.or_eq_true] at this
      rcases this with h | h
      · exact Or.inl (hmem e.1 (by omega) h)
      · exact Or.inr (hmem e.2 (by omega) h)
    | none =>
      simp only []
      obtain ⟨hlen1, hJ1⟩ := hspec.2 rfl
      simp only [] at hlen1 hJ1
      split
      · exact ⟨rfl, hR, hlen1, hJ1, fun h => h⟩
      · exact ih inn1 (k1 + 1) (by omega) hlen1 hJ1

/-- The `while` loop of `localImprove` keeps the cover length, keeps every cover
vertex an endpoint of a stored edge and keeps a feasible cover feasible. -/
theorem improveLoop_spec (S : Solver) (hG : S.G.WF) (T : Timer) (fuel : Nat)
    (cover : List Int) (inn : List Bool) (improved : Bool) (k : Nat) (r : List Int × Nat)
    (hlen : inn.length = (S.G.maxId + 1).toNat)
    (hJ : ∀ i, inn.getD i false = true → ∃ w ∈ cover, w.toNat = i)
    (hR : ∀ x ∈ cover, ∃ e ∈ S.G.edges, e.1 = x ∨ e.2 = x)
    (hr : S.improveLoop T fuel cover inn improved k = some r) :
    r.1.length = cover.length ∧
    (∀ x ∈ r.1, ∃ e ∈ S.G.edges, e.1 = x ∨ e.2 = x) ∧
    (S.coversAll cover = true → S.coversAll r.1 = true) := by
  induction fuel generalizing cover inn improved k with
  | zero => simp [improveLoop] at hr
  | succ fuel ih =>
    unfold improveLoop at hr
    split at hr
    · split at hr
      · simp only [] at hr
        have hp := S.passScan_spec hG T cover.length cover inn (k + 1) (le_refl _) hlen hJ hR
        have := ih _ _ _ _ hp.2.2.1 hp.2.2.2.1 hp.2.1 hr
        exact ⟨this.1.trans hp.1, this.2.1, fun h => this.2.2 (hp.2.2.2.2 h)⟩
      · cases hr
        exact ⟨rfl, hR, fun h => h⟩
    · cases hr
      exact ⟨rfl, hR, fun h => h⟩

theorem localImprove_spec (S : Solver) (hG : S.G.WF) (T : Timer) (fuel : Nat)
    (cover : List Int) (k : Nat) (r : List Int × Nat)
    (hR : ∀ x ∈ cover, ∃ e ∈ S.G.edges, e.1 = x ∨ e.2 = x)
    (hr : S.localImprove fuel cover T k = some r) :
    (∃ c, r.1 = S.cleanup c) ∧
    r.1.length ≤ cover.length ∧
    (∀ x ∈ r.1, ∃ e ∈ S.G.edges, e.1 = x ∨ e.2 = x) ∧
    (S.coversAll cover = true → S.coversAll r.1 = true) := by
  unfold localImprove at hr
  split at hr
  · cases hr
  · rename_i r2 hr2
    cases hr
    have h := S.improveLoop_spec hG T fuel cover (S.rebuild cover) true k r2
      (S.rebuild_spec cover).1 (S.rebuild_spec cover).2 hR hr2
    simp only []
    refine ⟨⟨r2.1, rfl⟩, ?_, fun x hx => h.2.1 x (S.mem_of_mem_cleanup _ hx),
      fun hc => S.cleanup_feasible _ (h.2.2 hc)⟩
    have := S.cleanup_length_le r2.1
    omega

end Solver
/-! ## The orchestrator -/

namespace Solver

theorem solve_eq_some (S : Solver) (fuel : Nat) (T : Timer) (r : List Int)
    (hr : S.solve fuel T = some r) :
    ∃ c rl, S.candidates fuel T = some c ∧
      S.localImprove fuel (keep c.1 c.2.1) T c.2.2 = some rl ∧ r = rl.1 := by
  unfold solve at hr
  split at hr
  · cases hr
  · rename_i c hc
    split at hr
    · cases hr
    · rename_i rl hrl
      cases hr
      exact ⟨c, rl, hc, hrl, rfl⟩

theorem candidates_eq_some (S : Solver) (fuel : Nat) (T : Timer)
    (c : List Int × List Int × Nat) (hc : S.candidates fuel T = some c) :
    c.1 = (S.twoApproxFromMatching T 0).1 ∧
    ∃ g, S.greedyMaxDegree fuel T (S.twoApproxFromMatching T 0).2 = some g ∧
      c.2.1 = g.1 ∧ c.2.2 = g.2 := by
  unfold candidates at hc
  simp only [] at hc
  split at hc
  · cases hc
  · rename_i g hg
    cases hc
    exact ⟨rfl, g, hg, rfl, rfl⟩

theorem keep_cases (best gr : List Int) : keep best gr = best ∨ keep best gr = gr := by
  unfold keep
  split
  · exact Or.inr rfl
  · exact Or.inl rfl

/-- Whatever the clock does, both candidates consist of endpoints of stored edges. -/
theorem candidates_mem (S : Solver) (hG : S.G.WF) (fuel : Nat) (T : Timer)
    (c : List Int × List Int × Nat) (hc : S.candidates fuel T = some c) :
    ∀ x ∈ keep c.1 c.2.1, ∃ e ∈ S.G.edges, e.1 = x ∨ e.2 = x := by
  obtain ⟨h1, g, hg, h2, _⟩ := S.candidates_eq_some fuel T c hc
  intro x hx
  rcases keep_cases c.1 c.2.1 with h | h
  · rw [h, h1] at hx
    exact S.twoApprox_mem T 0 x hx
  · rw [h, h2] at hx
    exact S.greedy_mem hG fuel T _ g hg x hx

/-- When no reading taken inside the two heuristics is above the 60% threshold, both
candidates pass `coversAll`. -/
theorem candidates_feasible (S : Solver) (hG : S.G.WF) (fuel : Nat) (T : Timer)
    (c : List Int × List Int × Nat) (hc : S.candidates fuel T = some c)
    (hT : ∀ j, j < c.2.2 → T.seconds j ≤ S.limit60) :
    S.coversAll c.1 = true ∧ S.coversAll c.2.1 = true := by
  obtain ⟨h1, g, hg, h2, h3⟩ := S.candidates_eq_some fuel T c hc
  have hcount := S.greedy_count fuel T _ g hg
  constructor
  · rw [h1]
    exact S.twoApprox_feasible hG T 0 (fun j _ hj => hT j (by omega))
  · rw [h2]
    exact S.greedy_feasible hG fuel T _ g hg (fun j _ hj => hT j (by omega))

/-- The cover returned by `solve` is the result of a `cleanup`, is made of endpoints
of stored edges, and is feasible when the kept candidate is. -/
theorem solve_spec (S : Solver) (hG : S.G.WF) (fuel : Nat) (T : Timer) (r : List Int)
    (hr : S.solve fuel T = some r) :
    ∃ c, S.candidates fuel T = some c ∧
      (∃ c2, r = S.cleanup c2) ∧
      r.length ≤ (keep c.1 c.2.1).length ∧
      (∀ x ∈ r, ∃ e ∈ S.G.edges, e.1 = x ∨ e.2 = x) ∧
      (S.coversAll (keep c.1 c.2.1) = true → S.coversAll r = true) := by
  obtain ⟨c, rl, hc, hrl, rfl⟩ := S.solve_eq_some fuel T r hr
  exact ⟨c, hc, S.localImprove_spec hG T fuel _ _ rl (S.candidates_mem hG fuel T c hc) hrl⟩

/-- A matching is no larger than any vertex cover. -/
theorem matching_le_cover (edges M : List (Int × Int)) (C : Finset Int)
    (hM : ∀ e ∈ M, e ∈ edges) (hdis : M.Pairwise disjointEdges)
    (hC : ∀ e ∈ edges, e.1 ∈ C ∨ e.2 ∈ C) : M.length ≤ C.card := by
  have hnd : (M.map (fun e : Int × Int => if e.1 ∈ C then e.1 else e.2)).Nodup := by
    rw [List.Nodup, List.pairwise_map]
    refine hdis.imp ?_
    intro a b hab
    unfold disjointEdges at hab
    split <;> split
    · exact hab.1
    · exact hab.2.1
    · exact hab.2.2.1
    · exact hab.2.2.2
  have hsub : (M.map (fun e : Int × Int => if e.1 ∈ C then e.1 else e.2)).toFinset ⊆ C := by
    intro x hx
    rw [List.mem_toFinset, List.mem_map] at hx
    obtain ⟨e, he, rfl⟩ := hx
    split
    · assumption
    · rename_i h
      rcases hC e (hM e he) with h2 | h2
      · exact absurd h2 h
      · exact h2
  have := Finset.card_le_card hsub
  rw [List.toFinset_card_of_nodup hnd, List.length_map] at this
  exact this

end Solver
/-! ## Fuel -/

namespace Solver

theorem greedyLoop_fuel_mono (S : Solver) (T : Timer) (fuel extra : Nat)
    (adj : List (List Int)) (cover : List Int) (k : Nat) (r : List Int × Nat)
    (hr : S.greedyLoop T fuel adj cover k = some r) :
    S.greedyLoop T (fuel + extra) adj cover k = some r := by
  induction fuel generalizing adj cover k with
  | zero => simp [greedyLoop] at hr
  | succ fuel ih =>
    have hf : fuel + 1 + extra = (fuel + extra) + 1 := by omega
    rw [hf]
    unfold greedyLoop at hr ⊢
    split
    · rename_i hE
      rw [if_pos hE] at hr
      split
      · rename_i hk
        rw [if_pos hk] at hr
        exact hr
      · rename_i hk
        rw [if_neg hk] at hr
        simp only [] at hr ⊢
        split
        · rename_i hb
          rw [if_pos hb] at hr
          exact hr
        · rename_i hb
          rw [if_neg hb] at hr
          exact ih _ _ _ hr
    · rename_i hE
      rw [if_neg hE] at hr
      exact hr

theorem improveLoop_fuel_mono (S : Solver) (T : Timer) (fuel extra : Nat)
    (cover : List Int) (inn : List Bool) (improved : Bool) (k : Nat) (r : List Int × Nat)
    (hr : S.improveLoop T fuel cover inn improved k = some r) :
    S.improveLoop T (fuel + extra) cover inn improved k = some r := by
  induction fuel generalizing cover inn improved k with
  | zero => simp [improveLoop] at hr
  | succ fuel ih =>
    have hf : fuel + 1 + extra = (fuel + extra) + 1 := by omega
    rw [hf]
    unfold improveLoop at hr ⊢
    split
    · rename_i hi
      rw [if_pos hi] at hr
      split
      · rename_i hk
        rw [if_pos hk] at hr
        simp only [] at hr ⊢
        exact ih _ _ _ _ hr
      · rename_i hk
        rw [if_neg hk] at hr
        exact hr
    · rename_i hi
      rw [if_neg hi] at hr
      exact hr

/-- A run of `solve` that returns with some fuel returns the same cover with any
larger fuel: the fuel only bounds the number of loop iterations. -/
theorem solve_fuel_mono (S : Solver) (fuel extra : Nat) (T : Timer) (r : List Int)
    (hr : S.solve fuel T = some r) : S.solve (fuel + extra) T = some r := by
  obtain ⟨c, rl, hc, hrl, rfl⟩ := S.solve_eq_some fuel T r hr
  have hc2 : S.candidates (fuel + extra) T = some c := by
    unfold candidates at hc ⊢
    simp only [] at hc ⊢
    unfold greedyMaxDegree at hc ⊢
    cases hg : S.greedyLoop T fuel S.G.adj [] (S.twoApproxFromMatching T 0).2 with
    | none => rw [hg] at hc; cases hc
    | some g =>
      rw [hg] at hc
      rw [S.greedyLoop_fuel_mono T fuel extra _ _ _ g hg]
      exact hc
  have hrl2 : S.localImprove (fuel + extra) (keep c.1 c.2.1) T c.2.2 = some rl := by
    unfold localImprove at hrl ⊢
    cases hg : S.improveLoop T fuel (keep c.1 c.2.1) (S.rebuild (keep c.1 c.2.1)) true c.2.2
      with
    | none => rw [hg] at hrl; cases hrl
    | some g =>
      rw [hg] at hrl
      rw [S.improveLoop_fuel_mono T fuel extra _ _ _ _ g hg]
      exact hrl
  unfold solve
  rw [hc2]
  simp only []
  rw [hrl2]

end Solver
/-! ## Graph construction: `maxId`, adjacency and activity -/

namespace Graph

theorem loadStep_not_inBound (st : Int × List (Int × Int)) (p : Int × Int)
    (h : ¬ inBound p) : loadStep st p = st := by
  unfold inBound at h
  unfold loadStep
  simp only []
  by_cases h1 : p.1 ≤ 0 ∨ p.2 ≤ 0
  · rw [if_pos h1]
  · rw [if_neg h1]
    by_cases h2 : p.1 = p.2
    · rw [if_pos h2, if_neg (by omega)]
    · rw [if_neg h2, if_pos (by omega)]

theorem loadStep_inBound (st : Int × List (Int × Int)) (p : Int × Int)
    (h : inBound p) : (loadStep st p).1 = max st.1 (max p.1 p.2) := by
  unfold inBound at h
  unfold loadStep
  simp only []
  rw [if_neg (by omega)]
  by_cases h2 : p.1 = p.2
  · rw [if_pos h2, if_pos (by omega)]
    simp only []
    rw [h2, max_self]
  · rw [if_neg h2, if_neg (by omega)]

theorem loadFold_maxId_inBound (pairs : List (Int × Int)) (st : Int × List (Int × Int))
    (p : Int × Int) (hp : p ∈ pairs) (hb : inBound p) :
    p.1 ≤ (pairs.foldl loadStep st).1 ∧ p.2 ≤ (pairs.foldl loadStep st).1 := by
  induction pairs generalizing st with
  | nil => cases hp
  | cons q ps ih =>
    rw [List.foldl_cons]
    rcases List.mem_cons.1 hp with rfl | hp
    · have h1 := loadStep_inBound st p hb
      have h2 := loadFold_maxId_ge ps (loadStep st p)
      rw [h1] at h2
      have h3 : p.1 ≤ max st.1 (max p.1 p.2) :=
        le_trans (le_max_left _ _) (le_max_right _ _)
      have h4 : p.2 ≤ max st.1 (max p.1 p.2) :=
        le_trans (le_max_right _ _) (le_max_right _ _)
      exact ⟨le_trans h3 h2, le_trans h4 h2⟩
    · exact ih _ hp

theorem loadFold_maxId_attained (pairs : List (Int × Int)) (st : Int × List (Int × Int)) :
    (pairs.foldl loadStep st).1 = st.1 ∨
      ∃ p ∈ pairs, inBound p ∧
        ((pairs.foldl loadStep st).1 = p.1 ∨ (pairs.foldl loadStep st).1 = p.2) := by
  induction pairs generalizing st with
  | nil => exact Or.inl rfl
  | cons q ps ih =>
    rw [List.foldl_cons]
    rcases ih (loadStep st q) with h | ⟨p, hp, hb, h⟩
    · by_cases hq : inBound q
      · rw [h, loadStep_inBound st q hq]
        rcases max_choice st.1 (max q.1 q.2) with h1 | h1
        · exact Or.inl h1
        · rw [h1]
          rcases max_choice q.1 q.2 with h2 | h2
          · exact Or.inr ⟨q, List.mem_cons_self _ _, hq, Or.inl h2⟩
          · exact Or.inr ⟨q, List.mem_cons_self _ _, hq, Or.inr h2⟩
      · rw [h, loadStep_not_inBound st q hq]
        exact Or.inl rfl
    · exact Or.inr ⟨p, List.mem_cons_of_mem _ hp, hb, h⟩

theorem loadFold_skip (l1 l2 : List (Int × Int)) (p : Int × Int) (h : ¬ inBound p)
    (st : Int × List (Int × Int)) :
    (l1 ++ p :: l2).foldl loadStep st = (l1 ++ l2).foldl loadStep st := by
  rw [List.foldl_append, List.foldl_append, List.foldl_cons, loadStep_not_inBound _ p h]

/-- A pair with an entry outside `[1, 350]` leaves the constructed graph unchanged. -/
theorem loadFromFile_skip (l1 l2 : List (Int × Int)) (p : Int × Int) (h : ¬ inBound p) :
    loadFromFile (l1 ++ p :: l2) = loadFromFile (l1 ++ l2) := by
  unfold loadFromFile
  rw [loadFold_skip l1 l2 p h]

end Graph
namespace Graph

theorem linkStep_getD (st : List (List Int) × List Bool) (e : Int × Int) (i : Nat)
    (hi : i < st.1.length) :
    (linkStep st e).1.getD i [] =
      st.1.getD i [] ++ ((if e.1.toNat = i then [e.2] else []) ++
        (if e.2.toNat = i then [e.1] else [])) := by
  unfold linkStep
  simp only [getD_set, List.length_set]
  by_cases h1 : e.1.toNat = i
  · by_cases h2 : e.2.toNat = i
    · rw [if_pos ⟨h2, by omega⟩, if_pos ⟨by omega, by omega⟩, if_pos h1, if_pos h2, h1]
      simp
    · rw [if_neg (fun h => h2 h.1), if_pos ⟨h1, by omega⟩, if_pos h1, if_neg h2, h1]
      simp
  · by_cases h2 : e.2.toNat = i
    · rw [if_pos ⟨h2, by omega⟩, if_neg (fun h => h1 (h.1.trans h2)), if_neg h1, if_pos h2,
        h2]
      simp
    · rw [if_neg (fun h => h2 h.1), if_neg (fun h => h1 h.1), if_neg h1, if_neg h2]
      simp

theorem linkFold_getD (es : List (Int × Int)) (st : List (List Int) × List Bool) (i : Nat)
    (hi : i < st.1.length) :
    (es.foldl linkStep st).1.getD i [] = st.1.getD i [] ++ neighbours es i := by
  induction es generalizing st with
  | nil => simp [neighbours]
  | cons e es ih =>
    rw [List.foldl_cons, ih _ (by rw [(linkStep_length st e).1]; exact hi),
      linkStep_getD st e i hi]
    simp [neighbours]

/-- The adjacency list of index `i` in a constructed graph, in closed form. -/
theorem adj_eq_neighbours (pairs : List (Int × Int)) (i : Nat)
    (hi : i < ((loadFromFile pairs).maxId + 1).toNat) :
    (loadFromFile pairs).adj.getD i [] = neighbours (loadFromFile pairs).edges i := by
  have key : (loadFromFile pairs).adj =
      ((loadFromFile pairs).edges.foldl linkStep
        (List.replicate ((loadFromFile pairs).maxId + 1).toNat [],
         List.replicate ((loadFromFile pairs).maxId + 1).toNat false)).1 := rfl
  rw [key, linkFold_getD _ _ i (by simpa using hi)]
  simp only [List.getD_eq_getElem?_getD, List.getElem?_replicate]
  split <;> simp

theorem count_neighbours (es : List (Int × Int)) (hes : ∀ e ∈ es, 1 ≤ e.1 ∧ e.1 < e.2)
    (u v : Int) (hu : 1 ≤ u) :
    (neighbours es u.toNat).count v = es.count (u, v) + es.count (v, u) := by
  induction es with
  | nil => simp [neighbours]
  | cons e es ih =>
    have he := hes e (List.mem_cons_self _ _)
    have ih2 := ih (fun e2 h => hes e2 (List.mem_cons_of_mem _ h))
    unfold neighbours
    rw [List.count_append, List.count_append, ih2, List.count_cons, List.count_cons]
    have hA : (if e.1.toNat = u.toNat then [e.2] else []).count v =
        if (e == (u, v)) = true then 1 else 0 := by
      by_cases h1 : e.1.toNat = u.toNat
      · rw [if_pos h1]
        by_cases h2 : e.2 = v
        · have : e = (u, v) := Prod.ext (by simp only []; omega) h2
          simp [this]
        · have : ¬ e = (u, v) := fun h => h2 (by rw [h])
          simp [this, h2, List.count_cons]
      · rw [if_neg h1]
        have : ¬ e = (u, v) := fun h => h1 (by rw [h])
        simp [this]
    have hB : (if e.2.toNat = u.toNat then [e.1] else []).count v =
        if (e == (v, u)) = true then 1 else 0 := by
      by_cases h1 : e.2.toNat = u.toNat
      · rw [if_pos h1]
        by_cases h2 : e.1 = v
        · have : e = (v, u) := Prod.ext h2 (by simp only []; omega)
          simp [this]
        · have : ¬ e = (v, u) := fun h => h2 (by rw [h])
          simp [this, h2, List.count_cons]
      · rw [if_neg h1]
        have : ¬ e = (v, u) := fun h => h1 (by rw [h])
        simp [this]
    rw [hA, hB]
    omega

theorem count_eq_one_of_nodup (l : List (Int × Int)) (h : l.Nodup) (a : Int × Int)
    (ha : a ∈ l) : l.count a = 1 := by
  induction l with
  | nil => cases ha
  | cons b l ih =>
    rw [List.count_cons]
    have hb := List.nodup_cons.1 h
    by_cases hab : b = a
    · subst hab
      rw [List.count_eq_zero_of_not_mem hb.1]
      simp
    · rcases List.mem_cons.1 ha with h1 | h1
      · exact absurd h1.symm hab
      · rw [ih hb.2 h1]
        simp [hab]

theorem edges_nodup (pairs : List (Int × Int)) : (loadFromFile pairs).edges.Nodup := by
  refine (edges_sorted pairs).imp ?_
  intro a b h hab
  rw [hab] at h
  omega

/-- In a constructed graph the number of occurrences of `v` in `adj[u]` is the number
of stored edges equal to `(u, v)` or `(v, u)`. -/
theorem count_adj (pairs : List (Int × Int)) (u v : Int) (hu : 1 ≤ u)
    (hu2 : u ≤ (loadFromFile pairs).maxId) :
    ((loadFromFile pairs).adj.getD u.toNat []).count v =
      (loadFromFile pairs).edges.count (u, v) + (loadFromFile pairs).edges.count (v, u) := by
  rw [adj_eq_neighbours pairs u.toNat (by omega)]
  exact count_neighbours _ (fun e he => by
    have := edge_bounds pairs e he
    omega) u v hu

theorem norm_eq_min_max (u v : Int) : norm u v = (min u v, max u v) := by
  unfold norm
  by_cases h : u > v
  · rw [if_pos h, min_eq_right (le_of_lt h), max_eq_left (le_of_lt h)]
  · rw [if_neg h, min_eq_left (by omega), max_eq_right (by omega)]

end Graph
/-! ## The empty graph -/

namespace Solver

theorem cleanup_nil (S : Solver) : S.cleanup [] = [] := by
  unfold cleanup
  simp [unique, cleanupLoop]

theorem twoApprox_of_no_edges (S : Solver) (hE : S.G.edges = []) (T : Timer) (k : Nat) :
    S.twoApproxFromMatching T k = ([], k) := by
  unfold twoApproxFromMatching sortedEdges
  rw [hE]
  simp only [List.insertionSort, matchScan]
  rw [show unique ([] : List Int) = [] from rfl, cleanup_nil]

theorem greedy_of_no_adj (S : Solver) (hadj : ∀ i, S.G.adj.getD i [] = []) (T : Timer)
    (fuel k : Nat) : S.greedyMaxDegree (fuel + 1) T k = some ([], k) := by
  have h : S.hasEdgesLocal S.G.adj = false := by
    unfold hasEdgesLocal
    rw [List.any_eq_false]
    intro i _
    rw [hadj]
    simp
  unfold greedyMaxDegree greedyLoop
  rw [h]
  simp only [Bool.false_eq_true, if_false]
  rw [cleanup_nil]

theorem localImprove_nil (S : Solver) (T : Timer) (fuel k : Nat) :
    ∃ k2, S.localImprove (fuel + 2) [] T k = some ([], k2) := by
  unfold localImprove improveLoop
  simp only [if_true]
  by_cases hk : T.seconds k < S.limit95
  · rw [if_pos hk]
    simp only [List.length_nil, passScan]
    unfold improveLoop
    simp only [Bool.false_eq_true, if_false]
    exact ⟨k + 1, by rw [cleanup_nil]⟩
  · rw [if_neg hk]
    exact ⟨k + 1, by simp only []; rw [cleanup_nil]⟩

/-- With no stored edge and empty adjacency lists `solve` returns the empty cover,
whatever the clock does, as soon as the fuel allows two loop steps. -/
theorem solve_of_no_edges (S : Solver) (hE : S.G.edges = [])
    (hadj : ∀ i, S.G.adj.getD i [] = []) (T : Timer) (fuel : Nat) :
    S.solve (fuel + 2) T = some [] := by
  obtain ⟨k2, h2⟩ := S.localImprove_nil T fuel 0
  unfold solve candidates
  simp only []
  rw [S.twoApprox_of_no_edges hE T 0]
  simp only []
  rw [S.greedy_of_no_adj hadj T (fuel + 1) 0]
  simp only [keep, List.length_nil, lt_self_iff_false, if_false]
  rw [h2]

end Solver
/-! ## The swap search keeps the cover duplicate-free -/

namespace Solver

theorem rebuildFold_complete (c : List Int) (acc : List Bool) (i : Nat) (hi : i < acc.length)
    (h : acc.getD i false = true ∨ ∃ w ∈ c, w.toNat = i) :
    (c.foldl (fun inn x => inn.set x.toNat true) acc).getD i false = true := by
  induction c generalizing acc with
  | nil =>
    rcases h with h | ⟨w, hw, _⟩
    · exact h
    · cases hw
  | cons a c ih =>
    rw [List.foldl_cons]
    refine ih _ (by simpa using hi) ?_
    rcases h with h | ⟨w, hw, h⟩
    · left
      rw [getD_set]
      split
      · rfl
      · exact h
    · rcases List.mem_cons.1 hw with rfl | hw
      · left
        rw [getD_set, if_pos ⟨h, by omega⟩]
      · exact Or.inr ⟨w, hw, h⟩

/-- After `rebuild` every cover vertex of `[0, maxId]` is flagged. -/
theorem rebuild_complete (S : Solver) (c : List Int) (w : Int) (hw : w ∈ c)
    (h0 : 0 ≤ w) (h1 : w ≤ S.G.maxId) : (S.rebuild c).getD w.toNat false = true := by
  unfold rebuild
  exact rebuildFold_complete c _ w.toNat (by simp; omega) (Or.inr ⟨w, hw, rfl⟩)

/-- The neighbour scan of `localImprove` when the lookup flags every cover vertex: an
accepted replacement is not in the cover, and without one every cover vertex is still
flagged. -/
theorem swapScan_mirror (S : Solver) (T : Timer) (v : Int) (cover : List Int)
    (us : List Int) (inn : List Bool) (k : Nat)
    (hM : ∀ w ∈ cover, inn.getD w.toNat false = true) :
    (∀ u, (S.swapScan T v us inn k).1 = some u → u ∉ cover) ∧
    ((S.swapScan T v us inn k).1 = none →
      ∀ w ∈ cover, (S.swapScan T v us inn k).2.1.getD w.toNat false = true) := by
  induction us generalizing inn k with
  | nil =>
    unfold swapScan
    exact ⟨fun u h => (by cases h), fun _ => hM⟩
  | cons u us ih =>
    unfold swapScan
    by_cases hin : inn.getD u.toNat false = true
    · rw [if_pos hin]
      exact ih inn k hM
    · rw [if_neg hin]
      simp only []
      have hu : u ∉ cover := fun h => hin (hM u h)
      by_cases hok : S.allEdgesIn ((inn.set v.toNat false).set u.toNat true) = true
      · rw [if_pos hok]
        refine ⟨fun u2 h => ?_, fun h => (by cases h)⟩
        have : u = u2 := by simpa using h
        rw [← this]
        exact hu
      · rw [if_neg hok]
        have hM2 : ∀ w ∈ cover,
            ((((inn.set v.toNat false).set u.toNat true).set u.toNat false).set
              v.toNat true).getD w.toNat false = true := by
          intro w hw
          have hw1 := hM w hw
          have hne : u.toNat ≠ w.toNat := fun h => hin (h ▸ hw1)
          rw [getD_set]
          split
          · rfl
          · rename_i c1
            rw [getD_set, if_neg (fun h => hne h.1), getD_set, if_neg (fun h => hne h.1),
              getD_set]
            split
            · rename_i c2
              exact absurd ⟨c2.1, by simpa using c2.2⟩ c1
            · exact hw1
        by_cases hk : T.seconds k > S.limit95
        · rw [if_pos hk]
          exact ⟨fun u2 h => (by cases h), fun _ => hM2⟩
        · rw [if_neg hk]
          exact ih _ (k + 1) hM2

theorem swapScan_some_mem (S : Solver) (T : Timer) (v : Int) (us : List Int)
    (inn : List Bool) (k : Nat) (u : Int) (h : (S.swapScan T v us inn k).1 = some u) :
    u ∈ us := by
  induction us generalizing inn k with
  | nil => unfold swapScan at h; cases h
  | cons u2 us ih =>
    unfold swapScan at h
    split at h
    · exact List.mem_cons_of_mem _ (ih _ _ h)
    · simp only [] at h
      split at h
      · have : u2 = u := by simpa using h
        rw [this]
        exact List.mem_cons_self _ _
      · split at h
        · cases h
        · exact List.mem_cons_of_mem _ (ih _ _ h)

/-- One pass of `localImprove` keeps a duplicate-free cover duplicate-free. -/
theorem passScan_nodup (S : Solver) (hG : S.G.WF) (T : Timer) (n : Nat) (cover : List Int)
    (inn : List Bool) (k : Nat) (hn : n ≤ cover.length)
    (hM : ∀ w ∈ cover, inn.getD w.toNat false = true)
    (hR : ∀ x ∈ cover, ∃ e ∈ S.G.edges, e.1 = x ∨ e.2 = x)
    (hnd : cover.Nodup) :
    (S.passScan T n cover inn k).1.Nodup ∧
    (∀ w ∈ (S.passScan T n cover inn k).1,
      (S.passScan T n cover inn k).2.1.getD w.toNat false = true) := by
  induction n generalizing inn k with
  | zero =>
    unfold passScan
    exact ⟨hnd, hM⟩
  | succ n ih =>
    have hspec := S.swapScan_mirror T (cover.getD (cover.length - (n + 1)) 0) cover
      (S.G.adj.getD (cover.getD (cover.length - (n + 1)) 0).toNat []) inn k hM
    have hidx : cover.length - (n + 1) < cover.length := by omega
    have hv : cover.getD (cover.length - (n + 1)) 0 ∈ cover := getD_mem cover _ hidx
    have hadj : ∀ u ∈ S.G.adj.getD (cover.getD (cover.length - (n + 1)) 0).toNat [],
        ∃ e ∈ S.G.edges, e.1 = u ∨ e.2 = u := by
      intro u hu
      obtain ⟨eu, heu, heu2⟩ := (hG.adjEntries _ u).1 hu
      rcases heu2 with ⟨_, h⟩ | ⟨_, h⟩
      · exact ⟨eu, heu, Or.inr h.symm⟩
      · exact ⟨eu, heu, Or.inl h.symm⟩
    have hsome := S.swapScan_some_mem T (cover.getD (cover.length - (n + 1)) 0)
      (S.G.adj.getD (cover.getD (cover.length - (n + 1)) 0).toNat []) inn k
    unfold passScan
    simp only []
    generalize S.swapScan T (cover.getD (cover.length - (n + 1)) 0)
      (S.G.adj.getD (cover.getD (cover.length - (n + 1)) 0).toNat []) inn k = sw
      at hspec hsome
    obtain ⟨ou, inn1, k1⟩ := sw
    cases ou with
    | some u =>
      simp only []
      have hu := hspec.1 u rfl
      refine ⟨hnd.set hu, fun w hw => ?_⟩
      have hwE : ∃ e ∈ S.G.edges, e.1 = w ∨ e.2 = w := by
        rcases List.mem_or_eq_of_mem_set hw with h | h
        · exact hR w h
        · rw [h]
          exact hadj u (hsome u rfl)
      obtain ⟨e, he, h⟩ := hwE
      have hb := hG.endpointsInRange e he
      exact S.rebuild_complete _ w hw (by rcases h with h | h <;> rw [← h] <;> omega)
        (by rcases h with h | h <;> rw [← h] <;> omega)
    | none =>
      simp only []
      have hM1 := hspec.2 rfl
      simp only [] at hM1
      split
      · exact ⟨hnd, hM1⟩
      · exact ih inn1 (k1 + 1) (by omega) hM1

/-- The `while` loop of `localImprove` keeps a duplicate-free cover duplicate-free. -/
theorem improveLoop_nodup (S : Solver) (hG : S.G.WF) (T : Timer) (fuel : Nat)
    (cover : List Int) (inn : List Bool) (improved : Bool) (k : Nat) (r : List Int × Nat)
    (hlen : inn.length = (S.G.maxId + 1).toNat)
    (hJ : ∀ i, inn.getD i false = true → ∃ w ∈ cover, w.toNat = i)
    (hM : ∀ w ∈ cover, inn.getD w.toNat false = true)
    (hR : ∀ x ∈ cover, ∃ e ∈ S.G.edges, e.1 = x ∨ e.2 = x)
    (hnd : cover.Nodup)
    (hr : S.improveLoop T fuel cover inn improved k = some r) : r.1.Nodup := by
  induction fuel generalizing cover inn improved k with
  | zero => simp [improveLoop] at hr
  | succ fuel ih =>
    unfold improveLoop at hr
    split at hr
    · split at hr
      · simp only [] at hr
        have hp := S.passScan_spec hG T cover.length cover inn (k + 1) (le_refl _) hlen hJ hR
        have hq := S.passScan_nodup hG T cover.length cover inn (k + 1) (le_refl _) hM hR hnd
        exact ih _ _ _ _ hp.2.2.1 hp.2.2.2.1 hq.2 hp.2.1 hq.1 hr
      · cases hr
        exact hnd
    · cases hr
      exact hnd

theorem keep_length (best gr : List Int) :
    (keep best gr).length = min best.length gr.length := by
  unfold keep
  split
  · rename_i h
    rw [min_eq_right (le_of_lt h)]
  · rename_i h
    rw [min_eq_left (by omega)]

/-- The cover handed to the final `cleanup` of `localImprove` has the length of the
starting cover and is duplicate-free when the starting cover is. -/
theorem localImprove_swaps (S : Solver) (hG : S.G.WF) (T : Timer) (fuel : Nat)
    (cover : List Int) (k : Nat) (r : List Int × Nat)
    (hR : ∀ x ∈ cover, ∃ e ∈ S.G.edges, e.1 = x ∨ e.2 = x)
    (hnd : cover.Nodup)
    (hr : S.localImprove fuel cover T k = some r) :
    ∃ q, S.improveLoop T fuel cover (S.rebuild cover) true k = some q ∧
      q.1.length = cover.length ∧ q.1.Nodup ∧ r.1 = S.cleanup q.1 := by
  unfold localImprove at hr
  split at hr
  · cases hr
  · rename_i q hq
    cases hr
    have hM : ∀ w ∈ cover, (S.rebuild cover).getD w.toNat false = true := by
      intro w hw
      obtain ⟨e, he, h⟩ := hR w hw
      have hb := hG.endpointsInRange e he
      exact S.rebuild_complete cover w hw (by rcases h with h | h <;> rw [← h] <;> omega)
        (by rcases h with h | h <;> rw [← h] <;> omega)
    exact ⟨q, hq,
      (S.improveLoop_spec hG T fuel cover _ true k q (S.rebuild_spec cover).1
        (S.rebuild_spec cover).2 hR hq).1,
      S.improveLoop_nodup hG T fuel cover _ true k q (S.rebuild_spec cover).1
        (S.rebuild_spec cover).2 hM hR hnd hq, rfl⟩

theorem twoApprox_nodup (S : Solver) (T : Timer) (k : Nat) :
    (S.twoApproxFromMatching T k).1.Nodup := by
  unfold twoApproxFromMatching
  exact S.cleanup_nodup _

theorem greedy_nodup (S : Solver) (fuel : Nat) (T : Timer) (k : Nat) (g : List Int × Nat)
    (hg : S.greedyMaxDegree fuel T k = some g) : g.1.Nodup := by
  unfold greedyMaxDegree at hg
  split at hg
  · cases hg
  · cases hg
    exact S.cleanup_nodup _

end Solver
/-! ## The greedy selection rule -/

namespace Solver

theorem pickBest_eq (S : Solver) (adj : List (List Int)) :
    S.pickBest adj = pickUpTo adj S.G.maxId.toNat := rfl

theorem pickUpTo_succ (adj : List (List Int)) (n : Nat) :
    pickUpTo adj (n + 1) =
      if ((adj.getD (n + 1) []).length : Int) > (pickUpTo adj n).2
      then (((n + 1 : Nat) : Int), ((adj.getD (n + 1) []).length : Int))
      else pickUpTo adj n := by
  unfold pickUpTo
  rw [List.range_succ, List.foldl_append]
  simp only [List.foldl_cons, List.foldl_nil]

theorem pickUpTo_zero (adj : List (List Int)) : pickUpTo adj 0 = (-1, -1) := rfl

/-- The state of the selection loop after the vertices `1, ..., n`: the recorded vertex
has the recorded degree, no vertex seen has a larger degree, and every vertex seen
before the recorded one has a smaller degree. -/
theorem pickUpTo_spec (adj : List (List Int)) (n : Nat) (hn : 0 < n) :
    1 ≤ (pickUpTo adj n).1 ∧ (pickUpTo adj n).1 ≤ n ∧
    (pickUpTo adj n).2 = ((adj.getD (pickUpTo adj n).1.toNat []).length : Int) ∧
    (∀ i, i < n → ((adj.getD (i + 1) []).length : Int) ≤ (pickUpTo adj n).2) ∧
    (∀ i, i < n → ((i + 1 : Nat) : Int) < (pickUpTo adj n).1 →
      ((adj.getD (i + 1) []).length : Int) < (pickUpTo adj n).2) := by
  induction n with
  | zero => omega
  | succ n ih =>
    rw [pickUpTo_succ]
    by_cases h0 : n = 0
    · subst h0
      rw [pickUpTo_zero]
      have hd : ((adj.getD (0 + 1) []).length : Int) > (-1 : Int) := by
        have : (0 : Int) ≤ ((adj.getD (0 + 1) []).length : Int) := Int.natCast_nonneg _
        omega
      rw [if_pos hd]
      refine ⟨by simp, by simp, by simp, ?_, ?_⟩
      · intro i hi
        have : i = 0 := by omega
        subst this
        exact le_refl _
      · intro i hi h
        simp only [] at h
        omega
    · obtain ⟨h1, h2, h3, h4, h5⟩ := ih (by omega)
      by_cases hd : ((adj.getD (n + 1) []).length : Int) > (pickUpTo adj n).2
      · rw [if_pos hd]
        refine ⟨?_, ?_, ?_, ?_, ?_⟩
        · simp only []; omega
        · simp only []; omega
        · simp only []
          have : (((n + 1 : Nat) : Int)).toNat = n + 1 := by omega
          rw [this]
        · intro i hi
          simp only []
          by_cases hin : i < n
          · have := h4 i hin; omega
          · have : i = n := by omega
            subst this
            exact le_refl _
        · intro i hi h
          simp only [] at h ⊢
          have hin : i < n := by omega
          have := h4 i hin
          omega
      · rw [if_neg hd]
        refine ⟨h1, by omega, h3, ?_, ?_⟩
        · intro i hi
          by_cases hin : i < n
          · exact h4 i hin
          · have : i = n := by omega
            subst this
            omega
        · intro i hi h
          have hin : i < n := by omega
          exact h5 i hin h

/-- The greedy selection rule: when some residual list is non-empty, the selected
vertex lies in `[1, maxId]`, has the largest residual degree, is the first vertex of
that degree, and has residual degree at least one. -/
theorem pickBest_rule (S : Solver) (adj : List (List Int))
    (h : S.hasEdgesLocal adj = true) :
    1 ≤ (S.pickBest adj).1 ∧ (S.pickBest adj).1 ≤ S.G.maxId ∧
    (∀ v : Int, 1 ≤ v → v ≤ S.G.maxId →
      (adj.getD v.toNat []).length ≤ (adj.getD (S.pickBest adj).1.toNat []).length) ∧
    (∀ v : Int, 1 ≤ v → v < (S.pickBest adj).1 →
      (adj.getD v.toNat []).length < (adj.getD (S.pickBest adj).1.toNat []).length) ∧
    1 ≤ (adj.getD (S.pickBest adj).1.toNat []).length := by
  obtain ⟨i0, hi0, hne⟩ := S.hasEdgesLocal_true adj h
  rw [pickBest_eq]
  obtain ⟨h1, h2, h3, h4, h5⟩ := pickUpTo_spec adj S.G.maxId.toNat (by omega)
  refine ⟨h1, by omega, fun v hv1 hv2 => ?_, fun v hv1 hv2 => ?_, ?_⟩
  · have := h4 (v.toNat - 1) (by omega)
    rw [show v.toNat - 1 + 1 = v.toNat by omega, h3] at this
    exact_mod_cast this
  · have := h5 (v.toNat - 1) (by omega) (by omega)
    rw [show v.toNat - 1 + 1 = v.toNat by omega, h3] at this
    exact_mod_cast this
  · have := h4 i0 hi0
    rw [h3] at this
    have hpos : 0 < (adj.getD (i0 + 1) []).length := List.length_pos.2 hne
    have : (adj.getD (i0 + 1) []).length ≤
        (adj.getD (pickUpTo adj S.G.maxId.toNat).1.toNat []).length := by exact_mod_cast this
    omega

theorem removeV_self (adj : List (List Int)) (x : Int) :
    (removeV adj x).getD x.toNat [] = [] := by
  unfold removeV
  simp only []
  rw [getD_set]
  split
  · rfl
  · rename_i h
    have hlen := removeFold_length x (adj.getD x.toNat []) adj
    have : ¬ x.toNat < (List.foldl
        (fun a y => a.set y.toNat ((a.getD y.toNat []).filter (fun z => z ≠ x))) adj
        (adj.getD x.toNat [])).length := fun h2 => h ⟨rfl, h2⟩
    rw [List.getD_eq_getElem?_getD, List.getElem?_eq_none (by omega)]
    rfl

/-- The greedy loop never adds a vertex twice: every collected vertex has an empty
residual list, and a selected vertex has a non-empty one. -/
theorem greedyLoop_nodup (S : Solver) (T : Timer) (fuel : Nat)
    (adj : List (List Int)) (cover : List Int) (k : Nat) (r : List Int × Nat)
    (hnd : cover.Nodup) (hemp : ∀ x ∈ cover, adj.getD x.toNat [] = [])
    (hr : S.greedyLoop T fuel adj cover k = some r) : r.1.Nodup := by
  induction fuel generalizing adj cover k with
  | zero => simp [greedyLoop] at hr
  | succ fuel ih =>
    unfold greedyLoop at hr
    by_cases hE : S.hasEdgesLocal adj = true
    · rw [if_pos hE] at hr
      by_cases hk : T.seconds k > S.limit60
      · rw [if_pos hk] at hr
        cases hr
        exact hnd
      · rw [if_neg hk] at hr
        simp only [] at hr
        have hp := S.pickBest_spec adj hE
        rw [if_neg (by omega)] at hr
        refine ih (removeV adj (S.pickBest adj).1) (cover ++ [(S.pickBest adj).1]) (k + 1)
          ?_ ?_ hr
        · rw [List.nodup_append]
          refine ⟨hnd, List.nodup_singleton _, ?_⟩
          intro a ha hb
          have : a = (S.pickBest adj).1 := List.mem_singleton.1 hb
          rw [this] at ha
          exact hp.2.2 (hemp _ ha)
        · intro x hx
          rcases List.mem_append.1 hx with h | h
          · cases hl : (removeV adj (S.pickBest adj).1).getD x.toNat [] with
            | nil => rfl
            | cons z zs =>
              have hz : z ∈ adj.getD x.toNat [] :=
                removeV_sub adj _ _ z (by rw [hl]; exact List.mem_cons_self _ _)
              rw [hemp x h] at hz
              cases hz
          · rw [List.mem_singleton.1 h]
            exact removeV_self adj _
    · rw [if_neg hE] at hr
      cases hr
      exact hnd

end Solver
/-! ## Termination -/

theorem countP_lt_of_imp (l : List Nat) (p q : Nat → Bool)
    (himp : ∀ x ∈ l, p x = true → q x = true)
    (hex : ∃ y ∈ l, q y = true ∧ p y = false) : l.countP p < l.countP q := by
  induction l with
  | nil =>
    obtain ⟨y, hy, _⟩ := hex
    cases hy
  | cons a l ih =>
    have hmono : l.countP p ≤ l.countP q :=
      List.countP_mono_left (fun x hx => himp x (List.mem_cons_of_mem _ hx))
    rw [List.countP_cons, List.countP_cons]
    obtain ⟨y, hy, hq, hp⟩ := hex
    rcases List.mem_cons.1 hy with rfl | hy
    · rw [hq, hp]
      simp only [if_true, Bool.false_eq_true, if_false]
      omega
    · have := ih (fun x hx => himp x (List.mem_cons_of_mem _ hx)) ⟨y, hy, hq, hp⟩
      have ha := himp a (List.mem_cons_self _ _)
      cases hpa : p a
      · simp only [Bool.false_eq_true, if_false]
        omega
      · rw [ha hpa]
        simp only [if_true]
        omega

namespace Solver

/-- Removing the selected vertex lowers the number of vertices of `[1, maxId]` that have
a non-empty residual list. -/
theorem removeV_live_lt (S : Solver) (adj : List (List Int))
    (h : S.hasEdgesLocal adj = true) :
    (List.range S.G.maxId.toNat).countP
        (fun i => !((removeV adj (S.pickBest adj).1).getD (i + 1) []).isEmpty) <
      (List.range S.G.maxId.toNat).countP (fun i => !(adj.getD (i + 1) []).isEmpty) := by
  have hp := S.pickBest_spec adj h
  refine countP_lt_of_imp _ _ _ (fun i _ hi => ?_) ⟨(S.pickBest adj).1.toNat - 1, ?_, ?_, ?_⟩
  · cases hl : (removeV adj (S.pickBest adj).1).getD (i + 1) [] with
    | nil => rw [hl] at hi; simp at hi
    | cons z zs =>
      have hz : z ∈ adj.getD (i + 1) [] :=
        removeV_sub adj _ _ z (by rw [hl]; exact List.mem_cons_self _ _)
      cases hl2 : adj.getD (i + 1) [] with
      | nil => rw [hl2] at hz; cases hz
      | cons _ _ => rfl
  · exact List.mem_range.2 (by omega)
  · rw [show (S.pickBest adj).1.toNat - 1 + 1 = (S.pickBest adj).1.toNat by omega]
    cases hl2 : adj.getD (S.pickBest adj).1.toNat [] with
    | nil => exact absurd hl2 hp.2.2
    | cons _ _ => rfl
  · rw [show (S.pickBest adj).1.toNat - 1 + 1 = (S.pickBest adj).1.toNat by omega,
      removeV_self]
    rfl

/-- The greedy loop returns within `n + 1` iterations when at most `n` vertices have a
non-empty residual list, whatever the clock does. -/
theorem greedyLoop_terminates (S : Solver) (T : Timer) (n : Nat) (adj : List (List Int))
    (cover : List Int) (k : Nat)
    (hn : (List.range S.G.maxId.toNat).countP (fun i => !(adj.getD (i + 1) []).isEmpty) ≤ n) :
    ∃ r, S.greedyLoop T (n + 1) adj cover k = some r := by
  induction n generalizing adj cover k with
  | zero =>
    unfold greedyLoop
    by_cases hE : S.hasEdgesLocal adj = true
    · have := S.removeV_live_lt adj hE
      omega
    · rw [if_neg hE]
      exact ⟨_, rfl⟩
  | succ n ih =>
    unfold greedyLoop
    by_cases hE : S.hasEdgesLocal adj = true
    · rw [if_pos hE]
      split
      · exact ⟨_, rfl⟩
      · simp only []
        split
        · exact ⟨_, rfl⟩
        · have := S.removeV_live_lt adj hE
          exact ih _ _ _ (by omega)
    · rw [if_neg hE]
      exact ⟨_, rfl⟩

theorem greedy_terminates (S : Solver) (T : Timer) (extra k : Nat) :
    ∃ g, S.greedyMaxDegree (S.G.maxId.toNat + 1 + extra) T k = some g := by
  have hle : (List.range S.G.maxId.toNat).countP
      (fun i => !(S.G.adj.getD (i + 1) []).isEmpty) ≤ S.G.maxId.toNat := by
    have := List.countP_le_length (fun i => !(S.G.adj.getD (i + 1) []).isEmpty)
      (l := List.range S.G.maxId.toNat)
    simpa using this
  obtain ⟨r, hr⟩ := S.greedyLoop_terminates T S.G.maxId.toNat S.G.adj [] k hle
  unfold greedyMaxDegree
  rw [S.greedyLoop_fuel_mono T _ extra _ _ _ r hr]
  exact ⟨_, rfl⟩

/-- The matching scan makes at most one reading per edge. -/
theorem matchScan_count_le (S : Solver) (T : Timer) (E : List (Int × Int))
    (cover : List Int) (matched : List Bool) (k : Nat) :
    (S.matchScan T E cover matched k).2 ≤ k + E.length := by
  induction E generalizing cover matched k with
  | nil => exact le_refl _
  | cons e E ih =>
    unfold matchScan
    split
    · simp only [List.length_cons]; omega
    · simp only []
      split
      · have := ih (cover ++ [e.1, e.2]) ((matched.set e.1.toNat true).set e.2.toNat true)
          (k + 1)
        simp only [List.length_cons]; omega
      · have := ih cover matched (k + 1)
        simp only [List.length_cons]; omega

theorem swapScan_count_ge (S : Solver) (T : Timer) (v : Int) (us : List Int)
    (inn : List Bool) (k : Nat) : k ≤ (S.swapScan T v us inn k).2.2 := by
  induction us generalizing inn k with
  | nil => exact le_refl _
  | cons u us ih =>
    unfold swapScan
    split
    · exact ih _ _
    · simp only []
      split
      · exact le_refl _
      · split
        · exact Nat.le_succ k
        · exact le_trans (Nat.le_succ k) (ih _ _)

theorem passScan_count_ge (S : Solver) (T : Timer) (n : Nat) (cover : List Int)
    (inn : List Bool) (k : Nat) : k ≤ (S.passScan T n cover inn k).2.2.2 := by
  induction n generalizing inn k with
  | zero => exact le_refl _
  | succ n ih =>
    have hs := S.swapScan_count_ge T (cover.getD (cover.length - (n + 1)) 0)
      (S.G.adj.getD (cover.getD (cover.length - (n + 1)) 0).toNat []) inn k
    unfold passScan
    simp only []
    generalize S.swapScan T (cover.getD (cover.length - (n + 1)) 0)
      (S.G.adj.getD (cover.getD (cover.length - (n + 1)) 0).toNat []) inn k = sw at hs
    obtain ⟨ou, inn1, k1⟩ := sw
    simp only [] at hs
    cases ou with
    | some u => exact hs
    | none =>
      simp only []
      split
      · exact le_trans hs (Nat.le_succ k1)
      · exact le_trans hs (le_trans (Nat.le_succ k1) (ih _ _))

/-- The swap loop exits once the readings stay at or above the 95% threshold: every
pass uses up at least one reading. -/
theorem improveLoop_terminates (S : Solver) (T : Timer) (N : Nat)
    (hN : ∀ j, N ≤ j → S.limit95 ≤ T.seconds j)
    (fuel : Nat) (cover : List Int) (inn : List Bool) (improved : Bool) (k : Nat)
    (h1 : 1 ≤ fuel) (h2 : N + 1 ≤ k + fuel) :
    ∃ r, S.improveLoop T fuel cover inn improved k = some r := by
  induction fuel generalizing cover inn improved k with
  | zero => omega
  | succ fuel ih =>
    unfold improveLoop
    split
    · split
      · rename_i hk
        have hkN : k < N := by
          by_contra hcon
          exact absurd hk (not_lt.2 (hN k (by omega)))
        simp only []
        have hc := S.passScan_count_ge T cover.length cover inn (k + 1)
        exact ih _ _ _ _ (by omega) (by omega)
      · exact ⟨_, rfl⟩
    · exact ⟨_, rfl⟩

/-- At the head of the swap loop a reading at or above the 95% threshold ends the loop
with the cover unchanged. -/
theorem improveLoop_deadline (S : Solver) (T : Timer) (fuel : Nat) (cover : List Int)
    (inn : List Bool) (k : Nat) (hk : S.limit95 ≤ T.seconds k) :
    S.improveLoop T (fuel + 1) cover inn true k = some (cover, k + 1) := by
  unfold improveLoop
  rw [if_pos rfl, if_neg (not_lt.2 hk)]

/-- A pass of the swap loop that accepts no swap is the last one. -/
theorem improveLoop_exhausted (S : Solver) (T : Timer) (fuel : Nat) (cover : List Int)
    (inn : List Bool) (k : Nat) (hk : T.seconds k < S.limit95)
    (hp : (S.passScan T cover.length cover inn (k + 1)).2.2.1 = false) :
    S.improveLoop T (fuel + 2) cover inn true k =
      some ((S.passScan T cover.length cover inn (k + 1)).1,
        (S.passScan T cover.length cover inn (k + 1)).2.2.2) := by
  unfold improveLoop
  rw [if_pos rfl, if_pos hk]
  simp only []
  unfold improveLoop
  rw [hp]
  simp

/-- The orchestrator returns for every clock whose readings stay at or above the 95%
threshold from the `N`-th on. -/
theorem solve_terminates (S : Solver) (T : Timer) (N : Nat)
    (hN : ∀ j, N ≤ j → S.limit95 ≤ T.seconds j) :
    ∃ r, S.solve (S.G.maxId.toNat + 1 + (N + 1)) T = some r := by
  obtain ⟨g, hg⟩ := S.greedy_terminates T (N + 1) (S.twoApproxFromMatching T 0).2
  unfold solve candidates
  simp only []
  rw [hg]
  simp only []
  unfold localImprove
  obtain ⟨q, hq⟩ := S.improveLoop_terminates T N hN (S.G.maxId.toNat + 1 + (N + 1))
    (keep (S.twoApproxFromMatching T 0).1 g.1)
    (S.rebuild (keep (S.twoApproxFromMatching T 0).1 g.1)) true g.2 (by omega) (by omega)
  rw [hq]
  exact ⟨_, rfl⟩

end Solver
/-! ## The swap loop without a deadline -/

namespace Solver

theorem swap_five_seven (fuel k : Nat) :
    (Solver.mk (Graph.loadFromFile [(5, 7)]) 2000 1200 1900).improveLoop ⟨fun _ => 0⟩ (fuel + 1) [5]
        ((Solver.mk (Graph.loadFromFile [(5, 7)]) 2000 1200 1900).rebuild [5]) true k =
      (Solver.mk (Graph.loadFromFile [(5, 7)]) 2000 1200 1900).improveLoop ⟨fun _ => 0⟩ fuel [7]
        ((Solver.mk (Graph.loadFromFile [(5, 7)]) 2000 1200 1900).rebuild [7]) true (k + 1) := by
  rfl

theorem swap_seven_five (fuel k : Nat) :
    (Solver.mk (Graph.loadFromFile [(5, 7)]) 2000 1200 1900).improveLoop ⟨fun _ => 0⟩ (fuel + 1) [7]
        ((Solver.mk (Graph.loadFromFile [(5, 7)]) 2000 1200 1900).rebuild [7]) true k =
      (Solver.mk (Graph.loadFromFile [(5, 7)]) 2000 1200 1900).improveLoop ⟨fun _ => 0⟩ fuel [5]
        ((Solver.mk (Graph.loadFromFile [(5, 7)]) 2000 1200 1900).rebuild [5]) true (k + 1) := by
  rfl

/-- On the single edge `(5,7)` with a clock that stays at `0`, the swap loop started on
`[5]` or on `[7]` exchanges the two vertices for ever: no amount of fuel lets it exit. -/
theorem improveLoop_five_seven_none (fuel : Nat) :
    ∀ k, (Solver.mk (Graph.loadFromFile [(5, 7)]) 2000 1200 1900).improveLoop ⟨fun _ => 0⟩ fuel [5]
        ((Solver.mk (Graph.loadFromFile [(5, 7)]) 2000 1200 1900).rebuild [5]) true k = none ∧
      (Solver.mk (Graph.loadFromFile [(5, 7)]) 2000 1200 1900).improveLoop ⟨fun _ => 0⟩ fuel [7]
        ((Solver.mk (Graph.loadFromFile [(5, 7)]) 2000 1200 1900).rebuild [7]) true k = none := by
  induction fuel with
  | zero => exact fun k => ⟨rfl, rfl⟩
  | succ fuel ih =>
    intro k
    rw [swap_five_seven, swap_seven_five]
    exact ⟨(ih (k + 1)).2, (ih (k + 1)).1⟩

theorem greedy_fuel_unique (S : Solver) (T : Timer) (f1 f2 k : Nat) (g1 g2 : List Int × Nat)
    (h1 : S.greedyMaxDegree f1 T k = some g1) (h2 : S.greedyMaxDegree f2 T k = some g2) :
    g1 = g2 := by
  unfold greedyMaxDegree at h1 h2
  cases hl1 : S.greedyLoop T f1 S.G.adj [] k with
  | none => rw [hl1] at h1; cases h1
  | some r1 =>
    cases hl2 : S.greedyLoop T f2 S.G.adj [] k with
    | none => rw [hl2] at h2; cases h2
    | some r2 =>
      rw [hl1] at h1
      rw [hl2] at h2
      have a := S.greedyLoop_fuel_mono T f1 f2 _ _ _ r1 hl1
      have b := S.greedyLoop_fuel_mono T f2 f1 _ _ _ r2 hl2
      rw [Nat.add_comm f2 f1, a] at b
      cases b
      cases h1
      cases h2
      rfl

/-- On the single edge `(5,7)` with a clock that stays at `0`, `solve` does not return,
whatever the fuel. -/
theorem solve_five_seven_none (fuel : Nat) :
    (Solver.mk (Graph.loadFromFile [(5, 7)]) 2000 1200 1900).solve fuel ⟨fun _ => 0⟩ = none := by
  cases hs : (Solver.mk (Graph.loadFromFile [(5, 7)]) 2000 1200 1900).solve fuel ⟨fun _ => 0⟩ with
  | none => rfl
  | some r =>
    exfalso
    obtain ⟨c, rl, hc, hrl, _⟩ := Solver.solve_eq_some _ fuel _ r hs
    obtain ⟨h1, g, hg, h2, h3⟩ := Solver.candidates_eq_some _ fuel _ c hc
    have hm : (Solver.mk (Graph.loadFromFile [(5, 7)]) 2000 1200 1900).twoApproxFromMatching
        ⟨fun _ => 0⟩ 0 = ([5], 1) := by decide
    rw [hm] at h1 hg
    have hg2 : (Solver.mk (Graph.loadFromFile [(5, 7)]) 2000 1200 1900).greedyMaxDegree 2
        ⟨fun _ => 0⟩ 1 = some ([5], 2) := by decide
    have hgg := Solver.greedy_fuel_unique _ _ fuel 2 1 g ([5], 2) hg hg2
    rw [hgg] at h2 h3
    simp only [] at h1 h2 h3
    rw [h1, h2, h3] at hrl
    have hk : keep ([5] : List Int) [5] = [5] := by decide
    rw [hk] at hrl
    unfold localImprove at hrl
    rw [(improveLoop_five_seven_none fuel 2).1] at hrl
    cases hrl

end Solver
/-! ### The deadlines in `double` arithmetic

The program compares a reading with the rounded products `timeBudgetSec*0.6` and
`timeBudgetSec*0.95`. For readings that are `double` values, being at most 60% (at least
95%) of the budget in exact arithmetic implies the outcome of the program's own test. -/

theorem isDouble_zero : isDouble 0 := ⟨0, 0, by norm_num, by norm_num, by norm_num⟩

/-- Two numbers with a 53-bit significand are at least one unit in the last place
apart. -/
theorem int_gap (m m1 : Int) (n n1 : Nat) (hm : |m| < 2 ^ 53) (hm1 : |m1| < 2 ^ 53)
    (hlt : m1 * 2 ^ n1 < m * 2 ^ n) (hpos : 0 < m * 2 ^ n) :
    m * 2 ^ n ≤ (m * 2 ^ n - m1 * 2 ^ n1) * 2 ^ 53 := by
  have hmb := abs_lt.1 hm
  have hm1b := abs_lt.1 hm1
  rcases le_total n n1 with h | h
  · obtain ⟨d, rfl⟩ := Nat.exists_eq_add_of_le h
    have hp : (0 : Int) < 2 ^ n := by positivity
    have e1 : m1 * 2 ^ (n + d) = (m1 * 2 ^ d) * 2 ^ n := by ring
    rw [e1] at hlt ⊢
    have h1 : m1 * 2 ^ d < m := lt_of_mul_lt_mul_right hlt hp.le
    have h2 : (1 : Int) ≤ m - m1 * 2 ^ d := by omega
    have e2 : (m * 2 ^ n - m1 * 2 ^ d * 2 ^ n) * 2 ^ 53
        = (m - m1 * 2 ^ d) * 2 ^ 53 * 2 ^ n := by ring
    rw [e2]
    apply mul_le_mul_of_nonneg_right _ hp.le
    nlinarith
  · obtain ⟨d, rfl⟩ := Nat.exists_eq_add_of_le h
    have hp : (0 : Int) < 2 ^ n1 := by positivity
    have e1 : m * 2 ^ (n1 + d) = (m * 2 ^ d) * 2 ^ n1 := by ring
    rw [e1] at hlt hpos ⊢
    have h1 : m1 < m * 2 ^ d := lt_of_mul_lt_mul_right hlt hp.le
    have e2 : (m * 2 ^ d * 2 ^ n1 - m1 * 2 ^ n1) * 2 ^ 53
        = (m * 2 ^ d - m1) * 2 ^ 53 * 2 ^ n1 := by ring
    rw [e2]
    apply mul_le_mul_of_nonneg_right _ hp.le
    generalize m * 2 ^ d = M at h1 ⊢
    rcases le_total M (2 ^ 53) with hM | hM
    · nlinarith
    · nlinarith

theorem double_gap (t r : Rat) (ht : isDouble t) (hr : isDouble r) (hlt : r < t)
    (hpos : 0 < t) : t ≤ (t - r) * 2 ^ 53 := by
  obtain ⟨m, n, hm, _, rfl⟩ := ht
  obtain ⟨m1, n1, hm1, _, rfl⟩ := hr
  have hc : (0 : Rat) < 2 ^ 1074 := by positivity
  have h1 : m1 * 2 ^ n1 < m * 2 ^ n := by
    have := (div_lt_div_iff_of_pos_right hc).1 hlt
    exact_mod_cast this
  have h2 : 0 < m * 2 ^ n := by
    have := (div_pos_iff_of_pos_right hc).1 hpos
    exact_mod_cast this
  have h3 := int_gap m m1 n n1 hm hm1 h1 h2
  have h4 : ((m * 2 ^ n : Int) : Rat)
      ≤ (((m * 2 ^ n : Int) : Rat) - ((m1 * 2 ^ n1 : Int) : Rat)) * 2 ^ 53 := by
    exact_mod_cast h3
  rw [← sub_div, div_mul_eq_mul_div]
  exact (div_le_div_iff_of_pos_right hc).2 h4

/-- A reading that is at most 60% of the budget, in exact arithmetic, does not exceed the
threshold `timeBudgetSec*0.6` computed by the program: the error of the literal and of
the rounded product together is below the distance of two adjacent `double` values. -/
theorem le_limit60_of_le_sixty_percent (B L t : Rat) (hB : 0 ≤ B) (ht : isDouble t)
    (hL : roundsTo (B * c06) L) (h : t ≤ 6 / 10 * B) : ¬ t > L := by
  intro hlt
  have hp0 : 0 ≤ B * c06 := mul_nonneg hB (by unfold c06; norm_num)
  rcases le_or_lt t 0 with h0 | h0
  · have h1 := hL.2 0 isDouble_zero
    have h2 := le_abs_self (B * c06 - L)
    rw [sub_zero, abs_of_nonneg hp0] at h1
    linarith
  · have hg := double_gap t L ht hL.1 hlt h0
    have h1 := hL.2 t ht
    have h2 := le_abs_self (B * c06 - L)
    rcases le_or_lt t (B * c06) with hp | hp
    · rw [abs_of_nonneg (sub_nonneg.2 hp)] at h1
      linarith
    · rw [abs_of_neg (sub_neg.2 hp)] at h1
      unfold c06 at h1 h2 hp
      norm_num at hg
      linarith

/-- A reading that is at least 95% of the budget, in exact arithmetic, is at or above
the threshold `timeBudgetSec*0.95` computed by the program. -/
theorem limit95_le_of_ninety_five_percent_le (B L t : Rat) (hB : 0 ≤ B) (ht : isDouble t)
    (hL : roundsTo (B * c095) L) (h : 95 / 100 * B ≤ t) : ¬ t < L := by
  intro hlt
  have h1 := hL.2 t ht
  have hp : B * c095 ≤ t := by unfold c095; linarith
  have h2 := neg_abs_le (B * c095 - L)
  rw [abs_of_nonpos (sub_nonpos.2 hp)] at h1
  linarith

/-- Integers below `2^53` in absolute value are `double` values. -/
theorem isDouble_int (m : Int) (hm : |m| < 2 ^ 53) : isDouble (m : Rat) :=
  ⟨m, 1074, hm, by norm_num, by
    have hc : ((2 : Rat) ^ 1074) ≠ 0 := pow_ne_zero 1074 (by norm_num)
    rw [Int.cast_mul, Int.cast_pow, Int.cast_ofNat, mul_div_assoc, div_self hc, mul_one]⟩

namespace Solver

/-- With a budget of 2000 seconds the program computes the thresholds 1200 and 1900. -/
theorem thresholds_2000 (G : Graph) : (Solver.mk G 2000 1200 1900).thresholds := by
  have h12 : isDouble 1200 := by
    have := isDouble_int 1200 (by norm_num)
    exact_mod_cast this
  have h19 : isDouble 1900 := by
    have := isDouble_int 1900 (by norm_num)
    exact_mod_cast this
  refine ⟨⟨h12, fun d hd => ?_⟩, ⟨h19, fun d hd => ?_⟩⟩
  · show |(2000 : Rat) * c06 - 1200| ≤ |2000 * c06 - d|
    have e : (2000 : Rat) * c06 - 1200 = -(400 / 9007199254740992) := by
      unfold c06; norm_num
    rw [e, abs_neg, abs_of_nonneg (by norm_num)]
    have e2 : (2000 : Rat) * c06 = 1200 - 400 / 9007199254740992 := by
      unfold c06; norm_num
    rw [e2]
    rcases le_or_lt 1200 d with h | h
    · have := neg_abs_le (1200 - 400 / 9007199254740992 - d)
      linarith
    · have hg := double_gap 1200 d h12 hd h (by norm_num)
      have := le_abs_self (1200 - 400 / 9007199254740992 - d)
      norm_num at hg
      linarith
  · show |(2000 : Rat) * c095 - 1900| ≤ |2000 * c095 - d|
    have e : (2000 : Rat) * c095 - 1900 = -(800 / 9007199254740992) := by
      unfold c095; norm_num
    rw [e, abs_neg, abs_of_nonneg (by norm_num)]
    have e2 : (2000 : Rat) * c095 = 1900 - 800 / 9007199254740992 := by
      unfold c095; norm_num
    rw [e2]
    rcases le_or_lt 1900 d with h | h
    · have := neg_abs_le (1900 - 800 / 9007199254740992 - d)
      linarith
    · have hg := double_gap 1900 d h19 hd h (by norm_num)
      have := le_abs_self (1900 - 800 / 9007199254740992 - d)
      norm_num at hg
      linarith

/-- On a solver whose deadline fields are the program's products, a `double` reading of
at most 60% of a non-negative budget fails the test `T.seconds() > timeBudgetSec*0.6`. -/
theorem not_gt_limit60 (S : Solver) (hS : S.thresholds) (hB : 0 ≤ S.timeBudgetSec)
    (t : Rat) (ht : isDouble t) (h : t ≤ 6 / 10 * S.timeBudgetSec) : t ≤ S.limit60 :=
  not_lt.1 (le_limit60_of_le_sixty_percent S.timeBudgetSec S.limit60 t hB ht hS.1 h)

/-- On a solver whose deadline fields are the program's products, a `double` reading of
at least 95% of a non-negative budget fails the test `T.seconds() < timeBudgetSec*0.95`. -/
theorem limit95_le (S : Solver) (hS : S.thresholds) (hB : 0 ≤ S.timeBudgetSec)
    (t : Rat) (ht : isDouble t) (h : 95 / 100 * S.timeBudgetSec ≤ t) : S.limit95 ≤ t :=
  not_lt.1 (limit95_le_of_ninety_five_percent_le S.timeBudgetSec S.limit95 t hB ht hS.2 h)

end Solver

/-! ## The bounds-checked embedding agrees with the embedding -/

namespace Checked

theorem readAt_ok {α : Type} (a : List α) (i : Int) (d : α) (h0 : 0 ≤ i)
    (h1 : i.toNat < a.length) : readAt a i = some (a.getD i.toNat d) := by
  unfold readAt
  rw [if_pos h0, List.getD_eq_getElem?_getD, List.getElem?_eq_getElem h1]
  rfl

theorem writeAt_ok {α : Type} (a : List α) (i : Int) (x : α) (h0 : 0 ≤ i)
    (h1 : i.toNat < a.length) : writeAt a i x = some (a.set i.toNat x) := by
  unfold writeAt
  rw [if_pos ⟨h0, h1⟩]

theorem allM_ok {α : Type} (f : α → Option Bool) (g : α → Bool) (l : List α)
    (h : ∀ a ∈ l, f a = some (g a)) : allM f l = some (l.all g) := by
  induction l with
  | nil => rfl
  | cons a l ih =>
    unfold allM
    rw [h a (List.mem_cons_self _ _), Option.some_bind,
      ih (fun b hb => h b (List.mem_cons_of_mem _ hb)), List.all_cons]
    cases hga : g a <;> simp

theorem anyM_ok {α : Type} (f : α → Option Bool) (g : α → Bool) (l : List α)
    (h : ∀ a ∈ l, f a = some (g a)) : anyM f l = some (l.any g) := by
  induction l with
  | nil => rfl
  | cons a l ih =>
    unfold anyM
    rw [h a (List.mem_cons_self _ _), Option.some_bind,
      ih (fun b hb => h b (List.mem_cons_of_mem _ hb)), List.any_cons]
    cases hga : g a <;> simp

/-- A checked loop whose steps all succeed (under an invariant of the state) computes
the unchecked fold. -/
theorem foldM_ok {α β : Type} (f : β → α → Option β) (g : β → α → β) (inv : β → Prop)
    (l : List α) (b : β) (h0 : inv b)
    (h : ∀ st, inv st → ∀ a ∈ l, f st a = some (g st a) ∧ inv (g st a)) :
    foldM f b l = some (l.foldl g b) ∧ inv (l.foldl g b) := by
  induction l generalizing b with
  | nil => exact ⟨rfl, h0⟩
  | cons a l ih =>
    unfold foldM
    have ha := h b h0 a (List.mem_cons_self _ _)
    rw [ha.1, Option.some_bind, List.foldl_cons]
    exact ih (g b a) ha.2 (fun st hst a2 ha2 => h st hst a2 (List.mem_cons_of_mem _ ha2))

theorem markIn_ok (S : Solver) (cover : List Int) :
    markIn S cover = some (S.markIn cover) := by
  unfold markIn Solver.markIn
  refine (foldM_ok _ _ (fun inn => inn.length = (S.G.maxId + 1).toNat) cover _ (by simp)
    (fun st hst v _ => ?_)).1
  by_cases hv : v ≥ 1 ∧ v ≤ S.G.maxId
  · rw [if_pos hv, if_pos hv]
    exact ⟨writeAt_ok st v true (by omega) (by omega), by simpa using hst⟩
  · rw [if_neg hv, if_neg hv]
    exact ⟨rfl, hst⟩

theorem markIn_length (S : Solver) (cover : List Int) :
    (S.markIn cover).length = (S.G.maxId + 1).toNat := by
  unfold Solver.markIn
  generalize hacc : List.replicate (S.G.maxId + 1).toNat false = acc
  have hlen : acc.length = (S.G.maxId + 1).toNat := by rw [← hacc]; simp
  clear hacc
  induction cover generalizing acc with
  | nil => exact hlen
  | cons a c ih =>
    rw [List.foldl_cons]
    split
    · exact ih _ (by simpa using hlen)
    · exact ih _ hlen

theorem allEdgesIn_ok (S : Solver) (hG : S.G.WF) (inn : List Bool)
    (hlen : inn.length = (S.G.maxId + 1).toNat) :
    allEdgesIn S inn = some (S.allEdgesIn inn) := by
  unfold allEdgesIn Solver.allEdgesIn
  refine allM_ok _ _ _ (fun e he => ?_)
  have hb := hG.endpointsInRange e he
  rw [readAt_ok inn e.1 false (by omega) (by omega),
    readAt_ok inn e.2 false (by omega) (by omega), Option.some_bind]
  cases inn.getD e.1.toNat false <;> simp

theorem coversAll_ok (S : Solver) (hG : S.G.WF) (cover : List Int) :
    coversAll S cover = some (S.coversAll cover) := by
  unfold coversAll Solver.coversAll
  split
  · rfl
  · rw [markIn_ok, Option.some_bind, allEdgesIn_ok S hG _ (markIn_length S cover)]

theorem cleanupLoop_ok (S : Solver) (hG : S.G.WF) (n : Nat) (cover : List Int)
    (hn : n ≤ cover.length) : cleanupLoop S n cover = some (S.cleanupLoop n cover) := by
  induction n generalizing cover with
  | zero => rfl
  | succ i ih =>
    unfold cleanupLoop Solver.cleanupLoop
    simp only []
    have hi : ((i : Nat) : Int).toNat = i := by omega
    have hel : (cover.eraseIdx i).length = cover.length - 1 := by
      rw [List.length_eraseIdx]
      simp [show i < cover.length by omega]
    rw [readAt_ok cover (i : Int) 0 (by omega) (by omega), Option.some_bind, hi]
    unfold eraseAt
    rw [if_pos (by omega), Option.some_bind, coversAll_ok S hG, Option.some_bind]
    cases hc : S.coversAll (cover.eraseIdx i)
    · simp only [Bool.not_false, if_true]
      unfold insertAt
      rw [if_pos (by omega), Option.some_bind]
      have hil : ((cover.eraseIdx i).insertIdx i (cover.getD i 0)).length = cover.length := by
        rw [List.length_insertIdx _ _ (by omega)]
        omega
      exact ih ((cover.eraseIdx i).insertIdx i (cover.getD i 0)) (by omega)
    · simp only [Bool.not_true, Bool.false_eq_true, if_false, Option.some_bind]
      exact ih (cover.eraseIdx i) (by omega)

theorem cleanup_ok (S : Solver) (hG : S.G.WF) (cover : List Int) :
    cleanup S cover = some (S.cleanup cover) := by
  unfold cleanup Solver.cleanup
  exact cleanupLoop_ok S hG _ _ (le_refl _)

end Checked
namespace Checked

theorem degFold (adj : List (List Int)) (m n : Nat) (hn : n ≤ m) :
    (List.range n).foldl
        (fun (deg : List Int) i => deg.set (i + 1) ((adj.getD (i + 1) []).length : Int))
        (List.replicate (m + 1) 0) =
      (List.range (m + 1)).map
        (fun v => if v = 0 ∨ n < v then (0 : Int) else ((adj.getD v []).length : Int)) := by
  induction n with
  | zero =>
    refine List.ext_getElem? (fun j => ?_)
    simp only [List.range_zero, List.foldl_nil, List.getElem?_replicate, List.getElem?_map,
      List.getElem?_range]
    by_cases hj : j < m + 1
    · have : j = 0 ∨ 0 < j := by omega
      simp [hj, this]
    · have hnone : (List.range (m + 1))[j]? = none :=
        List.getElem?_eq_none (by simp; omega)
      simp [hj, hnone]
  | succ n ih =>
    rw [List.range_succ, List.foldl_append, ih (by omega)]
    simp only [List.foldl_cons, List.foldl_nil]
    refine List.ext_getElem? (fun j => ?_)
    rw [List.getElem?_set]
    simp only [List.length_map, List.length_range, List.getElem?_map]
    by_cases hj : j < m + 1
    · rw [List.getElem?_range hj]
      simp only [Option.map_some']
      by_cases hjn : n + 1 = j
      · rw [if_pos hjn, if_pos (by omega), if_neg (by omega)]
        rw [← hjn]
      · rw [if_neg hjn]
        by_cases c1 : j = 0 ∨ n < j
        · rw [if_pos c1, if_pos (by omega)]
        · rw [if_neg c1, if_neg (by omega)]
    · have hnone : (List.range (m + 1))[j]? = none :=
        List.getElem?_eq_none (by simp; omega)
      rw [hnone, if_neg (by omega)]
      rfl

theorem degrees_ok (S : Solver) (hG : S.G.WF) : degrees S = some S.degrees := by
  unfold degrees
  have hm : (S.G.maxId + 1).toNat = S.G.maxId.toNat + 1 ∨ S.G.maxId < 0 := by omega
  have h := foldM_ok
    (fun (deg : List Int) (i : Nat) =>
      (readAt S.G.adj ((i + 1 : Nat) : Int)).bind (fun a =>
        writeAt deg ((i + 1 : Nat) : Int) (a.length : Int)))
    (fun (deg : List Int) i => deg.set (i + 1) ((S.G.adj.getD (i + 1) []).length : Int))
    (fun deg => deg.length = (S.G.maxId + 1).toNat)
    (List.range S.G.maxId.toNat) (List.replicate (S.G.maxId + 1).toNat 0) (by simp)
    (fun st hst i hi => by
      have hi2 := List.mem_range.1 hi
      have hlen := hG.adjSize
      have hidx : (((i + 1 : Nat) : Int)).toNat = i + 1 := by omega
      have hst2 : st.length = (S.G.maxId + 1).toNat := hst
      beta_reduce
      rw [readAt_ok S.G.adj _ [] (by omega) (by omega), Option.some_bind,
        writeAt_ok st _ _ (by omega) (by omega), hidx]
      exact ⟨rfl, by simpa using hst2⟩)
  rw [h.1]
  congr 1
  unfold Solver.degrees
  rcases hm with hm | hm
  · rw [hm, degFold S.G.adj S.G.maxId.toNat S.G.maxId.toNat (le_refl _)]
    refine List.map_congr_left (fun v hv => ?_)
    have := List.mem_range.1 hv
    by_cases hv0 : v = 0
    · rw [if_pos (Or.inl hv0), if_pos hv0]
    · rw [if_neg (by omega), if_neg hv0]
  · have h1 : S.G.maxId.toNat = 0 := by omega
    have h2 : (S.G.maxId + 1).toNat = 0 := by omega
    rw [h1, h2]
    rfl

theorem degrees_length (S : Solver) : S.degrees.length = (S.G.maxId + 1).toNat := by
  unfold Solver.degrees
  simp

theorem sortedEdges_ok (S : Solver) (hG : S.G.WF) : sortedEdges S = some S.sortedEdges := by
  unfold sortedEdges
  rw [degrees_ok S hG, Option.some_bind]
  have hall : (S.G.edges.all (fun e => decide (0 ≤ e.1 ∧ e.1.toNat < S.degrees.length ∧
      0 ≤ e.2 ∧ e.2.toNat < S.degrees.length))) = true := by
    rw [List.all_eq_true]
    intro e he
    have hb := hG.endpointsInRange e he
    rw [degrees_length]
    simp only [decide_eq_true_eq]
    omega
  rw [if_pos hall]
  rfl

theorem matchScan_ok (S : Solver) (T : Timer) (E : List (Int × Int)) (cover : List Int)
    (matched : List Bool) (k : Nat)
    (hE : ∀ e ∈ E, 1 ≤ e.1 ∧ e.1 ≤ S.G.maxId ∧ 1 ≤ e.2 ∧ e.2 ≤ S.G.maxId)
    (hlen : matched.length = (S.G.maxId + 1).toNat) :
    matchScan S T E cover matched k = some (S.matchScan T E cover matched k) := by
  induction E generalizing cover matched k with
  | nil => rfl
  | cons e E ih =>
    have he := hE e (List.mem_cons_self _ _)
    have hE2 : ∀ e2 ∈ E, 1 ≤ e2.1 ∧ e2.1 ≤ S.G.maxId ∧ 1 ≤ e2.2 ∧ e2.2 ≤ S.G.maxId :=
      fun e2 h => hE e2 (List.mem_cons_of_mem _ h)
    unfold matchScan Solver.matchScan
    split
    · rfl
    · simp only []
      rw [readAt_ok matched e.1 false (by omega) (by omega), Option.some_bind,
        readAt_ok matched e.2 false (by omega) (by omega), Option.some_bind]
      cases h1 : matched.getD e.1.toNat false
      · cases h2 : matched.getD e.2.toNat false
        · simp only [Bool.false_eq_true, if_false, Bool.not_false, Bool.and_self, if_true]
          rw [writeAt_ok matched e.1 true (by omega) (by omega), Option.some_bind,
            writeAt_ok _ e.2 true (by omega) (by simp; omega), Option.some_bind]
          exact ih _ _ _ hE2 (by simpa using hlen)
        · simp only [Bool.false_eq_true, if_false, if_true, Bool.not_false, Bool.not_true,
            Bool.and_false]
          exact ih _ _ _ hE2 hlen
      · simp only [if_true, Bool.not_true, Bool.false_and, Bool.false_eq_true, if_false]
        exact ih _ _ _ hE2 hlen

theorem twoApprox_ok (S : Solver) (hG : S.G.WF) (T : Timer) (k : Nat) :
    twoApproxFromMatching S T k = some (S.twoApproxFromMatching T k) := by
  unfold twoApproxFromMatching Solver.twoApproxFromMatching
  rw [sortedEdges_ok S hG, Option.some_bind,
    matchScan_ok S T _ _ _ _ (fun e he => by
      have := hG.endpointsInRange e ((S.mem_sortedEdges e).1 he)
      omega) (by simp),
    Option.some_bind, cleanup_ok S hG, Option.some_bind]

end Checked
namespace Checked

theorem removeV_ok (adj : List (List Int)) (x : Int) (h0 : 0 ≤ x)
    (h1 : x.toNat < adj.length)
    (hys : ∀ y ∈ adj.getD x.toNat [], 0 ≤ y ∧ y.toNat < adj.length) :
    removeV adj x = some (Solver.removeV adj x) := by
  unfold removeV Solver.removeV
  rw [readAt_ok adj x [] h0 h1, Option.some_bind]
  have h := foldM_ok
    (fun (a : List (List Int)) y =>
      (readAt a y).bind (fun ly => writeAt a y (ly.filter (fun z => z ≠ x))))
    (fun (a : List (List Int)) y => a.set y.toNat ((a.getD y.toNat []).filter (fun z => z ≠ x)))
    (fun a => a.length = adj.length) (adj.getD x.toNat []) adj rfl
    (fun st hst y hy => by
      have hst2 : st.length = adj.length := hst
      have hy2 := hys y hy
      beta_reduce
      rw [readAt_ok st y [] hy2.1 (by omega), Option.some_bind,
        writeAt_ok st y _ hy2.1 (by omega)]
      exact ⟨rfl, by simpa using hst2⟩)
  rw [h.1, Option.some_bind]
  have h2 : (List.foldl
      (fun (a : List (List Int)) y =>
        a.set y.toNat ((a.getD y.toNat []).filter (fun z => z ≠ x))) adj
      (adj.getD x.toNat [])).length = adj.length := h.2
  rw [writeAt_ok _ x [] h0 (by omega)]

theorem hasEdgesLocal_ok (S : Solver) (adj : List (List Int))
    (hlen : adj.length = (S.G.maxId + 1).toNat) :
    hasEdgesLocal S adj = some (S.hasEdgesLocal adj) := by
  unfold hasEdgesLocal Solver.hasEdgesLocal
  refine anyM_ok _ _ _ (fun i hi => ?_)
  have hi2 := List.mem_range.1 hi
  have hidx : (((i + 1 : Nat) : Int)).toNat = i + 1 := by omega
  rw [readAt_ok adj _ [] (by omega) (by omega), Option.some_bind, hidx]

theorem pickBest_ok (S : Solver) (adj : List (List Int))
    (hlen : adj.length = (S.G.maxId + 1).toNat) :
    pickBest S adj = some (S.pickBest adj) := by
  unfold pickBest Solver.pickBest
  refine (foldM_ok _ _ (fun _ => True) _ _ trivial (fun st _ i hi => ?_)).1
  have hi2 := List.mem_range.1 hi
  have hidx : (((i + 1 : Nat) : Int)).toNat = i + 1 := by omega
  beta_reduce
  rw [readAt_ok adj _ [] (by omega) (by omega), Option.some_bind, hidx]
  exact ⟨rfl, trivial⟩

theorem greedyLoop_ok (S : Solver) (T : Timer) (fuel : Nat) (adj : List (List Int))
    (cover : List Int) (k : Nat)
    (hlen : adj.length = (S.G.maxId + 1).toNat)
    (hent : ∀ i z, z ∈ adj.getD i [] → 0 ≤ z ∧ z.toNat < adj.length) :
    greedyLoop S T fuel adj cover k = some (S.greedyLoop T fuel adj cover k) := by
  induction fuel generalizing adj cover k with
  | zero => rfl
  | succ fuel ih =>
    unfold greedyLoop Solver.greedyLoop
    rw [hasEdgesLocal_ok S adj hlen, Option.some_bind]
    by_cases hE : S.hasEdgesLocal adj = true
    · rw [if_pos hE, if_pos hE]
      split
      · rfl
      · rw [pickBest_ok S adj hlen, Option.some_bind]
        simp only []
        split
        · rfl
        · have hp := S.pickBest_spec adj hE
          rw [removeV_ok adj (S.pickBest adj).1 (by omega) (by omega)
            (fun y hy => hent _ y hy), Option.some_bind]
          refine ih _ _ _ (by rw [Solver.removeV_length]; exact hlen) (fun i z hz => ?_)
          rw [Solver.removeV_length]
          exact hent i z (Solver.removeV_sub adj _ i z hz)
    · rw [if_neg hE, if_neg hE]

theorem greedyMaxDegree_ok (S : Solver) (hG : S.G.WF) (fuel : Nat) (T : Timer) (k : Nat) :
    greedyMaxDegree S fuel T k = some (S.greedyMaxDegree fuel T k) := by
  unfold greedyMaxDegree Solver.greedyMaxDegree
  rw [greedyLoop_ok S T fuel S.G.adj [] k hG.adjSize (fun i z hz => by
    obtain ⟨e, he, h⟩ := (hG.adjEntries i z).1 hz
    have hb := hG.endpointsInRange e he
    have hl := hG.adjSize
    rcases h with ⟨_, h⟩ | ⟨_, h⟩ <;> rw [h] <;> omega), Option.some_bind]
  cases S.greedyLoop T fuel S.G.adj [] k with
  | none => rfl
  | some r =>
    simp only []
    rw [cleanup_ok S hG, Option.some_bind]

end Checked
namespace Checked

theorem rebuild_ok (S : Solver) (cover : List Int)
    (hc : ∀ x ∈ cover, 0 ≤ x ∧ x ≤ S.G.maxId) : rebuild S cover = some (S.rebuild cover) := by
  unfold rebuild Solver.rebuild
  refine (foldM_ok _ _ (fun inn => inn.length = (S.G.maxId + 1).toNat) cover _ (by simp)
    (fun st hst x hx => ?_)).1
  have hst2 : st.length = (S.G.maxId + 1).toNat := hst
  have := hc x hx
  beta_reduce
  rw [writeAt_ok st x true (by omega) (by omega)]
  exact ⟨rfl, by simpa using hst2⟩

theorem swapScan_ok (S : Solver) (hG : S.G.WF) (T : Timer) (v : Int)
    (hv : 0 ≤ v ∧ v ≤ S.G.maxId) (us : List Int) (inn : List Bool) (k : Nat)
    (hus : ∀ u ∈ us, 0 ≤ u ∧ u ≤ S.G.maxId)
    (hlen : inn.length = (S.G.maxId + 1).toNat) :
    swapScan S T v us inn k = some (S.swapScan T v us inn k) := by
  induction us generalizing inn k with
  | nil => rfl
  | cons u us ih =>
    have hu := hus u (List.mem_cons_self _ _)
    have hus2 : ∀ u2 ∈ us, 0 ≤ u2 ∧ u2 ≤ S.G.maxId :=
      fun u2 h => hus u2 (List.mem_cons_of_mem _ h)
    unfold swapScan Solver.swapScan
    rw [readAt_ok inn u false (by omega) (by omega), Option.some_bind]
    split
    · exact ih inn k hus2 hlen
    · simp only []
      rw [writeAt_ok inn v false (by omega) (by omega), Option.some_bind,
        writeAt_ok _ u true (by omega) (by simp; omega), Option.some_bind,
        allEdgesIn_ok S hG _ (by simpa using hlen), Option.some_bind]
      split
      · rfl
      · rw [writeAt_ok _ u false (by omega) (by simp; omega), Option.some_bind,
          writeAt_ok _ v true (by omega) (by simp; omega), Option.some_bind]
        split
        · rfl
        · exact ih _ (k + 1) hus2 (by simpa using hlen)

theorem passScan_ok (S : Solver) (hG : S.G.WF) (T : Timer) (n : Nat) (cover : List Int)
    (inn : List Bool) (k : Nat) (hn : n ≤ cover.length)
    (hlen : inn.length = (S.G.maxId + 1).toNat)
    (hJ : ∀ i, inn.getD i false = true → ∃ w ∈ cover, w.toNat = i)
    (hR : ∀ x ∈ cover, ∃ e ∈ S.G.edges, e.1 = x ∨ e.2 = x) :
    passScan S T n cover inn k = some (S.passScan T n cover inn k) := by
  induction n generalizing inn k with
  | zero => rfl
  | succ n ih =>
    have hidx : cover.length - (n + 1) < cover.length := by omega
    have hcast : (((cover.length - (n + 1) : Nat) : Int)).toNat = cover.length - (n + 1) := by
      omega
    have hv : cover.getD (cover.length - (n + 1)) 0 ∈ cover := getD_mem cover _ hidx
    obtain ⟨ev, hev, hev2⟩ := hR _ hv
    have hevb := hG.endpointsInRange ev hev
    have hvr : 1 ≤ cover.getD (cover.length - (n + 1)) 0 ∧
        cover.getD (cover.length - (n + 1)) 0 ≤ S.G.maxId := by
      rcases hev2 with h | h <;> rw [← h] <;> omega
    have hadjr : ∀ u ∈ S.G.adj.getD (cover.getD (cover.length - (n + 1)) 0).toNat [],
        (∃ e ∈ S.G.edges, e.1 = u ∨ e.2 = u) ∧ 0 ≤ u ∧ u ≤ S.G.maxId := by
      intro u hu
      obtain ⟨eu, heu, heu2⟩ := (hG.adjEntries _ u).1 hu
      have heub := hG.endpointsInRange eu heu
      rcases heu2 with ⟨_, h⟩ | ⟨_, h⟩
      · exact ⟨⟨eu, heu, Or.inr h.symm⟩, by rw [h]; omega, by rw [h]; omega⟩
      · exact ⟨⟨eu, heu, Or.inl h.symm⟩, by rw [h]; omega, by rw [h]; omega⟩
    have hspec := S.swapScan_spec T (cover.getD (cover.length - (n + 1)) 0) cover hv
      ⟨by omega, hvr.2⟩
      (S.G.adj.getD (cover.getD (cover.length - (n + 1)) 0).toNat []) inn k hlen hJ
    have hlenA := hG.adjSize
    unfold passScan Solver.passScan
    simp only []
    rw [readAt_ok cover _ 0 (by omega) (by omega), Option.some_bind, hcast,
      readAt_ok S.G.adj _ [] (by omega) (by omega), Option.some_bind,
      swapScan_ok S hG T _ ⟨by omega, hvr.2⟩ _ inn k (fun u hu => (hadjr u hu).2) hlen,
      Option.some_bind]
    generalize S.swapScan T (cover.getD (cover.length - (n + 1)) 0)
      (S.G.adj.getD (cover.getD (cover.length - (n + 1)) 0).toNat []) inn k = sw at hspec
    obtain ⟨ou, inn1, k1⟩ := sw
    cases ou with
    | some u =>
      simp only []
      obtain ⟨hu, _, _⟩ := hspec.1 u rfl
      rw [writeAt_ok cover _ u (by omega) (by omega), Option.some_bind, hcast,
        rebuild_ok S _ (fun x hx => by
          rcases List.mem_or_eq_of_mem_set hx with h | h
          · obtain ⟨e, he, h2⟩ := hR x h
            have hb := hG.endpointsInRange e he
            rcases h2 with h2 | h2 <;> rw [← h2] <;> omega
          · rw [h]; exact (hadjr u hu).2), Option.some_bind]
    | none =>
      simp only []
      obtain ⟨hlen1, hJ1⟩ := hspec.2 rfl
      simp only [] at hlen1 hJ1
      split
      · rfl
      · exact ih inn1 (k1 + 1) (by omega) hlen1 hJ1

theorem improveLoop_ok (S : Solver) (hG : S.G.WF) (T : Timer) (fuel : Nat)
    (cover : List Int) (inn : List Bool) (improved : Bool) (k : Nat)
    (hlen : inn.length = (S.G.maxId + 1).toNat)
    (hJ : ∀ i, inn.getD i false = true → ∃ w ∈ cover, w.toNat = i)
    (hR : ∀ x ∈ cover, ∃ e ∈ S.G.edges, e.1 = x ∨ e.2 = x) :
    improveLoop S T fuel cover inn improved k =
      some (S.improveLoop T fuel cover inn improved k) := by
  induction fuel generalizing cover inn improved k with
  | zero => rfl
  | succ fuel ih =>
    unfold improveLoop Solver.improveLoop
    split
    · split
      · have hp := S.passScan_spec hG T cover.length cover inn (k + 1) (le_refl _) hlen hJ hR
        rw [passScan_ok S hG T cover.length cover inn (k + 1) (le_refl _) hlen hJ hR,
          Option.some_bind]
        exact ih _ _ _ _ hp.2.2.1 hp.2.2.2.1 hp.2.1
      · rfl
    · rfl

theorem localImprove_ok (S : Solver) (hG : S.G.WF) (T : Timer) (fuel : Nat)
    (cover : List Int) (k : Nat)
    (hR : ∀ x ∈ cover, ∃ e ∈ S.G.edges, e.1 = x ∨ e.2 = x) :
    localImprove S fuel cover T k = some (S.localImprove fuel cover T k) := by
  unfold localImprove Solver.localImprove
  rw [rebuild_ok S cover (fun x hx => by
      obtain ⟨e, he, h2⟩ := hR x hx
      have hb := hG.endpointsInRange e he
      rcases h2 with h2 | h2 <;> rw [← h2] <;> omega), Option.some_bind,
    improveLoop_ok S hG T fuel cover _ true k (S.rebuild_spec cover).1
      (S.rebuild_spec cover).2 hR, Option.some_bind]
  cases S.improveLoop T fuel cover (S.rebuild cover) true k with
  | none => rfl
  | some r =>
    simp only []
    rw [cleanup_ok S hG, Option.some_bind]

/-- On a well-formed graph no access of the checked `solve` falls outside its vector:
it returns what the embedding returns. -/
theorem solve_ok (S : Solver) (hG : S.G.WF) (fuel : Nat) (T : Timer) :
    solve S fuel T = some (S.solve fuel T) := by
  unfold solve Solver.solve Solver.candidates
  rw [twoApprox_ok S hG, Option.some_bind, greedyMaxDegree_ok S hG, Option.some_bind]
  simp only []
  cases hg : S.greedyMaxDegree fuel T (S.twoApproxFromMatching T 0).2 with
  | none => rfl
  | some g =>
    simp only []
    have hc : S.candidates fuel T = some ((S.twoApproxFromMatching T 0).1, g.1, g.2) := by
      unfold Solver.candidates
      simp only []
      rw [hg]
    rw [localImprove_ok S hG T fuel _ g.2 (S.candidates_mem hG fuel T _ hc), Option.some_bind]
    cases S.localImprove fuel (Solver.keep (S.twoApproxFromMatching T 0).1 g.1) T g.2 with
    | none => rfl
    | some r => rfl

theorem linkStep_ok (st : List (List Int) × List Bool) (e : Int × Int)
    (h1 : 0 ≤ e.1 ∧ e.1.toNat < st.1.length ∧ e.1.toNat < st.2.length)
    (h2 : 0 ≤ e.2 ∧ e.2.toNat < st.1.length ∧ e.2.toNat < st.2.length) :
    linkStep st e = some (Graph.linkStep st e) := by
  unfold linkStep Graph.linkStep
  rw [readAt_ok st.1 e.1 [] h1.1 h1.2.1, Option.some_bind,
    writeAt_ok st.1 e.1 _ h1.1 h1.2.1, Option.some_bind,
    readAt_ok _ e.2 [] h2.1 (by simp; exact h2.2.1), Option.some_bind,
    writeAt_ok _ e.2 _ h2.1 (by simp; exact h2.2.1), Option.some_bind,
    writeAt_ok st.2 e.1 true h1.1 h1.2.2, Option.some_bind,
    writeAt_ok _ e.2 true h2.1 (by simp; exact h2.2.2), Option.some_bind]

/-- No access of the checked `loadFromFile` falls outside its vector: it returns the
graph that the embedding builds. -/
theorem loadFromFile_ok (pairs : List (Int × Int)) :
    loadFromFile pairs = some (Graph.loadFromFile pairs) := by
  have hb := Graph.edge_bounds pairs
  have hmax : (Graph.loadFromFile pairs).maxId = (pairs.foldl Graph.loadStep (0, [])).1 := rfl
  have hedges : (Graph.loadFromFile pairs).edges =
      unique (List.insertionSort pairLe (pairs.foldl Graph.loadStep (0, [])).2) := rfl
  rw [hmax, hedges] at hb
  unfold loadFromFile
  have h := foldM_ok linkStep Graph.linkStep
    (fun st => st.1.length = ((pairs.foldl Graph.loadStep (0, [])).1 + 1).toNat ∧
      st.2.length = ((pairs.foldl Graph.loadStep (0, [])).1 + 1).toNat)
    (unique (List.insertionSort pairLe (pairs.foldl Graph.loadStep (0, [])).2))
    (List.replicate ((pairs.foldl Graph.loadStep (0, [])).1 + 1).toNat [],
     List.replicate ((pairs.foldl Graph.loadStep (0, [])).1 + 1).toNat false)
    (by simp)
    (fun st hst e he => by
      have hst2 : st.1.length = ((pairs.foldl Graph.loadStep (0, [])).1 + 1).toNat ∧
        st.2.length = ((pairs.foldl Graph.loadStep (0, [])).1 + 1).toNat := hst
      have hbe := hb e he
      refine ⟨linkStep_ok st e ⟨by omega, by omega, by omega⟩ ⟨by omega, by omega, by omega⟩,
        ?_⟩
      have hl := Graph.linkStep_length st e
      exact ⟨hl.1.trans hst2.1, hl.2.trans hst2.2⟩)
  rw [h.1, Option.some_bind]
  rfl

end Checked
/-! ## Main results -/

/-- On a constructed graph `coversAll` is the vertex-cover predicate. -/
theorem coversAll_iff_mem (pairs : List (Int × Int)) (B L60 L95 : Rat) (c : List Int) :
    (Solver.mk (Graph.loadFromFile pairs) B L60 L95).coversAll c = true ↔
      ∀ e ∈ (Graph.loadFromFile pairs).edges, e.1 ∈ c ∨ e.2 ∈ c :=
  (Solver.mk (Graph.loadFromFile pairs) B L60 L95).coversAll_iff_of_wf (Graph.loadFromFile_wf pairs) c

/-- C1, as stated, fails. On the single edge `(1,2)` with a budget of 2000 (thresholds
1200 and 1900) and readings `2000, 2001, ...` (all past both thresholds), both construction
loops break at their first deadline check, `solve` returns the empty cover, and that
cover misses the edge `(1,2)`. On the triangle with readings `0, 0, 0, 1900, 1900, ...`
the matching scan completes with `[1, 2]`, the greedy loop breaks at its first check
with `[]`, the shorter list `[]` is kept, and `solve` again returns the empty cover. -/
theorem C1_counterexample :
    ((Solver.mk (Graph.loadFromFile [(1, 2)]) 2000 1200 1900).solve 1 ⟨fun k => ((2000 + k : Nat) : Rat)⟩ = some [] ∧
      (Graph.loadFromFile [(1, 2)]).edges = [(1, 2)] ∧
      (Solver.mk (Graph.loadFromFile [(1, 2)]) 2000 1200 1900).coversAll [] = false) ∧
    ((Solver.mk (Graph.loadFromFile [(1, 2), (2, 3), (3, 1)]) 2000 1200 1900).candidates 1
        ⟨fun k => if k < 3 then 0 else 1900⟩ = some ([1, 2], [], 4) ∧
      (Solver.mk (Graph.loadFromFile [(1, 2), (2, 3), (3, 1)]) 2000 1200 1900).solve 1
        ⟨fun k => if k < 3 then 0 else 1900⟩ = some [] ∧
      (Solver.mk (Graph.loadFromFile [(1, 2), (2, 3), (3, 1)]) 2000 1200 1900).coversAll [] = false) := by
  decide

/-- C1, amended. For every constructed graph and every behaviour of the clock under
which `solve` returns, the returned cover contains an endpoint of every stored edge
provided the candidate kept by `solve` (the smaller of the matching and the greedy
candidate, the matching one on a tie) does; the readings taken during `localImprove`
are arbitrary. -/
theorem C1_feasible_of_kept_candidate (pairs : List (Int × Int)) (B L60 L95 : Rat) (fuel : Nat) (T : Timer)
    (c : List Int × List Int × Nat) (r : List Int)
    (hc : (Solver.mk (Graph.loadFromFile pairs) B L60 L95).candidates fuel T = some c)
    (hkeep : (Solver.mk (Graph.loadFromFile pairs) B L60 L95).coversAll
      (Solver.keep c.1 c.2.1) = true)
    (hr : (Solver.mk (Graph.loadFromFile pairs) B L60 L95).solve fuel T = some r) :
    (Solver.mk (Graph.loadFromFile pairs) B L60 L95).coversAll r = true ∧
    ∀ e ∈ (Graph.loadFromFile pairs).edges, e.1 ∈ r ∨ e.2 ∈ r := by
  obtain ⟨c2, hc2, _, _, _, h⟩ :=
    (Solver.mk (Graph.loadFromFile pairs) B L60 L95).solve_spec (Graph.loadFromFile_wf pairs)
      fuel T r hr
  rw [hc] at hc2
  cases hc2
  exact ⟨h hkeep, (coversAll_iff_mem pairs B L60 L95 r).1 (h hkeep)⟩

/-- C1, amended, instance: the triangle with readings `0, 200, 400, ...` against
the thresholds 1200 and 1900; `solve` returns `[2, 3]` after the swap search has timed
out. -/
theorem C1_feasible_of_kept_candidate_witness :
    (Solver.mk (Graph.loadFromFile [(1, 2), (2, 3), (3, 1)]) 2000 1200 1900).solve 6
        ⟨fun k => ((200 * k : Nat) : Rat)⟩ = some [2, 3] ∧
    ((Solver.mk (Graph.loadFromFile [(1, 2), (2, 3), (3, 1)]) 2000 1200 1900).coversAll [2, 3] = true ∧
      ∀ e ∈ (Graph.loadFromFile [(1, 2), (2, 3), (3, 1)]).edges, e.1 ∈ [2, 3] ∨ e.2 ∈ [2, 3]) :=
  ⟨by decide,
    C1_feasible_of_kept_candidate [(1, 2), (2, 3), (3, 1)] 2000 1200 1900 6 ⟨fun k => ((200 * k : Nat) : Rat)⟩
      ([1, 2], [1, 2], 5) [2, 3] (by decide) (by decide) (by decide)⟩

/-- C2. Feasibility under an ample budget: on a constructed graph, if every clock
reading taken inside `twoApproxFromMatching` and `greedyMaxDegree` is at most the 60%
threshold `timeBudgetSec*0.6` of the program (so that neither construction loop breaks
on the deadline) and `solve` returns, then the matching candidate and the greedy
candidate are feasible and the returned cover contains an endpoint of every stored
edge. By `Solver.not_gt_limit60` the hypothesis holds for `double` readings that are at
most 60% of the budget. -/
theorem C2_feasible_ample_budget (pairs : List (Int × Int)) (B L60 L95 : Rat) (fuel : Nat) (T : Timer)
    (c : List Int × List Int × Nat) (r : List Int)
    (hc : (Solver.mk (Graph.loadFromFile pairs) B L60 L95).candidates fuel T = some c)
    (hT : ∀ j, j < c.2.2 → T.seconds j ≤ L60)
    (hr : (Solver.mk (Graph.loadFromFile pairs) B L60 L95).solve fuel T = some r) :
    (Solver.mk (Graph.loadFromFile pairs) B L60 L95).coversAll c.1 = true ∧
    (Solver.mk (Graph.loadFromFile pairs) B L60 L95).coversAll c.2.1 = true ∧
    (Solver.mk (Graph.loadFromFile pairs) B L60 L95).coversAll r = true ∧
    ∀ e ∈ (Graph.loadFromFile pairs).edges, e.1 ∈ r ∨ e.2 ∈ r := by
  have hG := Graph.loadFromFile_wf pairs
  have hf := (Solver.mk (Graph.loadFromFile pairs) B L60 L95).candidates_feasible hG fuel T c hc hT
  obtain ⟨c2, hc2, _, _, _, h⟩ :=
    (Solver.mk (Graph.loadFromFile pairs) B L60 L95).solve_spec hG fuel T r hr
  rw [hc] at hc2
  cases hc2
  have hk : (Solver.mk (Graph.loadFromFile pairs) B L60 L95).coversAll (Solver.keep c.1 c.2.1)
      = true := by
    rcases Solver.keep_cases c.1 c.2.1 with h2 | h2
    · rw [h2]; exact hf.1
    · rw [h2]; exact hf.2
  exact ⟨hf.1, hf.2, h hk, (coversAll_iff_mem pairs B L60 L95 r).1 (h hk)⟩

/-- C2, instance: the graph `(1,2),(1,3),(1,4),(2,5),(3,5),(4,5)` with a clock that
stays at `0`; the swap search ends by exhaustion and `solve` returns `[1, 5]`. -/
theorem C2_feasible_ample_budget_witness :
    (Solver.mk (Graph.loadFromFile [(1, 2), (1, 3), (1, 4), (2, 5), (3, 5), (4, 5)])
      2000 1200 1900).solve 5 ⟨fun _ => 0⟩ = some [1, 5] ∧
    (Solver.mk (Graph.loadFromFile [(1, 2), (1, 3), (1, 4), (2, 5), (3, 5), (4, 5)])
      2000 1200 1900).coversAll [1, 5] = true :=
  ⟨by decide,
    (C2_feasible_ample_budget [(1, 2), (1, 3), (1, 4), (2, 5), (3, 5), (4, 5)] 2000 1200 1900 5
      ⟨fun _ => 0⟩ ([1, 5], [1, 5], 8) [1, 5] (by decide) (fun _ _ => by show (0 : Rat) ≤ 1200; norm_num)
      (by decide)).2.2.1⟩

/-- C3. Inclusion-minimality of the returned cover: on a constructed graph and for
every behaviour of the clock under which `solve` returns, erasing any vertex of the
returned cover gives a list that fails `coversAll`; the returned cover is strictly
increasing, so the erased vertex occurs in it once. -/
theorem C3_inclusion_minimal (pairs : List (Int × Int)) (B L60 L95 : Rat) (fuel : Nat) (T : Timer)
    (r : List Int)
    (hr : (Solver.mk (Graph.loadFromFile pairs) B L60 L95).solve fuel T = some r) :
    r.Pairwise (fun a b => a < b) ∧
    ∀ x ∈ r, (Solver.mk (Graph.loadFromFile pairs) B L60 L95).coversAll (r.erase x) = false := by
  obtain ⟨_, _, ⟨c2, hc2⟩, _⟩ :=
    (Solver.mk (Graph.loadFromFile pairs) B L60 L95).solve_spec (Graph.loadFromFile_wf pairs)
      fuel T r hr
  rw [hc2]
  exact ⟨Solver.cleanup_sorted _ c2, Solver.cleanup_minimal _ c2⟩

/-- C3, instance: the triangle with readings `0, 200, 400, ...`; `solve` returns
`[2, 3]`. -/
theorem C3_inclusion_minimal_witness :
    (Solver.mk (Graph.loadFromFile [(1, 2), (2, 3), (3, 1)]) 2000 1200 1900).solve 6
        ⟨fun k => ((200 * k : Nat) : Rat)⟩ = some [2, 3] ∧
    ∀ x ∈ [2, 3], (Solver.mk (Graph.loadFromFile [(1, 2), (2, 3), (3, 1)]) 2000 1200 1900).coversAll
      (([2, 3] : List Int).erase x) = false :=
  ⟨by decide,
    (C3_inclusion_minimal [(1, 2), (2, 3), (3, 1)] 2000 1200 1900 6 ⟨fun k => ((200 * k : Nat) : Rat)⟩ [2, 3]
      (by decide)).2⟩

/-- C4. 2-approximation of the matching heuristic: on a constructed graph, when no
clock reading taken inside `twoApproxFromMatching` is above the 60% threshold
`timeBudgetSec*0.6` of the program, the returned list contains an endpoint of every
stored edge and is at most twice as large as any set of vertices that contains an
endpoint of every stored edge. The vertices pushed by the scan are the endpoints of a
list `M` of stored edges no two of which share an endpoint and such that every stored
edge has an endpoint among them, and the returned list consists of such endpoints. By
`Solver.not_gt_limit60` the hypothesis holds for `double` readings that are at most 60%
of the budget. -/
theorem C4_matching_two_approx (pairs : List (Int × Int)) (B L60 L95 : Rat) (T : Timer)
    (k : Nat)
    (hT : ∀ j, k ≤ j →
      j < ((Solver.mk (Graph.loadFromFile pairs) B L60 L95).twoApproxFromMatching T k).2 →
      T.seconds j ≤ L60) :
    (Solver.mk (Graph.loadFromFile pairs) B L60 L95).coversAll
      ((Solver.mk (Graph.loadFromFile pairs) B L60 L95).twoApproxFromMatching T k).1 = true ∧
    (∀ e ∈ (Graph.loadFromFile pairs).edges,
      e.1 ∈ ((Solver.mk (Graph.loadFromFile pairs) B L60 L95).twoApproxFromMatching T k).1 ∨
      e.2 ∈ ((Solver.mk (Graph.loadFromFile pairs) B L60 L95).twoApproxFromMatching T k).1) ∧
    (∀ C : Finset Int, (∀ e ∈ (Graph.loadFromFile pairs).edges, e.1 ∈ C ∨ e.2 ∈ C) →
      ((Solver.mk (Graph.loadFromFile pairs) B L60 L95).twoApproxFromMatching T k).1.length
        ≤ 2 * C.card) ∧
    ∃ M : List (Int × Int),
      ((Solver.mk (Graph.loadFromFile pairs) B L60 L95).matchScan T
        (Solver.mk (Graph.loadFromFile pairs) B L60 L95).sortedEdges []
        (List.replicate ((Graph.loadFromFile pairs).maxId + 1).toNat false) k).1
        = endpoints M ∧
      (∀ e ∈ M, e ∈ (Graph.loadFromFile pairs).edges) ∧
      M.Pairwise disjointEdges ∧
      (∀ e ∈ (Graph.loadFromFile pairs).edges, e.1 ∈ endpoints M ∨ e.2 ∈ endpoints M) ∧
      (∀ x ∈ ((Solver.mk (Graph.loadFromFile pairs) B L60 L95).twoApproxFromMatching T k).1,
        x ∈ endpoints M) := by
  have hG := Graph.loadFromFile_wf pairs
  have hfeas := (Solver.mk (Graph.loadFromFile pairs) B L60 L95).twoApprox_feasible hG T k hT
  obtain ⟨M, h1, h2, h3, h4⟩ :=
    (Solver.mk (Graph.loadFromFile pairs) B L60 L95).twoApprox_matching hG T k hT
  have hl := (Solver.mk (Graph.loadFromFile pairs) B L60 L95).twoApprox_length_le T k
  rw [h1, length_endpoints] at hl
  refine ⟨hfeas, (coversAll_iff_mem pairs B L60 L95 _).1 hfeas, fun C hC => ?_,
    M, h1, h2, h3, h4, hl.2⟩
  have := Solver.matching_le_cover (Graph.loadFromFile pairs).edges M C h2 h3 hC
  exact le_trans hl.1 (Nat.mul_le_mul_left 2 this)

/-- C4, instance: the triangle with readings `0, 200, 400, ...` against the thresholds
1200 and 1900; the matching candidate is `[1, 2]`, it covers the three edges and its
length is at most twice the size of the cover `{2, 3}`. -/
theorem C4_matching_two_approx_witness :
    ((Solver.mk (Graph.loadFromFile [(1, 2), (2, 3), (3, 1)]) 2000 1200
      1900).twoApproxFromMatching ⟨fun k => ((200 * k : Nat) : Rat)⟩ 0).1 = [1, 2] ∧
    (Solver.mk (Graph.loadFromFile [(1, 2), (2, 3), (3, 1)]) 2000 1200 1900).coversAll
      ((Solver.mk (Graph.loadFromFile [(1, 2), (2, 3), (3, 1)]) 2000 1200
        1900).twoApproxFromMatching ⟨fun k => ((200 * k : Nat) : Rat)⟩ 0).1 = true ∧
    ((Solver.mk (Graph.loadFromFile [(1, 2), (2, 3), (3, 1)]) 2000 1200
      1900).twoApproxFromMatching ⟨fun k => ((200 * k : Nat) : Rat)⟩ 0).1.length
        ≤ 2 * ({2, 3} : Finset Int).card :=
  ⟨by decide,
    (C4_matching_two_approx [(1, 2), (2, 3), (3, 1)] 2000 1200 1900
      ⟨fun k => ((200 * k : Nat) : Rat)⟩ 0
      (fun j _ hj => by
        have h3 : ((Solver.mk (Graph.loadFromFile [(1, 2), (2, 3), (3, 1)]) 2000 1200
            1900).twoApproxFromMatching ⟨fun k => ((200 * k : Nat) : Rat)⟩ 0).2 = 3 := by
          decide
        rw [h3] at hj
        show ((200 * j : Nat) : Rat) ≤ 1200
        exact_mod_cast (by omega : 200 * j ≤ 1200))).1,
    (C4_matching_two_approx [(1, 2), (2, 3), (3, 1)] 2000 1200 1900
      ⟨fun k => ((200 * k : Nat) : Rat)⟩ 0
      (fun j _ hj => by
        have h3 : ((Solver.mk (Graph.loadFromFile [(1, 2), (2, 3), (3, 1)]) 2000 1200
            1900).twoApproxFromMatching ⟨fun k => ((200 * k : Nat) : Rat)⟩ 0).2 = 3 := by
          decide
        rw [h3] at hj
        show ((200 * j : Nat) : Rat) ≤ 1200
        exact_mod_cast (by omega : 200 * j ≤ 1200))).2.2.1 {2, 3} (by decide)⟩

/-- C5. Minimizer postcondition on feasible input: on every graph value and every
candidate `c` (any order, duplicates allowed) that passes `coversAll`, the list left by
`cleanup` passes `coversAll`, contains only elements of `c`, and fails `coversAll` as
soon as any one of its elements is erased. -/
theorem C5_cleanup_postcondition (S : Solver) (c : List Int)
    (h : S.coversAll c = true) :
    S.coversAll (S.cleanup c) = true ∧
    (∀ x ∈ S.cleanup c, x ∈ c) ∧
    (∀ x ∈ S.cleanup c, S.coversAll ((S.cleanup c).erase x) = false) :=
  ⟨S.cleanup_feasible c h, fun _ hx => S.mem_of_mem_cleanup c hx, S.cleanup_minimal c⟩

/-- C5, instance: the triangle with the candidate `[3, 1, 2, 3]`. -/
theorem C5_cleanup_postcondition_witness :
    (Solver.mk (Graph.loadFromFile [(1, 2), (2, 3), (3, 1)]) 2000 1200 1900).coversAll [3, 1, 2, 3]
        = true ∧
    (Solver.mk (Graph.loadFromFile [(1, 2), (2, 3), (3, 1)]) 2000 1200 1900).cleanup [3, 1, 2, 3]
        = [1, 2] ∧
    ((Solver.mk (Graph.loadFromFile [(1, 2), (2, 3), (3, 1)]) 2000 1200 1900).coversAll
        ((Solver.mk (Graph.loadFromFile [(1, 2), (2, 3), (3, 1)]) 2000 1200 1900).cleanup [3, 1, 2, 3])
        = true ∧
      (∀ x ∈ (Solver.mk (Graph.loadFromFile [(1, 2), (2, 3), (3, 1)]) 2000 1200 1900).cleanup
          [3, 1, 2, 3], x ∈ [3, 1, 2, 3]) ∧
      (∀ x ∈ (Solver.mk (Graph.loadFromFile [(1, 2), (2, 3), (3, 1)]) 2000 1200 1900).cleanup
          [3, 1, 2, 3],
        (Solver.mk (Graph.loadFromFile [(1, 2), (2, 3), (3, 1)]) 2000 1200 1900).coversAll
          (((Solver.mk (Graph.loadFromFile [(1, 2), (2, 3), (3, 1)]) 2000 1200 1900).cleanup
            [3, 1, 2, 3]).erase x) = false)) :=
  ⟨by decide, by decide,
    C5_cleanup_postcondition (Solver.mk (Graph.loadFromFile [(1, 2), (2, 3), (3, 1)]) 2000 1200 1900)
      [3, 1, 2, 3] (by decide)⟩

/-- C6. Idempotent minimization: on every graph value and every candidate list,
running `cleanup` on the result of `cleanup` returns that same list. -/
theorem C6_cleanup_idempotent (S : Solver) (c : List Int) :
    S.cleanup (S.cleanup c) = S.cleanup c :=
  S.cleanup_idem c

/-- C7. On a candidate that fails `coversAll`, `cleanup` drops no vertex: its result
is the candidate sorted ascending with duplicates removed. -/
theorem C7_cleanup_infeasible_unchanged (S : Solver) (c : List Int)
    (h : S.coversAll c = false) :
    S.cleanup c = unique (List.insertionSort (· ≤ ·) c) ∧
    (S.cleanup c).Pairwise (fun a b => a < b) ∧
    (∀ x, x ∈ S.cleanup c ↔ x ∈ c) := by
  have h1 := S.cleanup_infeasible c h
  refine ⟨h1, S.cleanup_sorted c, fun x => ?_⟩
  rw [h1]
  exact mem_sortUnique c x

/-- C7, instance: the triangle with the infeasible candidate `[3, 3]`. -/
theorem C7_cleanup_infeasible_unchanged_witness :
    (Solver.mk (Graph.loadFromFile [(1, 2), (2, 3), (3, 1)]) 2000 1200 1900).coversAll [3, 3]
        = false ∧
    (Solver.mk (Graph.loadFromFile [(1, 2), (2, 3), (3, 1)]) 2000 1200 1900).cleanup [3, 3] = [3] ∧
    ((Solver.mk (Graph.loadFromFile [(1, 2), (2, 3), (3, 1)]) 2000 1200 1900).cleanup [3, 3]
        = unique (List.insertionSort (· ≤ ·) [3, 3]) ∧
      ((Solver.mk (Graph.loadFromFile [(1, 2), (2, 3), (3, 1)]) 2000 1200 1900).cleanup
        [3, 3]).Pairwise (fun a b => a < b) ∧
      (∀ x, x ∈ (Solver.mk (Graph.loadFromFile [(1, 2), (2, 3), (3, 1)]) 2000 1200 1900).cleanup [3, 3]
        ↔ x ∈ [3, 3])) :=
  ⟨by decide, by decide,
    C7_cleanup_infeasible_unchanged
      (Solver.mk (Graph.loadFromFile [(1, 2), (2, 3), (3, 1)]) 2000 1200 1900) [3, 3] (by decide)⟩

/-- C8. `coversAll` meets its definition: on a constructed graph and for every list of
integers (duplicates, non-positive values and values above `maxId` included),
`coversAll` is true exactly when every stored edge has an endpoint in the list; in
particular it is true when there is no edge. -/
theorem C8_coversAll_spec (pairs : List (Int × Int)) (B L60 L95 : Rat) (candidate : List Int) :
    ((Solver.mk (Graph.loadFromFile pairs) B L60 L95).coversAll candidate = true ↔
      ∀ e ∈ (Graph.loadFromFile pairs).edges, e.1 ∈ candidate ∨ e.2 ∈ candidate) ∧
    ((Graph.loadFromFile pairs).edges = [] →
      (Solver.mk (Graph.loadFromFile pairs) B L60 L95).coversAll candidate = true) := by
  refine ⟨coversAll_iff_mem pairs B L60 L95 candidate, fun h => ?_⟩
  rw [coversAll_iff_mem, h]
  simp

/-- C8, instance: no edge is stored for the input `(4,4)`, and `coversAll` accepts the
empty candidate. -/
theorem C8_coversAll_spec_witness :
    (Graph.loadFromFile [(4, 4)]).edges = [] ∧
    (Solver.mk (Graph.loadFromFile [(4, 4)]) 2000 1200 1900).coversAll [] = true :=
  ⟨by decide, (C8_coversAll_spec [(4, 4)] 2000 1200 1900 []).2 (by decide)⟩

/-- C9. Bounds respect: on a constructed graph and for every behaviour of the clock
under which `solve` returns, every vertex `x` of the returned cover satisfies
`1 ≤ x ≤ maxId`, is flagged in `active`, and is an endpoint of a stored edge. -/
theorem C9_cover_within_bounds (pairs : List (Int × Int)) (B L60 L95 : Rat) (fuel : Nat) (T : Timer)
    (r : List Int)
    (hr : (Solver.mk (Graph.loadFromFile pairs) B L60 L95).solve fuel T = some r) :
    ∀ x ∈ r, 1 ≤ x ∧ x ≤ (Graph.loadFromFile pairs).maxId ∧
      (Graph.loadFromFile pairs).active.getD x.toNat false = true ∧
      ∃ e ∈ (Graph.loadFromFile pairs).edges, e.1 = x ∨ e.2 = x := by
  obtain ⟨_, _, _, _, h, _⟩ :=
    (Solver.mk (Graph.loadFromFile pairs) B L60 L95).solve_spec (Graph.loadFromFile_wf pairs)
      fuel T r hr
  intro x hx
  obtain ⟨e, he, hex⟩ := h x hx
  have hb := Graph.edge_bounds pairs e he
  refine ⟨?_, ?_, ?_, e, he, hex⟩
  · rcases hex with h1 | h1 <;> rw [← h1] <;> omega
  · rcases hex with h1 | h1 <;> rw [← h1] <;> omega
  · rw [Graph.active_iff]
    rcases hex with h1 | h1
    · exact ⟨e, he, Or.inl (by rw [h1])⟩
    · exact ⟨e, he, Or.inr (by rw [h1])⟩

/-- C9, instance: the triangle with readings `0, 200, 400, ...`; `solve` returns
`[2, 3]`. -/
theorem C9_cover_within_bounds_witness :
    (Solver.mk (Graph.loadFromFile [(1, 2), (2, 3), (3, 1)]) 2000 1200 1900).solve 6
        ⟨fun k => ((200 * k : Nat) : Rat)⟩ = some [2, 3] ∧
    ∀ x ∈ [2, 3], 1 ≤ x ∧ x ≤ (Graph.loadFromFile [(1, 2), (2, 3), (3, 1)]).maxId ∧
      (Graph.loadFromFile [(1, 2), (2, 3), (3, 1)]).active.getD x.toNat false = true ∧
      ∃ e ∈ (Graph.loadFromFile [(1, 2), (2, 3), (3, 1)]).edges, e.1 = x ∨ e.2 = x :=
  ⟨by decide,
    C9_cover_within_bounds [(1, 2), (2, 3), (3, 1)] 2000 1200 1900 6 ⟨fun k => ((200 * k : Nat) : Rat)⟩ [2, 3]
      (by decide)⟩

/-- C10. Edge-set normalisation and deduplication: the stored edge list is strictly
increasing in lexicographic order, every stored edge `(a, b)` has `1 ≤ a < b ≤ 350`,
and `(a, b)` with `a < b` is stored exactly when `(a, b)` or `(b, a)` occurs in the
input with both endpoints in `[1, 350]`; the input `1,2` and `2,1` gives the one edge
`(1, 2)`. -/
theorem C10_edges_normalised (pairs : List (Int × Int)) :
    (Graph.loadFromFile pairs).edges.Pairwise
      (fun a b => a.1 < b.1 ∨ (a.1 = b.1 ∧ a.2 < b.2)) ∧
    (∀ e ∈ (Graph.loadFromFile pairs).edges, 1 ≤ e.1 ∧ e.1 < e.2 ∧ e.2 ≤ 350) ∧
    (∀ a b : Int, a < b →
      ((a, b) ∈ (Graph.loadFromFile pairs).edges ↔
        (((a, b) ∈ pairs ∨ (b, a) ∈ pairs) ∧ 1 ≤ a ∧ b ≤ 350))) ∧
    (Graph.loadFromFile [(1, 2), (2, 1)]).edges = [(1, 2)] := by
  refine ⟨Graph.edges_sorted pairs, fun e he => ?_, fun a b hab => ?_, by decide⟩
  · have h := Graph.edge_bounds pairs e he
    have := Graph.maxId_le pairs
    omega
  · rw [Graph.mem_edges]
    constructor
    · rintro ⟨p, hp, hv, hn⟩
      unfold Graph.validPair at hv
      unfold Graph.norm at hn
      by_cases h : p.1 > p.2
      · rw [if_pos h] at hn
        have h1 : p.2 = a := congrArg Prod.fst hn
        have h2 : p.1 = b := congrArg Prod.snd hn
        have hpe : p = (b, a) := Prod.ext h2 h1
        exact ⟨Or.inr (hpe ▸ hp), by omega, by omega⟩
      · rw [if_neg h] at hn
        have h1 : p.1 = a := congrArg Prod.fst hn
        have h2 : p.2 = b := congrArg Prod.snd hn
        have hpe : p = (a, b) := Prod.ext h1 h2
        exact ⟨Or.inl (hpe ▸ hp), by omega, by omega⟩
    · rintro ⟨h | h, h1, h2⟩
      · refine ⟨(a, b), h, ?_, ?_⟩
        · unfold Graph.validPair; simp only []; omega
        · unfold Graph.norm; rw [if_neg (by omega)]
      · refine ⟨(b, a), h, ?_, ?_⟩
        · unfold Graph.validPair; simp only []; omega
        · unfold Graph.norm; rw [if_pos (by omega)]

/-- C10, instance: `(2, 5)` is stored for the input `(5,2), (7,400)`. -/
theorem C10_edges_normalised_witness :
    (2 : Int) < 5 ∧ ((2, 5) ∈ (Graph.loadFromFile [(5, 2), (7, 400)]).edges ↔
      ((((2 : Int), (5 : Int)) ∈ [((5 : Int), (2 : Int)), (7, 400)] ∨
        ((5 : Int), (2 : Int)) ∈ [((5 : Int), (2 : Int)), (7, 400)]) ∧
        (1 : Int) ≤ 2 ∧ (5 : Int) ≤ 350)) :=
  ⟨by decide, (C10_edges_normalised [(5, 2), (7, 400)]).2.2.1 2 5 (by decide)⟩

/-- C11. Bound rejection and `maxId`: after graph construction `maxId` bounds every
entry of every parsed pair whose two entries lie in `[1, 350]` (self-pairs included), it
is one of those entries, or `0` when there is no such pair; a pair with an entry above
350 or not positive can be dropped from the input without changing the constructed
graph (`maxId`, edges, adjacency, activity); and `0 ≤ maxId ≤ 350`. -/
theorem C11_maxId_bound_rejection (pairs : List (Int × Int)) :
    (∀ p ∈ pairs, Graph.inBound p →
      p.1 ≤ (Graph.loadFromFile pairs).maxId ∧ p.2 ≤ (Graph.loadFromFile pairs).maxId) ∧
    ((∃ p ∈ pairs, Graph.inBound p ∧
        ((Graph.loadFromFile pairs).maxId = p.1 ∨ (Graph.loadFromFile pairs).maxId = p.2)) ∨
      ((∀ p ∈ pairs, ¬ Graph.inBound p) ∧ (Graph.loadFromFile pairs).maxId = 0)) ∧
    (∀ (l1 l2 : List (Int × Int)) (p : Int × Int), ¬ Graph.inBound p →
      Graph.loadFromFile (l1 ++ p :: l2) = Graph.loadFromFile (l1 ++ l2)) ∧
    0 ≤ (Graph.loadFromFile pairs).maxId ∧ (Graph.loadFromFile pairs).maxId ≤ 350 := by
  have hmax : (Graph.loadFromFile pairs).maxId = (pairs.foldl Graph.loadStep (0, [])).1 := rfl
  refine ⟨fun p hp hb => ?_, ?_, fun l1 l2 p h => Graph.loadFromFile_skip l1 l2 p h,
    Graph.maxId_nonneg pairs, Graph.maxId_le pairs⟩
  · rw [hmax]
    exact Graph.loadFold_maxId_inBound pairs (0, []) p hp hb
  · by_cases hex : ∃ p ∈ pairs, Graph.inBound p
    · obtain ⟨q, hq, hqb⟩ := hex
      have hge := Graph.loadFold_maxId_inBound pairs (0, []) q hq hqb
      rcases Graph.loadFold_maxId_attained pairs (0, []) with h | h
      · unfold Graph.inBound at hqb
        rw [h] at hge
        simp only [] at hge
        omega
      · left
        rw [hmax]
        exact h
    · right
      have hall : ∀ p ∈ pairs, ¬ Graph.inBound p := fun p hp hb => hex ⟨p, hp, hb⟩
      refine ⟨hall, ?_⟩
      rcases Graph.loadFold_maxId_attained pairs (0, []) with h | ⟨p, hp, hb, _⟩
      · rw [hmax, h]
      · exact absurd hb (hall p hp)

/-- C11, instance: for the input `(2,2), (400,1), (3,1)` the second pair is rejected;
`maxId` is `3` with or without it. -/
theorem C11_maxId_bound_rejection_witness :
    ¬ Graph.inBound (400, 1) ∧
    (Graph.loadFromFile ([(2, 2)] ++ (400, 1) :: [(3, 1)])).maxId = 3 ∧
    Graph.loadFromFile ([(2, 2)] ++ (400, 1) :: [(3, 1)]) =
      Graph.loadFromFile ([(2, 2)] ++ [(3, 1)]) :=
  ⟨by unfold Graph.inBound; decide, by decide,
    (C11_maxId_bound_rejection []).2.2.1 [(2, 2)] [(3, 1)] (400, 1)
      (by unfold Graph.inBound; decide)⟩

/-- C12. Adjacency and activity of a constructed graph: for vertices `u`, `v` of
`[1, maxId]`, `v` occurs in `adj[u]` exactly when the normalised pair
`(min u v, max u v)` is a stored edge, and then it occurs once and `u` occurs in
`adj[v]`; `active[x]` is set exactly when `x` is an endpoint of a stored edge; a vertex
that is no endpoint (for instance one seen only in a self-pair) is inactive with an
empty adjacency list. -/
theorem C12_adjacency_activity (pairs : List (Int × Int)) :
    (∀ u v : Int, 1 ≤ u → u ≤ (Graph.loadFromFile pairs).maxId →
      1 ≤ v → v ≤ (Graph.loadFromFile pairs).maxId →
      (v ∈ (Graph.loadFromFile pairs).adj.getD u.toNat [] ↔
        (min u v, max u v) ∈ (Graph.loadFromFile pairs).edges) ∧
      ((min u v, max u v) ∈ (Graph.loadFromFile pairs).edges →
        ((Graph.loadFromFile pairs).adj.getD u.toNat []).count v = 1 ∧
        u ∈ (Graph.loadFromFile pairs).adj.getD v.toNat [])) ∧
    (∀ x : Int, 1 ≤ x → x ≤ (Graph.loadFromFile pairs).maxId →
      ((Graph.loadFromFile pairs).active.getD x.toNat false = true ↔
        ∃ e ∈ (Graph.loadFromFile pairs).edges, e.1 = x ∨ e.2 = x)) ∧
    (∀ x : Int, 1 ≤ x → x ≤ (Graph.loadFromFile pairs).maxId →
      (¬ ∃ e ∈ (Graph.loadFromFile pairs).edges, e.1 = x ∨ e.2 = x) →
      (Graph.loadFromFile pairs).active.getD x.toNat false = false ∧
      (Graph.loadFromFile pairs).adj.getD x.toNat [] = []) ∧
    ((Graph.loadFromFile [(3, 3)]).maxId = 3 ∧
      (Graph.loadFromFile [(3, 3)]).active.getD 3 false = false ∧
      (Graph.loadFromFile [(3, 3)]).adj.getD 3 [] = []) := by
  have hnd := Graph.edges_nodup pairs
  have hb := Graph.edge_bounds pairs
  have hact : ∀ x : Int, 1 ≤ x →
      ((Graph.loadFromFile pairs).active.getD x.toNat false = true ↔
        ∃ e ∈ (Graph.loadFromFile pairs).edges, e.1 = x ∨ e.2 = x) := by
    intro x hx
    rw [Graph.active_iff]
    constructor
    · rintro ⟨e, he, h⟩
      have := hb e he
      exact ⟨e, he, by omega⟩
    · rintro ⟨e, he, h⟩
      exact ⟨e, he, by rcases h with h | h <;> rw [h] <;> simp⟩
  have hmem : ∀ u v : Int, 1 ≤ u → u ≤ (Graph.loadFromFile pairs).maxId →
      (v ∈ (Graph.loadFromFile pairs).adj.getD u.toNat [] ↔
        ((u, v) ∈ (Graph.loadFromFile pairs).edges ∨
          (v, u) ∈ (Graph.loadFromFile pairs).edges)) := by
    intro u v hu hu2
    rw [← List.count_pos_iff, Graph.count_adj pairs u v hu hu2, ← List.count_pos_iff,
      ← List.count_pos_iff]
    omega
  have hnorm : ∀ u v : Int,
      ((min u v, max u v) ∈ (Graph.loadFromFile pairs).edges ↔
        ((u, v) ∈ (Graph.loadFromFile pairs).edges ∨
          (v, u) ∈ (Graph.loadFromFile pairs).edges)) := by
    intro u v
    rw [← Graph.norm_eq_min_max]
    unfold Graph.norm
    by_cases h : u > v
    · rw [if_pos h]
      constructor
      · exact fun h1 => Or.inr h1
      · rintro (h1 | h1)
        · have := hb _ h1
          simp only [] at this
          omega
        · exact h1
    · rw [if_neg h]
      constructor
      · exact fun h1 => Or.inl h1
      · rintro (h1 | h1)
        · exact h1
        · have := hb _ h1
          simp only [] at this
          have huv : u = v := by omega
          rw [huv] at h1 ⊢
          exact h1
  refine ⟨fun u v hu hu2 hv hv2 => ⟨?_, fun h => ⟨?_, ?_⟩⟩, fun x hx _ => hact x hx,
    fun x hx hx2 hno => ⟨?_, ?_⟩, by decide⟩
  · rw [hmem u v hu hu2, hnorm]
  · rw [Graph.count_adj pairs u v hu hu2]
    rcases (hnorm u v).1 h with h1 | h1
    · have h2 : (v, u) ∉ (Graph.loadFromFile pairs).edges := fun h2 => by
        have a := hb _ h1
        have b := hb _ h2
        simp only [] at a b
        omega
      rw [Graph.count_eq_one_of_nodup _ hnd _ h1, List.count_eq_zero_of_not_mem h2]
    · have h2 : (u, v) ∉ (Graph.loadFromFile pairs).edges := fun h2 => by
        have a := hb _ h1
        have b := hb _ h2
        simp only [] at a b
        omega
      rw [Graph.count_eq_one_of_nodup _ hnd _ h1, List.count_eq_zero_of_not_mem h2]
  · rw [hmem v u hv hv2]
    exact ((hnorm u v).1 h).symm
  · cases hA : (Graph.loadFromFile pairs).active.getD x.toNat false with
    | false => rfl
    | true => exact absurd ((hact x hx).1 hA) hno
  · cases hA : (Graph.loadFromFile pairs).adj.getD x.toNat [] with
    | nil => rfl
    | cons y ys =>
      have hy : y ∈ (Graph.loadFromFile pairs).adj.getD x.toNat [] := by
        rw [hA]; exact List.mem_cons_self _ _
      rcases (hmem x y hx hx2).1 hy with h1 | h1
      · exact absurd ⟨(x, y), h1, Or.inl rfl⟩ hno
      · exact absurd ⟨(y, x), h1, Or.inr rfl⟩ hno

/-- C12, instance: in the graph of `(2,1), (3,3)` the vertices `1` and `2` list each
other once. -/
theorem C12_adjacency_activity_witness :
    (1 : Int) ∈ (Graph.loadFromFile [(2, 1), (3, 3)]).adj.getD (2 : Int).toNat [] ∧
    ((Graph.loadFromFile [(2, 1), (3, 3)]).adj.getD (2 : Int).toNat []).count 1 = 1 ∧
    (2 : Int) ∈ (Graph.loadFromFile [(2, 1), (3, 3)]).adj.getD (1 : Int).toNat [] :=
  ⟨((C12_adjacency_activity [(2, 1), (3, 3)]).1 2 1 (by decide) (by decide) (by decide)
      (by decide)).1.2 (by decide),
    ((C12_adjacency_activity [(2, 1), (3, 3)]).1 2 1 (by decide) (by decide) (by decide)
      (by decide)).2 (by decide)⟩

/-- C13. Empty graph gives the empty cover: on every constructed graph without a
stored edge (whatever `maxId` is) and for every behaviour of the clock, `solve` returns,
and what it returns is the empty list. -/
theorem C13_empty_graph_empty_cover (pairs : List (Int × Int)) (B L60 L95 : Rat) (fuel : Nat) (T : Timer)
    (hE : (Graph.loadFromFile pairs).edges = []) :
    (Solver.mk (Graph.loadFromFile pairs) B L60 L95).solve (fuel + 2) T = some [] := by
  refine (Solver.mk (Graph.loadFromFile pairs) B L60 L95).solve_of_no_edges hE (fun i => ?_) T fuel
  cases hA : (Graph.loadFromFile pairs).adj.getD i [] with
  | nil => rfl
  | cons y ys =>
    have hy : y ∈ (Graph.loadFromFile pairs).adj.getD i [] := by
      rw [hA]; exact List.mem_cons_self _ _
    obtain ⟨e, he, _⟩ := (Graph.mem_adj pairs i y).1 hy
    rw [hE] at he
    cases he

/-- C13, instance: the input `(4,4), (2,900), (0,1)` stores no edge (and has
`maxId = 4`); `solve` returns `[]` under the clock `0, 700, 1400, ...`. -/
theorem C13_empty_graph_empty_cover_witness :
    (Graph.loadFromFile [(4, 4), (2, 900), (0, 1)]).edges = [] ∧
    (Graph.loadFromFile [(4, 4), (2, 900), (0, 1)]).maxId = 4 ∧
    (Solver.mk (Graph.loadFromFile [(4, 4), (2, 900), (0, 1)]) 2000 1200 1900).solve (0 + 2)
      ⟨fun k => ((700 * k : Nat) : Rat)⟩ = some [] :=
  ⟨by decide, by decide,
    C13_empty_graph_empty_cover [(4, 4), (2, 900), (0, 1)] 2000 1200 1900 0 ⟨fun k => ((700 * k : Nat) : Rat)⟩
      (by decide)⟩

/-- C14. Triangle case: on the graph built from `(1,2), (2,3), (3,1)`, whenever no
clock reading taken inside the two construction heuristics is above the 60% threshold
`timeBudgetSec*0.6` of the program and `solve` returns, the returned cover is feasible
and has exactly two vertices: it is `[1, 2]`, `[1, 3]` or `[2, 3]`. By
`Solver.not_gt_limit60` the hypothesis holds for `double` readings that are at most 60%
of the budget. -/
theorem C14_triangle (B L60 L95 : Rat) (fuel : Nat) (T : Timer) (c : List Int × List Int × Nat)
    (r : List Int)
    (hc : (Solver.mk (Graph.loadFromFile [(1, 2), (2, 3), (3, 1)]) B L60 L95).candidates fuel T
      = some c)
    (hT : ∀ j, j < c.2.2 → T.seconds j ≤ L60)
    (hr : (Solver.mk (Graph.loadFromFile [(1, 2), (2, 3), (3, 1)]) B L60 L95).solve fuel T = some r) :
    (Solver.mk (Graph.loadFromFile [(1, 2), (2, 3), (3, 1)]) B L60 L95).coversAll r = true ∧
    r.length = 2 ∧ (r = [1, 2] ∨ r = [1, 3] ∨ r = [2, 3]) := by
  have hG := Graph.loadFromFile_wf [(1, 2), (2, 3), (3, 1)]
  have hedges : (Graph.loadFromFile [(1, 2), (2, 3), (3, 1)]).edges
      = [(1, 2), (1, 3), (2, 3)] := by decide
  have hf := (Solver.mk (Graph.loadFromFile [(1, 2), (2, 3), (3, 1)]) B L60 L95).candidates_feasible
    hG fuel T c hc hT
  obtain ⟨c2, hc2, ⟨c3, hc3⟩, _, hmem, hfeas⟩ :=
    (Solver.mk (Graph.loadFromFile [(1, 2), (2, 3), (3, 1)]) B L60 L95).solve_spec hG fuel T r hr
  rw [hc] at hc2
  cases hc2
  have hk : (Solver.mk (Graph.loadFromFile [(1, 2), (2, 3), (3, 1)]) B L60 L95).coversAll
      (Solver.keep c.1 c.2.1) = true := by
    rcases Solver.keep_cases c.1 c.2.1 with h2 | h2
    · rw [h2]; exact hf.1
    · rw [h2]; exact hf.2
  have hcov := hfeas hk
  have hsorted : r.Pairwise (fun a b => a < b) := by
    rw [hc3]; exact Solver.cleanup_sorted _ c3
  have hmin : ∀ x ∈ r, (Solver.mk (Graph.loadFromFile [(1, 2), (2, 3), (3, 1)]) B L60 L95).coversAll
      (r.erase x) = false := by
    rw [hc3]; exact Solver.cleanup_minimal _ c3
  have hrange : ∀ x ∈ r, x = 1 ∨ x = 2 ∨ x = 3 := by
    intro x hx
    obtain ⟨e, he, h⟩ := hmem x hx
    rw [show (Solver.mk (Graph.loadFromFile [(1, 2), (2, 3), (3, 1)]) B L60 L95).G.edges
      = [(1, 2), (1, 3), (2, 3)] from hedges] at he
    simp only [List.mem_cons, List.mem_singleton, List.not_mem_nil, or_false] at he
    rcases he with rfl | rfl | rfl <;> simp only [] at h <;> omega
  have hcov2 := (coversAll_iff_mem [(1, 2), (2, 3), (3, 1)] B L60 L95 r).1 hcov
  rw [hedges] at hcov2
  have h12 := hcov2 (1, 2) (by simp)
  have h13 := hcov2 (1, 3) (by simp)
  have h23 := hcov2 (2, 3) (by simp)
  simp only [] at h12 h13 h23
  refine ⟨hcov, ?_⟩
  rcases r with _ | ⟨a, _ | ⟨b, _ | ⟨d, _ | ⟨f, rest⟩⟩⟩⟩
  · simp at h12
  · have ha := hrange a (by simp)
    simp only [List.mem_singleton] at h12 h13 h23
    omega
  · have ha := hrange a (by simp)
    have hb := hrange b (by simp)
    have hab : a < b := by
      simp only [List.pairwise_cons, List.mem_singleton, forall_eq] at hsorted
      exact hsorted.1
    simp only [List.mem_cons, List.mem_singleton, List.not_mem_nil, or_false] at h12 h13 h23
    refine ⟨rfl, ?_⟩
    have : (a = 1 ∧ b = 2) ∨ (a = 1 ∧ b = 3) ∨ (a = 2 ∧ b = 3) := by omega
    rcases this with ⟨rfl, rfl⟩ | ⟨rfl, rfl⟩ | ⟨rfl, rfl⟩ <;> simp
  · exfalso
    have ha := hrange a (by simp)
    have hb := hrange b (by simp)
    have hd := hrange d (by simp)
    have hlt : a < b ∧ b < d := by
      simp only [List.pairwise_cons, List.mem_cons, List.mem_singleton, forall_eq_or_imp,
        forall_eq, List.not_mem_nil] at hsorted
      exact ⟨hsorted.1.1, hsorted.2.1.1⟩
    have ha1 : a = 1 := by omega
    have hb2 : b = 2 := by omega
    have hd3 : d = 3 := by omega
    subst ha1 hb2 hd3
    have h1 := hmin 1 (by simp)
    have h2 : (Solver.mk (Graph.loadFromFile [(1, 2), (2, 3), (3, 1)]) B L60 L95).coversAll
        (([1, 2, 3] : List Int).erase 1) = true := by
      rw [coversAll_iff_mem, hedges]
      decide
    rw [h1] at h2
    cases h2
  · exfalso
    have ha := hrange a (by simp)
    have hb := hrange b (by simp)
    have hd := hrange d (by simp)
    have hf := hrange f (by simp)
    have hlt : a < b ∧ b < d ∧ d < f := by
      simp only [List.pairwise_cons, List.mem_cons, forall_eq_or_imp] at hsorted
      exact ⟨hsorted.1.1, hsorted.2.1.1, hsorted.2.2.1.1⟩
    omega

/-- C14, instance: readings `0, 200, 400, ...` against the thresholds 1200 and 1900;
the two heuristics make five readings, none above 1200, and `solve` returns `[2, 3]`. -/
theorem C14_triangle_witness :
    (Solver.mk (Graph.loadFromFile [(1, 2), (2, 3), (3, 1)]) 2000 1200 1900).solve 6
        ⟨fun k => ((200 * k : Nat) : Rat)⟩ = some [2, 3] ∧
    ((Solver.mk (Graph.loadFromFile [(1, 2), (2, 3), (3, 1)]) 2000 1200 1900).coversAll [2, 3] = true ∧
      ([2, 3] : List Int).length = 2 ∧
      (([2, 3] : List Int) = [1, 2] ∨ ([2, 3] : List Int) = [1, 3] ∨
        ([2, 3] : List Int) = [2, 3])) :=
  ⟨by decide,
    C14_triangle 2000 1200 1900 6 ⟨fun k => ((200 * k : Nat) : Rat)⟩ ([1, 2], [1, 2], 5) [2, 3] (by decide)
      (fun j hj => by
        show ((200 * j : Nat) : Rat) ≤ 1200
        have : j < 5 := hj
        exact_mod_cast (by omega : 200 * j ≤ 1200))
      (by decide)⟩

/-- C15. Single-edge case: on the graph built from the single pair `(5,7)`, whenever
no clock reading taken inside the two construction heuristics is above the 60%
threshold `timeBudgetSec*0.6` of the program and `solve` returns, the returned cover has
exactly one element, and that element is `5` or `7`. By `Solver.not_gt_limit60` the
hypothesis holds for `double` readings that are at most 60% of the budget. -/
theorem C15_single_edge (B L60 L95 : Rat) (fuel : Nat) (T : Timer) (c : List Int × List Int × Nat)
    (r : List Int)
    (hc : (Solver.mk (Graph.loadFromFile [(5, 7)]) B L60 L95).candidates fuel T = some c)
    (hT : ∀ j, j < c.2.2 → T.seconds j ≤ L60)
    (hr : (Solver.mk (Graph.loadFromFile [(5, 7)]) B L60 L95).solve fuel T = some r) :
    r.length = 1 ∧ (r = [5] ∨ r = [7]) := by
  have hG := Graph.loadFromFile_wf [(5, 7)]
  have hedges : (Graph.loadFromFile [(5, 7)]).edges = [(5, 7)] := by decide
  have hf := (Solver.mk (Graph.loadFromFile [(5, 7)]) B L60 L95).candidates_feasible
    hG fuel T c hc hT
  obtain ⟨c2, hc2, ⟨c3, hc3⟩, _, hmem, hfeas⟩ :=
    (Solver.mk (Graph.loadFromFile [(5, 7)]) B L60 L95).solve_spec hG fuel T r hr
  rw [hc] at hc2
  cases hc2
  have hk : (Solver.mk (Graph.loadFromFile [(5, 7)]) B L60 L95).coversAll
      (Solver.keep c.1 c.2.1) = true := by
    rcases Solver.keep_cases c.1 c.2.1 with h2 | h2
    · rw [h2]; exact hf.1
    · rw [h2]; exact hf.2
  have hcov := hfeas hk
  have hsorted : r.Pairwise (fun a b => a < b) := by
    rw [hc3]; exact Solver.cleanup_sorted _ c3
  have hmin : ∀ x ∈ r, (Solver.mk (Graph.loadFromFile [(5, 7)]) B L60 L95).coversAll
      (r.erase x) = false := by
    rw [hc3]; exact Solver.cleanup_minimal _ c3
  have hrange : ∀ x ∈ r, x = 5 ∨ x = 7 := by
    intro x hx
    obtain ⟨e, he, h⟩ := hmem x hx
    rw [show (Solver.mk (Graph.loadFromFile [(5, 7)]) B L60 L95).G.edges = [(5, 7)] from hedges] at he
    simp only [List.mem_singleton] at he
    subst he
    simp only [] at h
    omega
  have hcov2 := (coversAll_iff_mem [(5, 7)] B L60 L95 r).1 hcov
  rw [hedges] at hcov2
  have h57 := hcov2 (5, 7) (by simp)
  simp only [] at h57
  rcases r with _ | ⟨a, _ | ⟨b, _ | ⟨d, rest⟩⟩⟩
  · simp at h57
  · have ha := hrange a (by simp)
    refine ⟨rfl, ?_⟩
    rcases ha with rfl | rfl <;> simp
  · exfalso
    have ha := hrange a (by simp)
    have hb := hrange b (by simp)
    have hab : a < b := by
      simp only [List.pairwise_cons, List.mem_singleton, forall_eq] at hsorted
      exact hsorted.1
    have ha5 : a = 5 := by omega
    have hb7 : b = 7 := by omega
    subst ha5 hb7
    have h1 := hmin 5 (by simp)
    have h2 : (Solver.mk (Graph.loadFromFile [(5, 7)]) B L60 L95).coversAll
        (([5, 7] : List Int).erase 5) = true := by
      rw [coversAll_iff_mem, hedges]
      decide
    rw [h1] at h2
    cases h2
  · exfalso
    have ha := hrange a (by simp)
    have hb := hrange b (by simp)
    have hd := hrange d (by simp)
    have hlt : a < b ∧ b < d := by
      simp only [List.pairwise_cons, List.mem_cons, forall_eq_or_imp] at hsorted
      exact ⟨hsorted.1.1, hsorted.2.1.1⟩
    omega

/-- C15, instance: readings `0, 200, 400, ...` against the thresholds 1200 and 1900; the
swap search exchanges `5` and `7` until the deadline and `solve` returns `[5]`. -/
theorem C15_single_edge_witness :
    (Solver.mk (Graph.loadFromFile [(5, 7)]) 2000 1200 1900).solve 9 ⟨fun k => ((200 * k : Nat) : Rat)⟩ = some [5] ∧
    (([5] : List Int).length = 1 ∧ (([5] : List Int) = [5] ∨ ([5] : List Int) = [7])) :=
  ⟨by decide,
    C15_single_edge 2000 1200 1900 9 ⟨fun k => ((200 * k : Nat) : Rat)⟩ ([5], [5], 2) [5] (by decide)
      (fun j hj => by
        show ((200 * j : Nat) : Rat) ≤ 1200
        have : j < 2 := hj
        exact_mod_cast (by omega : 200 * j ≤ 1200))
      (by decide)⟩

/-- C16. `solve` always returns: on a constructed graph, for every clock whose readings
are at or above the 95% threshold `timeBudgetSec*0.95` of the program from the `N`-th
reading on, `solve` returns (a fuel of
`maxId + N + 2` loop steps suffices). Independently of the clock, the matching scan
makes at most one reading per stored edge and the greedy loop returns within
`maxId + 1` iterations; the `cleanup` passes are recursions on the length of the cover.
At the head of the swap loop a reading at or above the 95% threshold ends the loop at
once. -/
theorem C16_solve_returns (pairs : List (Int × Int)) (B L60 L95 : Rat) (T : Timer) (N : Nat)
    (hN : ∀ j, N ≤ j → L95 ≤ T.seconds j) :
    (∃ r, (Solver.mk (Graph.loadFromFile pairs) B L60 L95).solve
      ((Graph.loadFromFile pairs).maxId.toNat + 1 + (N + 1)) T = some r) ∧
    (∀ k, ((Solver.mk (Graph.loadFromFile pairs) B L60 L95).twoApproxFromMatching T k).2
      ≤ k + (Graph.loadFromFile pairs).edges.length) ∧
    (∀ (T2 : Timer) (k : Nat), ∃ g, (Solver.mk (Graph.loadFromFile pairs) B L60 L95).greedyMaxDegree
      ((Graph.loadFromFile pairs).maxId.toNat + 1) T2 k = some g) ∧
    (∀ (fuel : Nat) (cover : List Int) (inn : List Bool) (k : Nat),
      L95 ≤ T.seconds k →
      (Solver.mk (Graph.loadFromFile pairs) B L60 L95).improveLoop T (fuel + 1) cover inn true k
        = some (cover, k + 1)) := by
  refine ⟨(Solver.mk (Graph.loadFromFile pairs) B L60 L95).solve_terminates T N hN, fun k => ?_,
    fun T2 k => ?_, fun fuel cover inn k hk => ?_⟩
  · have h := (Solver.mk (Graph.loadFromFile pairs) B L60 L95).matchScan_count_le T
      (Solver.mk (Graph.loadFromFile pairs) B L60 L95).sortedEdges []
      (List.replicate ((Graph.loadFromFile pairs).maxId + 1).toNat false) k
    unfold Solver.sortedEdges at h
    rw [List.length_insertionSort] at h
    exact h
  · exact (Solver.mk (Graph.loadFromFile pairs) B L60 L95).greedy_terminates T2 0 k
  · exact (Solver.mk (Graph.loadFromFile pairs) B L60 L95).improveLoop_deadline T fuel cover inn k hk

/-- C16, instance: the triangle with readings `0, 200, 400, ...` against the thresholds
1200 and 1900; from the tenth reading on the readings are at or above 1900. -/
theorem C16_solve_returns_witness :
    ∃ r, (Solver.mk (Graph.loadFromFile [(1, 2), (2, 3), (3, 1)]) 2000 1200 1900).solve
      ((Graph.loadFromFile [(1, 2), (2, 3), (3, 1)]).maxId.toNat + 1 + (10 + 1))
      ⟨fun k => ((200 * k : Nat) : Rat)⟩ = some r :=
  (C16_solve_returns [(1, 2), (2, 3), (3, 1)] 2000 1200 1900 ⟨fun k => ((200 * k : Nat) : Rat)⟩ 10
    (fun j hj => by
      show (1900 : Rat) ≤ ((200 * j : Nat) : Rat)
      exact_mod_cast (by omega : 1900 ≤ 200 * j))).1

/-- C17. The result is never larger than either heuristic candidate: on a constructed
graph and for every behaviour of the clock under which `solve` returns, the returned
cover is at most as long as the matching candidate and as the greedy candidate. The
kept candidate has the smaller of the two lengths, the swap loop of `localImprove`
leaves a list of the same length without duplicates, and the returned cover is the
`cleanup` of that list, which is not longer. -/
theorem C17_result_not_larger (pairs : List (Int × Int)) (B L60 L95 : Rat) (fuel : Nat) (T : Timer)
    (c : List Int × List Int × Nat) (r : List Int)
    (hc : (Solver.mk (Graph.loadFromFile pairs) B L60 L95).candidates fuel T = some c)
    (hr : (Solver.mk (Graph.loadFromFile pairs) B L60 L95).solve fuel T = some r) :
    c.1 = ((Solver.mk (Graph.loadFromFile pairs) B L60 L95).twoApproxFromMatching T 0).1 ∧
    (∃ g, (Solver.mk (Graph.loadFromFile pairs) B L60 L95).greedyMaxDegree fuel T
        ((Solver.mk (Graph.loadFromFile pairs) B L60 L95).twoApproxFromMatching T 0).2 = some g ∧
      c.2.1 = g.1) ∧
    r.length ≤ min c.1.length c.2.1.length ∧
    (Solver.keep c.1 c.2.1).length = min c.1.length c.2.1.length ∧
    ∃ q, (Solver.mk (Graph.loadFromFile pairs) B L60 L95).improveLoop T fuel (Solver.keep c.1 c.2.1)
        ((Solver.mk (Graph.loadFromFile pairs) B L60 L95).rebuild (Solver.keep c.1 c.2.1)) true c.2.2
        = some q ∧
      q.1.length = (Solver.keep c.1 c.2.1).length ∧ q.1.Nodup ∧
      r = (Solver.mk (Graph.loadFromFile pairs) B L60 L95).cleanup q.1 ∧
      r.length ≤ q.1.length := by
  have hG := Graph.loadFromFile_wf pairs
  obtain ⟨c2, rl, hc2, hrl, rfl⟩ :=
    (Solver.mk (Graph.loadFromFile pairs) B L60 L95).solve_eq_some fuel T r hr
  rw [hc] at hc2
  cases hc2
  obtain ⟨h1, g, hg, h2, _⟩ :=
    (Solver.mk (Graph.loadFromFile pairs) B L60 L95).candidates_eq_some fuel T c hc
  have hkn : (Solver.keep c.1 c.2.1).Nodup := by
    rcases Solver.keep_cases c.1 c.2.1 with h | h
    · rw [h, h1]; exact Solver.twoApprox_nodup _ T 0
    · rw [h, h2]; exact Solver.greedy_nodup _ fuel T _ g hg
  obtain ⟨q, hq, hql, hqn, hrq⟩ :=
    (Solver.mk (Graph.loadFromFile pairs) B L60 L95).localImprove_swaps hG T fuel _ _ rl
      ((Solver.mk (Graph.loadFromFile pairs) B L60 L95).candidates_mem hG fuel T c hc) hkn hrl
  have hle : rl.1.length ≤ q.1.length := by
    rw [hrq]; exact Solver.cleanup_length_le _ q.1
  have hkl := Solver.keep_length c.1 c.2.1
  refine ⟨h1, ⟨g, hg, h2⟩, ?_, hkl, q, hq, hql, hqn, hrq, hle⟩
  rw [← hkl, ← hql]
  exact hle

/-- C17, instance: the triangle with readings `0, 200, 400, ...`; both candidates are
`[1, 2]` and `solve` returns `[2, 3]`. -/
theorem C17_result_not_larger_witness :
    ([2, 3] : List Int).length ≤ min ([1, 2] : List Int).length ([1, 2] : List Int).length :=
  (C17_result_not_larger [(1, 2), (2, 3), (3, 1)] 2000 1200 1900 6 ⟨fun k => ((200 * k : Nat) : Rat)⟩
    ([1, 2], [1, 2], 5) [2, 3] (by decide) (by decide)).2.2.1

/-- C18. Greedy selection rule: in an iteration of `greedyMaxDegree` that passes the
loop test and the deadline check (working adjacency `adj`), the `best<=0` exit is not
taken and the vertex added is the selected one; it lies in `[1, maxId]`, its residual
list is at least as long as that of every vertex of `[1, maxId]`, strictly longer than
that of every vertex with a smaller id, and non-empty. The vertices collected by the
loop are pairwise distinct. -/
theorem C18_greedy_selection (S : Solver) (T : Timer) :
    (∀ (adj : List (List Int)) (cover : List Int) (fuel k : Nat),
      S.hasEdgesLocal adj = true → ¬ T.seconds k > S.limit60 →
      ¬ (S.pickBest adj).1 ≤ 0 ∧
      S.greedyLoop T (fuel + 1) adj cover k =
        S.greedyLoop T fuel (Solver.removeV adj (S.pickBest adj).1)
          (cover ++ [(S.pickBest adj).1]) (k + 1) ∧
      1 ≤ (S.pickBest adj).1 ∧ (S.pickBest adj).1 ≤ S.G.maxId ∧
      (∀ v : Int, 1 ≤ v → v ≤ S.G.maxId →
        (adj.getD v.toNat []).length ≤ (adj.getD (S.pickBest adj).1.toNat []).length) ∧
      (∀ v : Int, 1 ≤ v → v < (S.pickBest adj).1 →
        (adj.getD v.toNat []).length < (adj.getD (S.pickBest adj).1.toNat []).length) ∧
      1 ≤ (adj.getD (S.pickBest adj).1.toNat []).length) ∧
    (∀ (fuel k : Nat) (r : List Int × Nat),
      S.greedyLoop T fuel S.G.adj [] k = some r → r.1.Nodup) := by
  refine ⟨fun adj cover fuel k hE hk => ?_, fun fuel k r hr => ?_⟩
  · have hrule := S.pickBest_rule adj hE
    have hb : ¬ (S.pickBest adj).1 ≤ 0 := by omega
    refine ⟨hb, ?_, hrule⟩
    conv_lhs => unfold Solver.greedyLoop
    rw [if_pos hE, if_neg hk]
    simp only []
    rw [if_neg hb]
  · exact S.greedyLoop_nodup T fuel S.G.adj [] k r List.nodup_nil
      (fun x hx => by cases hx) hr

/-- C18, instance: on the path `1 - 2 - 3` the first iteration selects vertex `2`, and
the loop collects `[2]`. -/
theorem C18_greedy_selection_witness :
    (Solver.mk (Graph.loadFromFile [(1, 2), (2, 3)]) 2000 1200 1900).hasEdgesLocal
        (Graph.loadFromFile [(1, 2), (2, 3)]).adj = true ∧
    ((Solver.mk (Graph.loadFromFile [(1, 2), (2, 3)]) 2000 1200 1900).pickBest
        (Graph.loadFromFile [(1, 2), (2, 3)]).adj).1 = 2 ∧
    (Solver.mk (Graph.loadFromFile [(1, 2), (2, 3)]) 2000 1200 1900).greedyLoop ⟨fun _ => 0⟩ 2
        (Graph.loadFromFile [(1, 2), (2, 3)]).adj [] 0 = some ([2], 1) ∧
    ¬ ((Solver.mk (Graph.loadFromFile [(1, 2), (2, 3)]) 2000 1200 1900).pickBest
        (Graph.loadFromFile [(1, 2), (2, 3)]).adj).1 ≤ 0 ∧
    ([2] : List Int).Nodup :=
  ⟨by decide, by decide, by decide,
    ((C18_greedy_selection (Solver.mk (Graph.loadFromFile [(1, 2), (2, 3)]) 2000 1200 1900)
      ⟨fun _ => 0⟩).1 (Graph.loadFromFile [(1, 2), (2, 3)]).adj [] 1 0 (by decide)
      (by decide)).1,
    (C18_greedy_selection (Solver.mk (Graph.loadFromFile [(1, 2), (2, 3)]) 2000 1200 1900)
      ⟨fun _ => 0⟩).2 2 0 ([2], 1) (by decide)⟩

/-- C19, as stated, fails. On the single edge `(5,7)` the cover `[5]` is feasible and
inclusion-minimal; with a clock that stays at `0` (never reaching the 95%
threshold 1900) the swap loop started on `[5]` exchanges `5` and `7` for ever, so it exits for no
fuel, and neither does `solve`. -/
theorem C19_counterexample :
    (Solver.mk (Graph.loadFromFile [(5, 7)]) 2000 1200 1900).coversAll [5] = true ∧
    (Solver.mk (Graph.loadFromFile [(5, 7)]) 2000 1200 1900).coversAll (([5] : List Int).erase 5)
      = false ∧
    (∀ k, (Timer.mk (fun _ => 0)).seconds k < 1900) ∧
    (∀ fuel k, (Solver.mk (Graph.loadFromFile [(5, 7)]) 2000 1200 1900).improveLoop ⟨fun _ => 0⟩ fuel
      [5] ((Solver.mk (Graph.loadFromFile [(5, 7)]) 2000 1200 1900).rebuild [5]) true k = none) ∧
    (∀ fuel, (Solver.mk (Graph.loadFromFile [(5, 7)]) 2000 1200 1900).solve fuel ⟨fun _ => 0⟩ = none) :=
  ⟨by decide, by decide, fun _ => (by show (0 : Rat) < 1900; norm_num),
    fun fuel k => (Solver.improveLoop_five_seven_none fuel k).1,
    Solver.solve_five_seven_none⟩

/-- C19, amended. The swap loop of `localImprove` exits right after a full pass that
accepts no swap, and at a loop-head reading at or above the 95% threshold
`timeBudgetSec*0.95` of the program; for every graph, every starting cover and every
clock whose readings are at or above that threshold from the `N`-th reading on, it exits
within `N + 2` loop steps. -/
theorem C19_swap_loop_exits (S : Solver) (T : Timer) (N : Nat)
    (hN : ∀ j, N ≤ j → S.limit95 ≤ T.seconds j) :
    (∀ (cover : List Int) (inn : List Bool) (improved : Bool) (k : Nat),
      ∃ r, S.improveLoop T (N + 2) cover inn improved k = some r) ∧
    (∀ (fuel : Nat) (cover : List Int) (inn : List Bool) (k : Nat),
      S.limit95 ≤ T.seconds k →
      S.improveLoop T (fuel + 1) cover inn true k = some (cover, k + 1)) ∧
    (∀ (fuel : Nat) (cover : List Int) (inn : List Bool) (k : Nat),
      T.seconds k < S.limit95 →
      (S.passScan T cover.length cover inn (k + 1)).2.2.1 = false →
      S.improveLoop T (fuel + 2) cover inn true k =
        some ((S.passScan T cover.length cover inn (k + 1)).1,
          (S.passScan T cover.length cover inn (k + 1)).2.2.2)) :=
  ⟨fun cover inn improved k =>
      S.improveLoop_terminates T N hN (N + 2) cover inn improved k (by omega) (by omega),
    fun fuel cover inn k hk => S.improveLoop_deadline T fuel cover inn k hk,
    fun fuel cover inn k hk hp => S.improveLoop_exhausted T fuel cover inn k hk hp⟩

/-- C19, amended, instance: the single edge `(5,7)` with readings `0, 200, 400, ...`
against the thresholds 1200 and 1900; started on `[5]` at the third reading, the swap
loop exits. -/
theorem C19_swap_loop_exits_witness :
    ∃ r, (Solver.mk (Graph.loadFromFile [(5, 7)]) 2000 1200 1900).improveLoop ⟨fun k => ((200 * k : Nat) : Rat)⟩
      (10 + 2) [5] ((Solver.mk (Graph.loadFromFile [(5, 7)]) 2000 1200 1900).rebuild [5]) true 2
      = some r :=
  (C19_swap_loop_exits (Solver.mk (Graph.loadFromFile [(5, 7)]) 2000 1200 1900) ⟨fun k => ((200 * k : Nat) : Rat)⟩ 10
    (fun j hj => by
      show (1900 : Rat) ≤ ((200 * j : Nat) : Rat)
      exact_mod_cast (by omega : 1900 ≤ 200 * j))).1 [5] _ true 2

/-- C20. No out-of-range access: on every constructed graph, for every fuel and every
behaviour of the clock, the bounds-checked `loadFromFile` and the bounds-checked `solve`
(reads and writes of `in`, `deg`, `matched`, `adj`, `active` and the cover, and the erase
and insert positions of `cleanup`) never take their error branch; they return what the
embedding returns. Edge endpoints lie in `[1, maxId]` and `adj`, `active` have
`maxId + 1` entries. The check is not idle: on a graph value whose edge `(2,5)` exceeds
`maxId = 3` the checked `solve` reports the access. -/
theorem C20_no_out_of_range (pairs : List (Int × Int)) (B L60 L95 : Rat) (fuel : Nat) (T : Timer) :
    Checked.loadFromFile pairs = some (Graph.loadFromFile pairs) ∧
    Checked.solve (Solver.mk (Graph.loadFromFile pairs) B L60 L95) fuel T =
      some ((Solver.mk (Graph.loadFromFile pairs) B L60 L95).solve fuel T) ∧
    (∀ e ∈ (Graph.loadFromFile pairs).edges,
      1 ≤ e.1 ∧ e.1 ≤ (Graph.loadFromFile pairs).maxId ∧
      1 ≤ e.2 ∧ e.2 ≤ (Graph.loadFromFile pairs).maxId) ∧
    (Graph.loadFromFile pairs).adj.length = ((Graph.loadFromFile pairs).maxId + 1).toNat ∧
    (Graph.loadFromFile pairs).active.length = ((Graph.loadFromFile pairs).maxId + 1).toNat ∧
    Checked.solve
      (Solver.mk ⟨3, [(1, 2), (2, 5)], [[], [2], [1, 5], []], [false, true, true, false]⟩ 2000 1200 1900)
      6 ⟨fun k => ((200 * k : Nat) : Rat)⟩ = none := by
  refine ⟨Checked.loadFromFile_ok pairs,
    Checked.solve_ok (Solver.mk (Graph.loadFromFile pairs) B L60 L95) (Graph.loadFromFile_wf pairs)
      fuel T,
    fun e he => ?_, Graph.adj_length pairs, Graph.active_length pairs, by decide⟩
  have := Graph.edge_bounds pairs e he
  omega

/-- C20, instance: the triangle with readings `0, 200, 400, ...`; the checked `solve`
returns the cover `[2, 3]`. -/
theorem C20_no_out_of_range_witness :
    Checked.solve (Solver.mk (Graph.loadFromFile [(1, 2), (2, 3), (3, 1)]) 2000 1200 1900) 6
      ⟨fun k => ((200 * k : Nat) : Rat)⟩ = some (some [2, 3]) :=
  ((C20_no_out_of_range [(1, 2), (2, 3), (3, 1)] 2000 1200 1900 6 ⟨fun k => ((200 * k : Nat) : Rat)⟩).2.1).trans
    (congrArg some (by decide))

end Contest
